import Mathlib

/-!
# ChronoXchange: the in-memory order book and its matching walk

A shallow embedding of `internal/matching/orderbook.go`, `pkg/types/market.go`
and the command dispatch of `cmd/engine/main.go`.

Modelling conventions.

* `decimal.Decimal` is exact arithmetic; only `Add`, `Sub`, `Min`, `Equal`,
  `LessThan` and `GreaterThan` are used by the book, so a decimal is an integer
  count of the smallest unit.
* `uuid.UUID` is a natural number.  `uuid.New()` is an argument of `AddOrder`
  (the identifier drawn for the incoming order).
* A Go map `map[string]*types.Order` keyed by the order id is the list of its
  values, in insertion order.  Go leaves the order of `range` over a map
  unspecified, so every function that ranges over a map takes a `RangeOrder`:
  the permutation in which the runtime visits the entries.
* `time.Now()` (the `TradeID` of a fill) and the mutex are not modelled.
* The `for` loops of `matchBid` and `matchAsk` carry a fuel argument, set to the
  number of price levels of the walked side plus one; `matching_terminates`
  shows, on every book, that it never runs out.
-/

namespace ChronoXchange

/-! ## Data model (`pkg/types/market.go`) -/

abbrev Decimal := Int

abbrev UUID := Nat

abbrev OrderSide := String

def Buy : OrderSide := "buy"

def Sell : OrderSide := "sell"

structure CreateOrderData where
  UserID : UUID
  Market : String
  Price : Decimal
  Quantity : Decimal
  Side : OrderSide
deriving DecidableEq, Repr

structure Order where
  ID : UUID
  UserID : UUID
  Side : OrderSide
  Price : Decimal
  Quantity : Decimal
  Filled : Decimal
deriving DecidableEq, Repr

structure Fill where
  Qty : Decimal
  Price : Decimal
  MarketOrderID : UUID
  OtherUserID : UUID
deriving DecidableEq, Repr

/-- The command payload of the engine queue (`APIMessage` in `cmd/engine/main.go`);
the field `Type` of the source is `Kind` here. -/
structure APIMessage where
  Kind : String
  Data : CreateOrderData
deriving DecidableEq, Repr

/-! ## The order book (`internal/matching/orderbook.go`) -/

structure Orderbook where
  market : String
  bids : List Order
  asks : List Order
  bidPrices : List Decimal
  askPrices : List Decimal
deriving DecidableEq, Repr

/-- The order in which one `range` statement visits the entries of a map: some
permutation of the entries. -/
structure RangeOrder where
  visit : List Order → List Order
  perm : ∀ l, (visit l).Perm l

/-- Entries are visited in insertion order. -/
def RangeOrder.inserted : RangeOrder := ⟨fun l => l, fun l => List.Perm.refl l⟩

/-- Entries are visited latest first. -/
def RangeOrder.latestFirst : RangeOrder := ⟨List.reverse, fun l => List.reverse_perm l⟩

def NewOrderbook (market : String) : Orderbook :=
  { market := market, bids := [], asks := [], bidPrices := [], askPrices := [] }

/-- Go `m[o.ID.String()] = o`: replaces the entry with that key, or adds one. -/
def mapInsert (m : List Order) (o : Order) : List Order :=
  if m.any (fun x => x.ID == o.ID) then m.map (fun x => if x.ID = o.ID then o else x)
  else m ++ [o]

/-- A write through the pointer stored under the key of `o`. -/
def mapUpdate (m : List Order) (o : Order) : List Order :=
  m.map (fun x => if x.ID = o.ID then o else x)

/-- Go `delete(m, id)`. -/
def mapDelete (m : List Order) (id : UUID) : List Order :=
  m.filter (fun x => x.ID ≠ id)

def getOrdersByPrice (ρ : RangeOrder) (ob : Orderbook) (side : OrderSide) (price : Decimal) :
    List Order :=
  let source := if side = Sell then ob.asks else ob.bids
  (ρ.visit source).filter (fun order => order.Price = price)

def hasPrice (ob : Orderbook) (side : OrderSide) (price : Decimal) : Bool :=
  let prices := if side = Sell then ob.askPrices else ob.bidPrices
  prices.any (fun p => p == price)

def removePrice (ob : Orderbook) (side : OrderSide) (price : Decimal) : Orderbook :=
  if side = Buy then { ob with bidPrices := ob.bidPrices.erase price }
  else { ob with askPrices := ob.askPrices.erase price }

def remove (ρ : RangeOrder) (ob : Orderbook) (order : Order) : Orderbook :=
  let ob1 :=
    if order.Side = Buy then { ob with bids := mapDelete ob.bids order.ID }
    else { ob with asks := mapDelete ob.asks order.ID }
  if (getOrdersByPrice ρ ob1 order.Side order.Price).length = 0 then
    removePrice ob1 order.Side order.Price
  else ob1

/-- The body of `add`; `sort.Slice` with `GreaterThan` / `LessThan` is the sort
into descending / ascending order. -/
def add (ob : Orderbook) (order : Order) : Orderbook :=
  if order.Side = Buy then
    let ob1 := { ob with bids := mapInsert ob.bids order }
    if !hasPrice ob1 Buy order.Price then
      { ob1 with bidPrices := List.insertionSort (fun a b => a ≥ b) (ob1.bidPrices ++ [order.Price]) }
    else ob1
  else
    let ob1 := { ob with asks := mapInsert ob.asks order }
    if !hasPrice ob1 Sell order.Price then
      { ob1 with askPrices := List.insertionSort (fun a b => a ≤ b) (ob1.askPrices ++ [order.Price]) }
    else ob1

/-- The fill emitted for maker `m` (lines 86-92 and 128-134). -/
def mkFill (qtyToFill : Decimal) (matchedOrder : Order) : Fill :=
  { Qty := qtyToFill, Price := matchedOrder.Price,
    MarketOrderID := matchedOrder.ID, OtherUserID := matchedOrder.UserID }

/-- The inner `range ordersAtPrice` loop of `matchBid` (lines 77-97): the
snapshot of makers still to visit, the book, the taker and the fills so far. -/
def matchBidOrders (ρ : RangeOrder) :
    List Order → Orderbook → Order → List Fill → Orderbook × Order × List Fill
  | [], ob, order, fills => (ob, order, fills)
  | matchedOrder :: rest, ob, order, fills =>
    if order.Filled = order.Quantity then (ob, order, fills)
    else
      let qtyToFill := min (order.Quantity - order.Filled)
        (matchedOrder.Quantity - matchedOrder.Filled)
      let order1 := { order with Filled := order.Filled + qtyToFill }
      let matched1 := { matchedOrder with Filled := matchedOrder.Filled + qtyToFill }
      let ob1 := { ob with asks := mapUpdate ob.asks matched1 }
      let fills1 := fills ++ [mkFill qtyToFill matchedOrder]
      let ob2 := if matched1.Filled = matched1.Quantity then remove ρ ob1 matched1 else ob1
      matchBidOrders ρ rest ob2 order1 fills1

/-- The outer loop of `matchBid` (lines 70-104) from index `i`. -/
def matchBidLoop (ρ : RangeOrder) :
    Nat → Orderbook → Order → List Fill → Nat → Orderbook × Order × List Fill
  | 0, ob, order, fills, _ => (ob, order, fills)
  | fuel + 1, ob, order, fills, i =>
    if h : i < ob.askPrices.length ∧ order.Filled < order.Quantity then
      have hi : i < ob.askPrices.length := h.1
      let askPrice := ob.askPrices[i]
      if order.Price < askPrice then (ob, order, fills)
      else
        let r := matchBidOrders ρ (getOrdersByPrice ρ ob Sell askPrice) ob order fills
        if (getOrdersByPrice ρ r.1 Sell askPrice).length = 0 then
          matchBidLoop ρ fuel (removePrice r.1 Sell askPrice) r.2.1 r.2.2 i
        else matchBidLoop ρ fuel r.1 r.2.1 r.2.2 (i + 1)
    else (ob, order, fills)

def matchBid (ρ : RangeOrder) (ob : Orderbook) (order : Order) :
    Orderbook × Order × List Fill :=
  matchBidLoop ρ (ob.askPrices.length + 1) ob order [] 0

/-- The inner `range ordersAtPrice` loop of `matchAsk` (lines 120-139). -/
def matchAskOrders (ρ : RangeOrder) :
    List Order → Orderbook → Order → List Fill → Orderbook × Order × List Fill
  | [], ob, order, fills => (ob, order, fills)
  | matchedOrder :: rest, ob, order, fills =>
    if order.Filled = order.Quantity then (ob, order, fills)
    else
      let qtyToFill := min (order.Quantity - order.Filled)
        (matchedOrder.Quantity - matchedOrder.Filled)
      let order1 := { order with Filled := order.Filled + qtyToFill }
      let matched1 := { matchedOrder with Filled := matchedOrder.Filled + qtyToFill }
      let ob1 := { ob with bids := mapUpdate ob.bids matched1 }
      let fills1 := fills ++ [mkFill qtyToFill matchedOrder]
      let ob2 := if matched1.Filled = matched1.Quantity then remove ρ ob1 matched1 else ob1
      matchAskOrders ρ rest ob2 order1 fills1

/-- The outer loop of `matchAsk` (lines 113-146) from index `i`. -/
def matchAskLoop (ρ : RangeOrder) :
    Nat → Orderbook → Order → List Fill → Nat → Orderbook × Order × List Fill
  | 0, ob, order, fills, _ => (ob, order, fills)
  | fuel + 1, ob, order, fills, i =>
    if h : i < ob.bidPrices.length ∧ order.Filled < order.Quantity then
      have hi : i < ob.bidPrices.length := h.1
      let bidPrice := ob.bidPrices[i]
      if order.Price > bidPrice then (ob, order, fills)
      else
        let r := matchAskOrders ρ (getOrdersByPrice ρ ob Buy bidPrice) ob order fills
        if (getOrdersByPrice ρ r.1 Buy bidPrice).length = 0 then
          matchAskLoop ρ fuel (removePrice r.1 Buy bidPrice) r.2.1 r.2.2 i
        else matchAskLoop ρ fuel r.1 r.2.1 r.2.2 (i + 1)
    else (ob, order, fills)

def matchAsk (ρ : RangeOrder) (ob : Orderbook) (order : Order) :
    Orderbook × Order × List Fill :=
  matchAskLoop ρ (ob.bidPrices.length + 1) ob order [] 0

/-- The taker built at lines 40-47. -/
def newOrder (newID : UUID) (orderData : CreateOrderData) : Order :=
  { ID := newID, UserID := orderData.UserID, Side := orderData.Side,
    Price := orderData.Price, Quantity := orderData.Quantity, Filled := 0 }

/-- `AddOrder`; returns the book afterwards and the fills. -/
def AddOrder (ρ : RangeOrder) (newID : UUID) (ob : Orderbook) (orderData : CreateOrderData) :
    Orderbook × List Fill :=
  let order := newOrder newID orderData
  let r := if order.Side = Buy then matchBid ρ ob order else matchAsk ρ ob order
  if r.2.1.Quantity > r.2.1.Filled then (add r.1 r.2.1, r.2.2) else (r.1, r.2.2)

/-- Step 5 of the engine loop (`cmd/engine/main.go`, lines 87-103): the switch
on the command type, applied to the single book of the engine. -/
def processCommand (ρ : RangeOrder) (newID : UUID) (ob : Orderbook) (apiMsg : APIMessage) :
    Orderbook × List Fill :=
  if apiMsg.Kind = "CREATE_ORDER" then AddOrder ρ newID ob apiMsg.Data
  else (ob, [])

/-! ## The walk of one side, stated once for both directions -/

/-- Price `a` comes strictly before price `b` on the walked side: ascending for
asks, descending for bids. -/
def before (asc : Bool) (a b : Decimal) : Prop := if asc then a < b else b < a

instance beforeDecidable (asc : Bool) (a b : Decimal) : Decidable (before asc a b) := by
  unfold before; infer_instance

/-- The part of the book a walk works on: the map and price list of the side
opposite to the taker, the taker, and the fills so far. -/
structure MatchState where
  orders : List Order
  prices : List Decimal
  taker : Order
  fills : List Fill

/-- The entries of map `m` at `price`, as `getOrdersByPrice` lists them. -/
def levelOf (ρ : RangeOrder) (m : List Order) (price : Decimal) : List Order :=
  (ρ.visit m).filter (fun order => order.Price = price)

/-- The quantity exchanged between a taker and maker `m` (lines 82 and 124). -/
def fillQty (taker m : Order) : Decimal :=
  min (taker.Quantity - taker.Filled) (m.Quantity - m.Filled)

/-- Maker `m` after the fill. -/
def filledMaker (taker m : Order) : Order :=
  { m with Filled := m.Filled + fillQty taker m }

/-- One pass of the inner loop body for maker `m`.  `own` is the side whose map
is walked and `other` the map of the taker's side, which `remove` consults for a
maker whose side string is not `own`. -/
def fillOne (ρ : RangeOrder) (own : OrderSide) (other : List Order) (s : MatchState)
    (m : Order) : MatchState :=
  let m1 := filledMaker s.taker m
  let orders2 :=
    if m1.Filled = m1.Quantity then mapDelete (mapUpdate s.orders m1) m1.ID
    else mapUpdate s.orders m1
  { orders := orders2,
    prices :=
      if m1.Filled = m1.Quantity ∧
          (levelOf ρ (if m1.Side = own then orders2 else other) m1.Price).length = 0
      then s.prices.erase m1.Price else s.prices,
    taker := { s.taker with Filled := s.taker.Filled + fillQty s.taker m },
    fills := s.fills ++ [mkFill (fillQty s.taker m) m] }

/-- The inner loop over a snapshot of makers. -/
def fillLevel (ρ : RangeOrder) (own : OrderSide) (other : List Order) :
    List Order → MatchState → MatchState
  | [], s => s
  | m :: rest, s =>
    if s.taker.Filled = s.taker.Quantity then s
    else fillLevel ρ own other rest (fillOne ρ own other s m)

/-- The outer loop over the price list from index `i`. -/
def walk (ρ : RangeOrder) (asc : Bool) (own : OrderSide) (other : List Order) :
    Nat → MatchState → Nat → MatchState
  | 0, s, _ => s
  | fuel + 1, s, i =>
    if h : i < s.prices.length ∧ s.taker.Filled < s.taker.Quantity then
      have hi : i < s.prices.length := h.1
      let p := s.prices[i]
      if before asc s.taker.Price p then s
      else
        let s1 := fillLevel ρ own other (levelOf ρ s.orders p) s
        if (levelOf ρ s1.orders p).length = 0 then
          walk ρ asc own other fuel { s1 with prices := s1.prices.erase p } i
        else walk ρ asc own other fuel s1 (i + 1)
    else s

/-- The book with the ask side replaced by the walked state. -/
def putAsks (ob : Orderbook) (s : MatchState) : Orderbook :=
  { ob with asks := s.orders, askPrices := s.prices }

/-- The book with the bid side replaced by the walked state. -/
def putBids (ob : Orderbook) (s : MatchState) : Orderbook :=
  { ob with bids := s.orders, bidPrices := s.prices }

/-! ## Invariants and reachable books -/

/-- The keys of a map are pairwise distinct. -/
def NodupIDs (m : List Order) : Prop := (m.map (fun o => o.ID)).Nodup

/-- An order with something left to fill: `0 ≤ filled < quantity`. -/
def Unfilled (o : Order) : Prop := 0 ≤ o.Filled ∧ o.Filled < o.Quantity

/-- A map of resting orders: distinct keys, every entry unfilled. -/
def LiveMap (m : List Order) : Prop := NodupIDs m ∧ ∀ o ∈ m, Unfilled o

/-- The state of a walk that every step keeps: a live map and a taker with
`0 ≤ filled ≤ quantity`. -/
def Base (s : MatchState) : Prop :=
  LiveMap s.orders ∧ 0 ≤ s.taker.Filled ∧ s.taker.Filled ≤ s.taker.Quantity

/-- Orders `a` and `b` are the same order at two moments: everything but
`Filled` agrees. -/
def SameOrder (a b : Order) : Prop :=
  a.ID = b.ID ∧ a.UserID = b.UserID ∧ a.Side = b.Side ∧ a.Price = b.Price ∧
    a.Quantity = b.Quantity

/-- The total quantity of a list of fills. -/
def sumQty (fills : List Fill) : Decimal := (fills.map (fun f => f.Qty)).sum

/-- No order of the book carries identifier `id`. -/
def Fresh (id : UUID) (ob : Orderbook) : Prop := ∀ o ∈ ob.bids ++ ob.asks, o.ID ≠ id

/-- The books obtained from a new book by `AddOrder` calls whose payloads
satisfy `A`, each call drawing an identifier not on the book. -/
inductive ReachableBy (A : CreateOrderData → Prop) : Orderbook → Prop
  | new (market : String) : ReachableBy A (NewOrderbook market)
  | addOrder (ρ : RangeOrder) (newID : UUID) (ob : Orderbook) (orderData : CreateOrderData) :
      ReachableBy A ob → Fresh newID ob → A orderData →
      ReachableBy A (AddOrder ρ newID ob orderData).1

/-- Reachable by any `AddOrder` calls. -/
def Reachable (ob : Orderbook) : Prop := ReachableBy (fun _ => True) ob

/-- Reachable by `AddOrder` calls whose side is `Buy` or `Sell`. -/
def ReachableBuySell (ob : Orderbook) : Prop :=
  ReachableBy (fun d => d.Side = Buy ∨ d.Side = Sell) ob

/-- What every reachable book satisfies: both maps live, bids carry side `Buy`,
asks carry another side. -/
def WeakInv (ob : Orderbook) : Prop :=
  LiveMap ob.bids ∧ LiveMap ob.asks ∧ (∀ o ∈ ob.bids, o.Side = Buy) ∧
    (∀ o ∈ ob.asks, o.Side ≠ Buy)

/-- Fill `f` names order `y` as its maker, at the limit price of `y`. -/
def Names (f : Fill) (y : Order) : Prop :=
  f.MarketOrderID = y.ID ∧ f.OtherUserID = y.UserID ∧ f.Price = y.Price

/-- How a state `s` of a walk relates to the state `s0` it started from. -/
def Track (asc : Bool) (s0 s : MatchState) : Prop :=
  SameOrder s0.taker s.taker ∧
  s.taker.Filled - sumQty s.fills = s0.taker.Filled - sumQty s0.fills ∧
  (∀ x ∈ s.orders, ∃ y ∈ s0.orders, SameOrder y x ∧ y.Filled ≤ x.Filled) ∧
  (∃ new, s.fills = s0.fills ++ new ∧
    ∀ f ∈ new, 0 < f.Qty ∧ ∃ y ∈ s0.orders, Names f y ∧ ¬ before asc s0.taker.Price y.Price)

/-- The walk `matchBid` performs on the asks of `ob`. -/
def bidWalk (ρ : RangeOrder) (ob : Orderbook) (order : Order) : MatchState :=
  walk ρ true Sell ob.bids (ob.askPrices.length + 1) ⟨ob.asks, ob.askPrices, order, []⟩ 0

/-- The walk `matchAsk` performs on the bids of `ob`. -/
def askWalk (ρ : RangeOrder) (ob : Orderbook) (order : Order) : MatchState :=
  walk ρ false Buy ob.asks (ob.bidPrices.length + 1) ⟨ob.bids, ob.bidPrices, order, []⟩ 0

/-- The resting order with identifier `id`, if any. -/
def findOrder (ob : Orderbook) (id : UUID) : Option Order :=
  (ob.bids ++ ob.asks).find? (fun o => o.ID == id)

/-- The quantity order `id` still has on the book; `0` when it is not there. -/
def remainingOnBook (ob : Orderbook) (id : UUID) : Decimal :=
  match findOrder ob id with
  | some o => o.Quantity - o.Filled
  | none => 0

/-- Order `id` is on the book. -/
def OnBook (ob : Orderbook) (id : UUID) : Prop := ∃ o ∈ ob.bids ++ ob.asks, o.ID = id

/-- The incoming order as it rests after `filled` of it has been matched. -/
def restingOrder (newID : UUID) (orderData : CreateOrderData) (filled : Decimal) : Order :=
  { newOrder newID orderData with Filled := filled }

/-- The walked side of a book whose orders all carry the side `own`: the price
list is strictly sorted in walk order and lists exactly the prices at which an
order rests. -/
def Clean (asc : Bool) (own : OrderSide) (s : MatchState) : Prop :=
  (∀ o ∈ s.orders, o.Side = own) ∧ s.prices.Pairwise (before asc) ∧
    ∀ p, p ∈ s.prices ↔ ∃ o ∈ s.orders, o.Price = p

/-- Where a walk may stop: the taker is filled, or no maker is left at a price
the taker accepts. -/
def Done (asc : Bool) (s : MatchState) : Prop :=
  s.taker.Filled = s.taker.Quantity ∨ ∀ o ∈ s.orders, before asc s.taker.Price o.Price

/-- One side of a well-formed book: a live map of orders that all carry the
side `own`, with a price list strictly sorted in walk order that lists exactly
the prices at which an order rests. -/
def SideOK (asc : Bool) (own : OrderSide) (orders : List Order) (prices : List Decimal) :
    Prop :=
  LiveMap orders ∧ (∀ o ∈ orders, o.Side = own) ∧ prices.Pairwise (before asc) ∧
    ∀ p, p ∈ prices ↔ ∃ o ∈ orders, o.Price = p

/-- What every book reached by Buy and Sell orders satisfies: both sides
well-formed and no bid priced at or above an ask. -/
def StrongInv (ob : Orderbook) : Prop :=
  SideOK false Buy ob.bids ob.bidPrices ∧ SideOK true Sell ob.asks ob.askPrices ∧
    ∀ b ∈ ob.bids, ∀ a ∈ ob.asks, b.Price < a.Price

/-! ## Concrete books used as test inputs -/

/-- A `CREATE_ORDER` payload on market `SOL_USDC`. -/
def mkData (user : UUID) (price quantity : Decimal) (side : OrderSide) : CreateOrderData :=
  { UserID := user, Market := "SOL_USDC", Price := price, Quantity := quantity, Side := side }

/-- One resting Sell `(100, 2)` by user 1. -/
def bookOneAsk : Orderbook :=
  (AddOrder RangeOrder.inserted 1 (NewOrderbook "SOL_USDC") (mkData 1 100 2 Sell)).1

/-- Resting Sells `(100, 2)` by user 1, then `(100, 2)` by user 2. -/
def bookTwoAsks : Orderbook :=
  (AddOrder RangeOrder.inserted 2 bookOneAsk (mkData 2 100 2 Sell)).1

/-- Resting Sells `(100, 3)` by user 1 and `(101, 4)` by user 2. -/
def bookLadder : Orderbook :=
  (AddOrder RangeOrder.inserted 2
    (AddOrder RangeOrder.inserted 1 (NewOrderbook "SOL_USDC") (mkData 1 100 3 Sell)).1
    (mkData 2 101 4 Sell)).1

/-! ## Quantities the claims speak about -/

/-- The liquidity a Buy with limit `P` can reach: the sum of
`Quantity - Filled` over the resting asks with price `≤ P`. -/
def askLiquidity (ob : Orderbook) (P : Decimal) : Decimal :=
  ((ob.asks.filter (fun o => o.Price ≤ P)).map (fun o => o.Quantity - o.Filled)).sum

/-- The liquidity a Sell with limit `P` can reach: the sum of
`Quantity - Filled` over the resting bids with price `≥ P`. -/
def bidLiquidity (ob : Orderbook) (P : Decimal) : Decimal :=
  ((ob.bids.filter (fun o => o.Price ≥ P)).map (fun o => o.Quantity - o.Filled)).sum

/-- What an order offers to a taker with limit `P`: its open quantity if the
taker accepts its price, nothing otherwise. -/
def offer (asc : Bool) (P : Decimal) (o : Order) : Decimal :=
  if before asc P o.Price then 0 else o.Quantity - o.Filled

/-- The liquidity of a side at the prices a taker with limit `P` accepts. -/
def liq (asc : Bool) (P : Decimal) (orders : List Order) : Decimal :=
  (orders.map (offer asc P)).sum

/-- The total quantity of the fills that name order `id` as maker. -/
def got (fills : List Fill) (id : UUID) : Decimal :=
  sumQty (fills.filter (fun f => f.MarketOrderID = id))

/-- Maker accounting: every order `y` of the starting map is still on the map
with `Filled` raised by what the fills gave it, or is gone and the fills gave
it all it had open. -/
def Acc (orders0 : List Order) (s : MatchState) : Prop :=
  ∀ y ∈ orders0,
    (∃ x ∈ s.orders, SameOrder y x ∧ x.Filled = y.Filled + got s.fills y.ID) ∨
    ((∀ x ∈ s.orders, x.ID ≠ y.ID) ∧ y.Filled + got s.fills y.ID = y.Quantity)

/-- Price priority inside a walk: the fills are in walk order of price, and no
order left on the map has a price before that of a fill. -/
def PricePrio (asc : Bool) (s : MatchState) : Prop :=
  s.fills.Pairwise (fun f g => ¬ before asc g.Price f.Price) ∧
    ∀ f ∈ s.fills, ∀ o ∈ s.orders, ¬ before asc o.Price f.Price

/-- The maker of every fill but the last is gone from the map, and so is the
maker of the last fill while the taker still has quantity to fill. -/
def EarlierGone (s : MatchState) : Prop :=
  (∀ f ∈ s.fills.dropLast, ∀ x ∈ s.orders, x.ID ≠ f.MarketOrderID) ∧
    (s.taker.Filled < s.taker.Quantity →
      ∀ f ∈ s.fills, ∀ x ∈ s.orders, x.ID ≠ f.MarketOrderID)

/-- A resting Sell `(100, 2)` by user 1 and a resting Buy `(99, 5)` by user 2. -/
def bookBidAsk : Orderbook :=
  (AddOrder RangeOrder.inserted 2 bookOneAsk (mkData 2 99 5 Buy)).1

/-! ## Orders whose side string is not `Buy` -/

/-- The payload with its side replaced by `Sell`. -/
def asSell (orderData : CreateOrderData) : CreateOrderData :=
  { orderData with Side := Sell }

/-- The order with identifier `id` gets side `Sell`; other orders are kept. -/
def sellTag (id : UUID) (o : Order) : Order :=
  if o.ID = id then { o with Side := Sell } else o

/-- The state of a walk with the side string of its taker replaced. -/
def retag (sd : OrderSide) (s : MatchState) : MatchState :=
  { s with taker := { s.taker with Side := sd } }

/-! ## The loops with their passes counted -/

/-- The outer loop of `matchBid` (lines 70-104) from index `i`, counting the
passes whose loop condition holds.  The result is `none` only when the fuel
runs out before the loop has ended. -/
def matchBidRun (ρ : RangeOrder) :
    Nat → Orderbook → Order → List Fill → Nat → Option ((Orderbook × Order × List Fill) × Nat)
  | 0, _, _, _, _ => none
  | fuel + 1, ob, order, fills, i =>
    if h : i < ob.askPrices.length ∧ order.Filled < order.Quantity then
      have hi : i < ob.askPrices.length := h.1
      let askPrice := ob.askPrices[i]
      if order.Price < askPrice then some ((ob, order, fills), 1)
      else
        let r := matchBidOrders ρ (getOrdersByPrice ρ ob Sell askPrice) ob order fills
        if (getOrdersByPrice ρ r.1 Sell askPrice).length = 0 then
          (matchBidRun ρ fuel (removePrice r.1 Sell askPrice) r.2.1 r.2.2 i).map
            (fun p => (p.1, p.2 + 1))
        else (matchBidRun ρ fuel r.1 r.2.1 r.2.2 (i + 1)).map (fun p => (p.1, p.2 + 1))
    else some ((ob, order, fills), 0)

/-- The outer loop of `matchAsk` (lines 113-146) from index `i`, counting the
passes whose loop condition holds; `none` only when the fuel runs out. -/
def matchAskRun (ρ : RangeOrder) :
    Nat → Orderbook → Order → List Fill → Nat → Option ((Orderbook × Order × List Fill) × Nat)
  | 0, _, _, _, _ => none
  | fuel + 1, ob, order, fills, i =>
    if h : i < ob.bidPrices.length ∧ order.Filled < order.Quantity then
      have hi : i < ob.bidPrices.length := h.1
      let bidPrice := ob.bidPrices[i]
      if order.Price > bidPrice then some ((ob, order, fills), 1)
      else
        let r := matchAskOrders ρ (getOrdersByPrice ρ ob Buy bidPrice) ob order fills
        if (getOrdersByPrice ρ r.1 Buy bidPrice).length = 0 then
          (matchAskRun ρ fuel (removePrice r.1 Buy bidPrice) r.2.1 r.2.2 i).map
            (fun p => (p.1, p.2 + 1))
        else (matchAskRun ρ fuel r.1 r.2.1 r.2.2 (i + 1)).map (fun p => (p.1, p.2 + 1))
    else some ((ob, order, fills), 0)

/-- `AddOrder` over the counted loops: `none` if a loop runs out of fuel. -/
def AddOrderRun (ρ : RangeOrder) (newID : UUID) (ob : Orderbook)
    (orderData : CreateOrderData) : Option (Orderbook × List Fill) :=
  let order := newOrder newID orderData
  let run :=
    if order.Side = Buy then matchBidRun ρ (ob.askPrices.length + 1) ob order [] 0
    else matchAskRun ρ (ob.bidPrices.length + 1) ob order [] 0
  run.map (fun p =>
    if p.1.2.1.Quantity > p.1.2.1.Filled then (add p.1.1 p.1.2.1, p.1.2.2)
    else (p.1.1, p.1.2.2))

/-! ## Further predicates and test inputs -/

/-- No identifier is on both maps. -/
def IDsApart (ob : Orderbook) : Prop := ∀ b ∈ ob.bids, ∀ a ∈ ob.asks, b.ID ≠ a.ID

/-- No fill of the list names order `y` as its maker. -/
def Unnamed (fills : List Fill) (y : Order) : Prop := ∀ f ∈ fills, f.MarketOrderID ≠ y.ID

/-- Every fill of the list names an order `y` of `orders0` and has the size
`min (Q - sum of the earlier fills) (y.Quantity - y.Filled)`. -/
def Sized (Q : Decimal) (orders0 : List Order) (fills : List Fill) : Prop :=
  ∀ pre f post, fills = pre ++ f :: post →
    ∃ y ∈ orders0, f.MarketOrderID = y.ID ∧
      f.Qty = min (Q - sumQty pre) (y.Quantity - y.Filled)

/-- A resting Buy `(100, 10)` by user 1. -/
def bookOneBid : Orderbook :=
  (AddOrder RangeOrder.inserted 1 (NewOrderbook "SOL_USDC") (mkData 1 100 10 Buy)).1

/-- Two resting orders `(100, 2)` with side string `"hold"`, by users 1 and 2. -/
def bookTwoHold : Orderbook :=
  (AddOrder RangeOrder.inserted 2
    (AddOrder RangeOrder.inserted 1 (NewOrderbook "SOL_USDC") (mkData 1 100 2 "hold")).1
    (mkData 2 100 2 "hold")).1

/-- Maker accounting for order `y` of the book before a call, against the
orders `after` the call and its fills: `y` is still there with `Filled` raised
by exactly what the fills naming it sum to, or it is gone and that sum brought
`Filled` to `Quantity`; and it is gone exactly when the sum does so. -/
def Accounted (after : List Order) (fills : List Fill) (y : Order) : Prop :=
  ((∃ x ∈ after, SameOrder y x ∧ x.Filled = y.Filled + got fills y.ID) ∨
    ((∀ x ∈ after, x.ID ≠ y.ID) ∧ y.Filled + got fills y.ID = y.Quantity)) ∧
  ((∀ x ∈ after, x.ID ≠ y.ID) ↔ y.Filled + got fills y.ID = y.Quantity)

/-! ## The source loops are the walk -/

theorem buy_ne_sell : Buy ≠ Sell := by decide

theorem mapUpdate_side (m : List Order) (o : Order) (P : OrderSide → Prop)
    (h : ∀ x ∈ m, P x.Side) (ho : P o.Side) : ∀ x ∈ mapUpdate m o, P x.Side := by
  intro x hx
  simp only [mapUpdate, List.mem_map] at hx
  obtain ⟨y, hy, rfl⟩ := hx
  split
  · exact ho
  · exact h y hy

theorem mapDelete_subset (m : List Order) (id : UUID) : ∀ x ∈ mapDelete m id, x ∈ m := by
  intro x hx
  exact (List.mem_filter.1 hx).1

/-- On a book whose asks carry a side other than `Buy`, the inner loop of
`matchBid` is `fillLevel` on the ask side. -/
theorem matchBidOrders_eq (ρ : RangeOrder) (snap : List Order) :
    ∀ (ob : Orderbook) (order : Order) (fills : List Fill),
      (∀ m ∈ snap, m.Side ≠ Buy) →
      matchBidOrders ρ snap ob order fills =
        (putAsks ob (fillLevel ρ Sell ob.bids snap ⟨ob.asks, ob.askPrices, order, fills⟩),
         (fillLevel ρ Sell ob.bids snap ⟨ob.asks, ob.askPrices, order, fills⟩).taker,
         (fillLevel ρ Sell ob.bids snap ⟨ob.asks, ob.askPrices, order, fills⟩).fills) := by
  induction snap with
  | nil => intro ob order fills _; rfl
  | cons m rest ih =>
    intro ob order fills hs
    have hm : m.Side ≠ Buy := hs m (List.mem_cons_self _ _)
    have hrest : ∀ x ∈ rest, x.Side ≠ Buy := fun x hx => hs x (List.mem_cons_of_mem _ hx)
    unfold matchBidOrders fillLevel
    by_cases hfull : order.Filled = order.Quantity
    · simp [hfull, putAsks]
    · simp only [hfull, if_false]
      rw [ih _ _ _ hrest]
      simp only [fillOne, filledMaker, fillQty, remove, getOrdersByPrice, removePrice, levelOf,
        hm, if_false]
      by_cases h1 : m.Filled + min (order.Quantity - order.Filled) (m.Quantity - m.Filled)
          = m.Quantity
      · simp only [h1, if_true, true_and]
        by_cases h2 : m.Side = Sell
        · simp only [h2, if_true]
          split <;> simp_all [putAsks]
        · simp only [h2, if_false]
          split <;> simp_all [putAsks]
      · simp [h1, putAsks]

theorem matchAskOrders_eq (ρ : RangeOrder) (snap : List Order) :
    ∀ (ob : Orderbook) (order : Order) (fills : List Fill),
      (∀ m ∈ snap, m.Side = Buy) →
      matchAskOrders ρ snap ob order fills =
        (putBids ob (fillLevel ρ Buy ob.asks snap ⟨ob.bids, ob.bidPrices, order, fills⟩),
         (fillLevel ρ Buy ob.asks snap ⟨ob.bids, ob.bidPrices, order, fills⟩).taker,
         (fillLevel ρ Buy ob.asks snap ⟨ob.bids, ob.bidPrices, order, fills⟩).fills) := by
  induction snap with
  | nil => intro ob order fills _; rfl
  | cons m rest ih =>
    intro ob order fills hs
    have hm : m.Side = Buy := hs m (List.mem_cons_self _ _)
    have hrest : ∀ x ∈ rest, x.Side = Buy := fun x hx => hs x (List.mem_cons_of_mem _ hx)
    unfold matchAskOrders fillLevel
    by_cases hfull : order.Filled = order.Quantity
    · simp [hfull, putBids]
    · simp only [hfull, if_false]
      rw [ih _ _ _ hrest]
      simp only [fillOne, filledMaker, fillQty, remove, getOrdersByPrice, removePrice, levelOf, hm, if_true,
        buy_ne_sell, if_false]
      by_cases h1 : m.Filled + min (order.Quantity - order.Filled) (m.Quantity - m.Filled)
          = m.Quantity
      · simp only [h1, if_true, true_and]
        split <;> simp_all [putBids]
      · simp [h1, putBids]

theorem levelOf_subset (ρ : RangeOrder) (m : List Order) (p : Decimal) :
    ∀ x ∈ levelOf ρ m p, x ∈ m := by
  intro x hx
  exact (ρ.perm m).subset (List.mem_filter.1 hx).1

theorem levelOf_price (ρ : RangeOrder) (m : List Order) (p : Decimal) :
    ∀ x ∈ levelOf ρ m p, x.Price = p := by
  intro x hx
  simpa using (List.mem_filter.1 hx).2


theorem getOrdersByPrice_sell (ρ : RangeOrder) (ob : Orderbook) (p : Decimal) :
    getOrdersByPrice ρ ob Sell p = levelOf ρ ob.asks p := by
  simp [getOrdersByPrice, levelOf]

theorem getOrdersByPrice_buy (ρ : RangeOrder) (ob : Orderbook) (p : Decimal) :
    getOrdersByPrice ρ ob Buy p = levelOf ρ ob.bids p := by
  simp [getOrdersByPrice, levelOf, buy_ne_sell]

theorem fillOne_orders (ρ : RangeOrder) (own : OrderSide) (other : List Order)
    (s : MatchState) (m : Order) :
    (fillOne ρ own other s m).orders =
      if (filledMaker s.taker m).Filled = m.Quantity
      then mapDelete (mapUpdate s.orders (filledMaker s.taker m)) m.ID
      else mapUpdate s.orders (filledMaker s.taker m) := rfl

theorem fillOne_taker (ρ : RangeOrder) (own : OrderSide) (other : List Order)
    (s : MatchState) (m : Order) :
    (fillOne ρ own other s m).taker =
      { s.taker with Filled := s.taker.Filled + fillQty s.taker m } := rfl

theorem fillOne_fills (ρ : RangeOrder) (own : OrderSide) (other : List Order)
    (s : MatchState) (m : Order) :
    (fillOne ρ own other s m).fills = s.fills ++ [mkFill (fillQty s.taker m) m] := rfl

theorem fillOne_prices (ρ : RangeOrder) (own : OrderSide) (other : List Order)
    (s : MatchState) (m : Order) :
    (fillOne ρ own other s m).prices =
      if (filledMaker s.taker m).Filled = m.Quantity ∧
        (levelOf ρ (if m.Side = own then (fillOne ρ own other s m).orders else other)
          m.Price).length = 0
      then s.prices.erase m.Price else s.prices := rfl

theorem fillOne_side (ρ : RangeOrder) (own : OrderSide) (other : List Order)
    (P : OrderSide → Prop) (s : MatchState) (m : Order)
    (h : ∀ x ∈ s.orders, P x.Side) (hm : P m.Side) :
    ∀ x ∈ (fillOne ρ own other s m).orders, P x.Side := by
  have hu := mapUpdate_side s.orders (filledMaker s.taker m) P h hm
  intro x hx
  rw [fillOne_orders] at hx
  split at hx
  · exact hu x (mapDelete_subset _ _ x hx)
  · exact hu x hx

theorem fillLevel_side (ρ : RangeOrder) (own : OrderSide) (other : List Order)
    (P : OrderSide → Prop) (snap : List Order) :
    ∀ s : MatchState, (∀ x ∈ s.orders, P x.Side) → (∀ m ∈ snap, P m.Side) →
      ∀ x ∈ (fillLevel ρ own other snap s).orders, P x.Side := by
  induction snap with
  | nil => intro s h _; exact h
  | cons m rest ih =>
    intro s h hs
    unfold fillLevel
    split
    · exact h
    · exact ih _ (fillOne_side ρ own other P s m h (hs m (List.mem_cons_self _ _)))
        (fun x hx => hs x (List.mem_cons_of_mem _ hx))

theorem walk_zero (ρ : RangeOrder) (asc : Bool) (own : OrderSide) (other : List Order)
    (s : MatchState) (i : Nat) : walk ρ asc own other 0 s i = s := rfl

theorem walk_exit (ρ : RangeOrder) (asc : Bool) (own : OrderSide) (other : List Order)
    (fuel : Nat) (s : MatchState) (i : Nat)
    (h : ¬ (i < s.prices.length ∧ s.taker.Filled < s.taker.Quantity)) :
    walk ρ asc own other fuel s i = s := by
  cases fuel with
  | zero => rfl
  | succ n => unfold walk; rw [dif_neg h]

theorem walk_break (ρ : RangeOrder) (asc : Bool) (own : OrderSide) (other : List Order)
    (fuel : Nat) (s : MatchState) (i : Nat) (hi : i < s.prices.length)
    (hb : before asc s.taker.Price s.prices[i]) :
    walk ρ asc own other fuel s i = s := by
  cases fuel with
  | zero => rfl
  | succ n =>
    unfold walk
    split
    · simp only [hb, if_true]
    · rfl

theorem walk_step (ρ : RangeOrder) (asc : Bool) (own : OrderSide) (other : List Order)
    (fuel : Nat) (s : MatchState) (i : Nat) (hi : i < s.prices.length)
    (hq : s.taker.Filled < s.taker.Quantity)
    (hb : ¬ before asc s.taker.Price s.prices[i]) :
    walk ρ asc own other (fuel + 1) s i =
      if (levelOf ρ (fillLevel ρ own other (levelOf ρ s.orders s.prices[i]) s).orders
          s.prices[i]).length = 0 then
        walk ρ asc own other fuel
          { fillLevel ρ own other (levelOf ρ s.orders s.prices[i]) s with
            prices := (fillLevel ρ own other (levelOf ρ s.orders s.prices[i]) s).prices.erase
              s.prices[i] } i
      else walk ρ asc own other fuel
        (fillLevel ρ own other (levelOf ρ s.orders s.prices[i]) s) (i + 1) := by
  rw [walk]
  rw [dif_pos ⟨hi, hq⟩]
  simp only [hb, if_false]

/-- The outer loop of `matchBid` is `walk` on the ask side. -/
theorem matchBidLoop_eq (ρ : RangeOrder) (fuel : Nat) :
    ∀ (ob : Orderbook) (order : Order) (fills : List Fill) (i : Nat),
      (∀ m ∈ ob.asks, m.Side ≠ Buy) →
      matchBidLoop ρ fuel ob order fills i =
        (putAsks ob (walk ρ true Sell ob.bids fuel ⟨ob.asks, ob.askPrices, order, fills⟩ i),
         (walk ρ true Sell ob.bids fuel ⟨ob.asks, ob.askPrices, order, fills⟩ i).taker,
         (walk ρ true Sell ob.bids fuel ⟨ob.asks, ob.askPrices, order, fills⟩ i).fills) := by
  induction fuel with
  | zero => intro ob order fills i _; simp [matchBidLoop, walk, putAsks]
  | succ fuel ih =>
    intro ob order fills i hs
    by_cases hc : i < ob.askPrices.length ∧ order.Filled < order.Quantity
    · by_cases hb : order.Price < ob.askPrices[i]
      · rw [walk_break _ _ _ _ _ _ i hc.1 (by simpa [before] using hb)]
        unfold matchBidLoop
        simp [hc, hb, putAsks]
      · have hsnap : ∀ m ∈ getOrdersByPrice ρ ob Sell ob.askPrices[i], m.Side ≠ Buy := by
          rw [getOrdersByPrice_sell]
          exact fun m hm => hs m (levelOf_subset ρ ob.asks _ m hm)
        have hside := fillLevel_side ρ Sell ob.bids (fun sd => sd ≠ Buy)
          (levelOf ρ ob.asks ob.askPrices[i]) ⟨ob.asks, ob.askPrices, order, fills⟩ hs
          (fun m hm => hs m (levelOf_subset ρ ob.asks _ m hm))
        rw [walk_step _ _ _ _ _ _ i hc.1 hc.2 (by simpa [before] using hb)]
        unfold matchBidLoop
        rw [dif_pos hc]
        simp only [hb, if_false]
        rw [matchBidOrders_eq ρ _ ob order fills hsnap]
        simp only [getOrdersByPrice_sell]
        by_cases hl : (levelOf ρ (fillLevel ρ Sell ob.bids (levelOf ρ ob.asks ob.askPrices[i])
            ⟨ob.asks, ob.askPrices, order, fills⟩).orders ob.askPrices[i]).length = 0
        · have hl2 : (levelOf ρ (putAsks ob (fillLevel ρ Sell ob.bids
              (levelOf ρ ob.asks ob.askPrices[i])
              ⟨ob.asks, ob.askPrices, order, fills⟩)).asks ob.askPrices[i]).length = 0 := hl
          rw [if_pos hl2, if_pos hl]
          rw [ih _ _ _ _ (by simpa [removePrice, putAsks, buy_ne_sell.symm] using hside)]
          simp [removePrice, putAsks, buy_ne_sell.symm]
        · have hl2 : ¬ (levelOf ρ (putAsks ob (fillLevel ρ Sell ob.bids
              (levelOf ρ ob.asks ob.askPrices[i])
              ⟨ob.asks, ob.askPrices, order, fills⟩)).asks ob.askPrices[i]).length = 0 := hl
          rw [if_neg hl2, if_neg hl]
          rw [ih _ _ _ _ (by simpa [putAsks] using hside)]
          simp [putAsks]
    · rw [walk_exit _ _ _ _ _ _ _ hc]
      unfold matchBidLoop
      simp [hc, putAsks]

/-- The outer loop of `matchAsk` is `walk` on the bid side. -/
theorem matchAskLoop_eq (ρ : RangeOrder) (fuel : Nat) :
    ∀ (ob : Orderbook) (order : Order) (fills : List Fill) (i : Nat),
      (∀ m ∈ ob.bids, m.Side = Buy) →
      matchAskLoop ρ fuel ob order fills i =
        (putBids ob (walk ρ false Buy ob.asks fuel ⟨ob.bids, ob.bidPrices, order, fills⟩ i),
         (walk ρ false Buy ob.asks fuel ⟨ob.bids, ob.bidPrices, order, fills⟩ i).taker,
         (walk ρ false Buy ob.asks fuel ⟨ob.bids, ob.bidPrices, order, fills⟩ i).fills) := by
  induction fuel with
  | zero => intro ob order fills i _; simp [matchAskLoop, walk, putBids]
  | succ fuel ih =>
    intro ob order fills i hs
    by_cases hc : i < ob.bidPrices.length ∧ order.Filled < order.Quantity
    · by_cases hb : order.Price > ob.bidPrices[i]
      · rw [walk_break _ _ _ _ _ _ i hc.1 (by simpa [before] using hb)]
        unfold matchAskLoop
        simp [hc, hb, putBids]
      · have hsnap : ∀ m ∈ getOrdersByPrice ρ ob Buy ob.bidPrices[i], m.Side = Buy := by
          rw [getOrdersByPrice_buy]
          exact fun m hm => hs m (levelOf_subset ρ ob.bids _ m hm)
        have hside := fillLevel_side ρ Buy ob.asks (fun sd => sd = Buy)
          (levelOf ρ ob.bids ob.bidPrices[i]) ⟨ob.bids, ob.bidPrices, order, fills⟩ hs
          (fun m hm => hs m (levelOf_subset ρ ob.bids _ m hm))
        rw [walk_step _ _ _ _ _ _ i hc.1 hc.2 (by simpa [before] using hb)]
        unfold matchAskLoop
        rw [dif_pos hc]
        simp only [hb, if_false]
        rw [matchAskOrders_eq ρ _ ob order fills hsnap]
        simp only [getOrdersByPrice_buy]
        by_cases hl : (levelOf ρ (fillLevel ρ Buy ob.asks (levelOf ρ ob.bids ob.bidPrices[i])
            ⟨ob.bids, ob.bidPrices, order, fills⟩).orders ob.bidPrices[i]).length = 0
        · have hl2 : (levelOf ρ (putBids ob (fillLevel ρ Buy ob.asks
              (levelOf ρ ob.bids ob.bidPrices[i])
              ⟨ob.bids, ob.bidPrices, order, fills⟩)).bids ob.bidPrices[i]).length = 0 := hl
          rw [if_pos hl2, if_pos hl]
          rw [ih _ _ _ _ (by simpa [removePrice, putBids, buy_ne_sell] using hside)]
          simp [removePrice, putBids, buy_ne_sell]
        · have hl2 : ¬ (levelOf ρ (putBids ob (fillLevel ρ Buy ob.asks
              (levelOf ρ ob.bids ob.bidPrices[i])
              ⟨ob.bids, ob.bidPrices, order, fills⟩)).bids ob.bidPrices[i]).length = 0 := hl
          rw [if_neg hl2, if_neg hl]
          rw [ih _ _ _ _ (by simpa [putBids] using hside)]
          simp [putBids]
    · rw [walk_exit _ _ _ _ _ _ _ hc]
      unfold matchAskLoop
      simp [hc, putBids]

/-! ## Map operations -/

theorem mapUpdate_ids (l : List Order) (o : Order) :
    (mapUpdate l o).map (fun x => x.ID) = l.map (fun x => x.ID) := by
  induction l with
  | nil => rfl
  | cons a l ih =>
    simp only [mapUpdate, List.map_cons] at ih ⊢
    rw [ih]
    by_cases h : a.ID = o.ID
    · simp [h]
    · simp [h]

theorem mem_mapUpdate (l : List Order) (o x : Order) (h : x ∈ mapUpdate l o) :
    x = o ∨ (x ∈ l ∧ x.ID ≠ o.ID) := by
  simp only [mapUpdate, List.mem_map] at h
  obtain ⟨y, hy, rfl⟩ := h
  by_cases hid : y.ID = o.ID
  · left; simp [hid]
  · right; simp [hid, hy]

theorem mem_mapUpdate_of_ne (l : List Order) (o x : Order) (h : x ∈ l) (hne : x.ID ≠ o.ID) :
    x ∈ mapUpdate l o := by
  simp only [mapUpdate, List.mem_map]
  exact ⟨x, h, by simp [hne]⟩

theorem mem_mapUpdate_self (l : List Order) (o m : Order) (h : m ∈ l) (hid : m.ID = o.ID) :
    o ∈ mapUpdate l o := by
  simp only [mapUpdate, List.mem_map]
  exact ⟨m, h, by simp [hid]⟩

theorem mem_mapDelete (l : List Order) (id : UUID) (x : Order) :
    x ∈ mapDelete l id ↔ x ∈ l ∧ x.ID ≠ id := by
  simp [mapDelete]

theorem nodupIDs_mapUpdate (l : List Order) (o : Order) (h : NodupIDs l) :
    NodupIDs (mapUpdate l o) := by
  unfold NodupIDs at *
  rw [mapUpdate_ids]; exact h

theorem nodupIDs_mapDelete (l : List Order) (id : UUID) (h : NodupIDs l) :
    NodupIDs (mapDelete l id) := by
  unfold NodupIDs at *
  exact h.sublist ((List.filter_sublist l).map _)

theorem nodupIDs_eq (l : List Order) (h : NodupIDs l) (a b : Order) (ha : a ∈ l) (hb : b ∈ l)
    (hid : a.ID = b.ID) : a = b := by
  unfold NodupIDs at h
  exact List.inj_on_of_nodup_map h ha hb hid

theorem nodupIDs_perm (l₁ l₂ : List Order) (hp : l₁.Perm l₂) (h : NodupIDs l₂) :
    NodupIDs l₁ := by
  unfold NodupIDs at *
  exact ((hp.map _).nodup_iff).2 h

theorem nodupIDs_levelOf (ρ : RangeOrder) (l : List Order) (p : Decimal) (h : NodupIDs l) :
    NodupIDs (levelOf ρ l p) := by
  have h1 : NodupIDs (ρ.visit l) := nodupIDs_perm _ _ (ρ.perm l) h
  unfold NodupIDs at *
  exact h1.sublist ((List.filter_sublist _).map _)

theorem mem_levelOf (ρ : RangeOrder) (l : List Order) (p : Decimal) (x : Order) :
    x ∈ levelOf ρ l p ↔ x ∈ l ∧ x.Price = p := by
  simp [levelOf, (ρ.perm l).mem_iff]

theorem levelOf_length_eq_zero (ρ : RangeOrder) (l : List Order) (p : Decimal) :
    (levelOf ρ l p).length = 0 ↔ ∀ x ∈ l, x.Price ≠ p := by
  rw [List.length_eq_zero, List.eq_nil_iff_forall_not_mem]
  constructor
  · intro h x hx hp
    exact h x ((mem_levelOf ρ l p x).2 ⟨hx, hp⟩)
  · intro h x hx
    exact h x ((mem_levelOf ρ l p x).1 hx).1 ((mem_levelOf ρ l p x).1 hx).2

/-! ## One fill -/

theorem fillQty_pos (t m : Order) (ht : t.Filled < t.Quantity) (hm : Unfilled m) :
    0 < fillQty t m := by
  unfold fillQty
  have := hm.2
  exact lt_min (by linarith) (by linarith)

theorem fillQty_le_taker (t m : Order) : fillQty t m ≤ t.Quantity - t.Filled :=
  min_le_left _ _

theorem fillQty_le_maker (t m : Order) : fillQty t m ≤ m.Quantity - m.Filled :=
  min_le_right _ _

theorem fillQty_cases (t m : Order) :
    fillQty t m = t.Quantity - t.Filled ∨ fillQty t m = m.Quantity - m.Filled := by
  unfold fillQty
  rcases min_choice (t.Quantity - t.Filled) (m.Quantity - m.Filled) with h | h
  · left; exact h
  · right; exact h

theorem sameOrder_filledMaker (t m : Order) : SameOrder m (filledMaker t m) :=
  ⟨rfl, rfl, rfl, rfl, rfl⟩

theorem SameOrder.trans {a b c : Order} (h1 : SameOrder a b) (h2 : SameOrder b c) :
    SameOrder a c :=
  ⟨h1.1.trans h2.1, h1.2.1.trans h2.2.1, h1.2.2.1.trans h2.2.2.1,
    h1.2.2.2.1.trans h2.2.2.2.1, h1.2.2.2.2.trans h2.2.2.2.2⟩

theorem SameOrder.refl (a : Order) : SameOrder a a := ⟨rfl, rfl, rfl, rfl, rfl⟩

/-- Membership in the map after one fill. -/
theorem mem_fillOne (ρ : RangeOrder) (own : OrderSide) (other : List Order)
    (s : MatchState) (m x : Order) (hx : x ∈ (fillOne ρ own other s m).orders) :
    (x ∈ s.orders ∧ x.ID ≠ m.ID) ∨
      (x = filledMaker s.taker m ∧ (filledMaker s.taker m).Filled ≠ m.Quantity) := by
  rw [fillOne_orders] at hx
  by_cases hf : (filledMaker s.taker m).Filled = m.Quantity
  · rw [if_pos hf] at hx
    rw [mem_mapDelete] at hx
    rcases mem_mapUpdate _ _ _ hx.1 with h | h
    · exact absurd (by rw [h]; rfl) hx.2
    · left; exact ⟨h.1, hx.2⟩
  · rw [if_neg hf] at hx
    rcases mem_mapUpdate _ _ _ hx with h | h
    · right; exact ⟨h, hf⟩
    · left; exact h

theorem mem_fillOne_of_ne (ρ : RangeOrder) (own : OrderSide) (other : List Order)
    (s : MatchState) (m x : Order) (hx : x ∈ s.orders) (hne : x.ID ≠ m.ID) :
    x ∈ (fillOne ρ own other s m).orders := by
  rw [fillOne_orders]
  have h1 : x ∈ mapUpdate s.orders (filledMaker s.taker m) :=
    mem_mapUpdate_of_ne _ _ _ hx hne
  split
  · exact (mem_mapDelete _ _ _).2 ⟨h1, hne⟩
  · exact h1

theorem mem_fillOne_self (ρ : RangeOrder) (own : OrderSide) (other : List Order)
    (s : MatchState) (m : Order) (hm : m ∈ s.orders)
    (hf : (filledMaker s.taker m).Filled ≠ m.Quantity) :
    filledMaker s.taker m ∈ (fillOne ρ own other s m).orders := by
  rw [fillOne_orders, if_neg hf]
  exact mem_mapUpdate_self _ _ m hm rfl

theorem base_fillOne (ρ : RangeOrder) (own : OrderSide) (other : List Order)
    (s : MatchState) (m : Order) (hb : Base s) (hq : s.taker.Filled < s.taker.Quantity)
    (hm : m ∈ s.orders) : Base (fillOne ρ own other s m) := by
  obtain ⟨⟨hnd, hun⟩, h0, _⟩ := hb
  have hmu := hun m hm
  have hpos := fillQty_pos s.taker m hq hmu
  have hle := fillQty_le_taker s.taker m
  have hlm := fillQty_le_maker s.taker m
  refine ⟨⟨?_, ?_⟩, ?_, ?_⟩
  · rw [fillOne_orders]
    split
    · exact nodupIDs_mapDelete _ _ (nodupIDs_mapUpdate _ _ hnd)
    · exact nodupIDs_mapUpdate _ _ hnd
  · intro x hx
    rcases mem_fillOne ρ own other s m x hx with h | h
    · exact hun x h.1
    · obtain ⟨rfl, hne⟩ := h
      have h2 : (filledMaker s.taker m).Filled = m.Filled + fillQty s.taker m := rfl
      have h3 : (filledMaker s.taker m).Quantity = m.Quantity := rfl
      unfold Unfilled
      rw [h3]
      have := hmu.1
      have hne' : m.Filled + fillQty s.taker m ≠ m.Quantity := fun h => hne (h2.trans h)
      constructor
      · linarith
      · exact lt_of_le_of_ne (by linarith) hne'
  · rw [fillOne_taker]; show 0 ≤ s.taker.Filled + fillQty s.taker m; linarith
  · rw [fillOne_taker]
    show s.taker.Filled + fillQty s.taker m ≤ s.taker.Quantity
    linarith

/-! ## Invariants of the walk -/

/-- Loop invariant rule for the inner loop: a property kept by every fill of a
maker that is on the map is kept by the loop over a snapshot of the map. -/
theorem fillLevel_inv (ρ : RangeOrder) (own : OrderSide) (other : List Order)
    (C : Order → Prop) (I : MatchState → Prop)
    (hstep : ∀ s m, Base s → s.taker.Filled < s.taker.Quantity → m ∈ s.orders → C m →
      I s → I (fillOne ρ own other s m))
    (snap : List Order) :
    ∀ s : MatchState, Base s → NodupIDs snap → (∀ m ∈ snap, m ∈ s.orders ∧ C m) → I s →
      Base (fillLevel ρ own other snap s) ∧ I (fillLevel ρ own other snap s) := by
  induction snap with
  | nil => intro s hb _ _ hI; exact ⟨hb, hI⟩
  | cons m rest ih =>
    intro s hb hnd hs hI
    unfold fillLevel
    by_cases hfull : s.taker.Filled = s.taker.Quantity
    · rw [if_pos hfull]; exact ⟨hb, hI⟩
    · rw [if_neg hfull]
      have hq : s.taker.Filled < s.taker.Quantity := lt_of_le_of_ne hb.2.2 hfull
      have hm := hs m (List.mem_cons_self _ _)
      have hnd' : (m.ID ∉ rest.map (fun o => o.ID)) ∧ NodupIDs rest := by
        unfold NodupIDs at hnd ⊢
        simpa using hnd
      refine ih _ (base_fillOne ρ own other s m hb hq hm.1) hnd'.2 ?_
        (hstep s m hb hq hm.1 hm.2 hI)
      intro x hx
      have hxs := hs x (List.mem_cons_of_mem _ hx)
      refine ⟨mem_fillOne_of_ne ρ own other s m x hxs.1 ?_, hxs.2⟩
      intro hid
      exact hnd'.1 (by rw [← hid]; exact List.mem_map_of_mem _ hx)

theorem fillLevel_taker_price (ρ : RangeOrder) (own : OrderSide) (other : List Order)
    (snap : List Order) :
    ∀ s : MatchState, (fillLevel ρ own other snap s).taker.Price = s.taker.Price := by
  induction snap with
  | nil => intro s; rfl
  | cons m rest ih =>
    intro s
    unfold fillLevel
    split
    · rfl
    · rw [ih]; rfl

/-- Loop invariant rule for the whole walk: a property kept by every fill of a
maker on the map whose price the taker accepts, and by dropping a price from
the price list, is kept by the walk. -/
theorem walk_inv (ρ : RangeOrder) (asc : Bool) (own : OrderSide) (other : List Order)
    (I : MatchState → Prop)
    (hstep : ∀ s m, Base s → s.taker.Filled < s.taker.Quantity → m ∈ s.orders →
      ¬ before asc s.taker.Price m.Price → I s → I (fillOne ρ own other s m))
    (hdrop : ∀ s p, I s → I { s with prices := s.prices.erase p })
    (fuel : Nat) :
    ∀ (s : MatchState) (i : Nat), Base s → I s →
      Base (walk ρ asc own other fuel s i) ∧ I (walk ρ asc own other fuel s i) := by
  induction fuel with
  | zero => intro s i hb hI; exact ⟨hb, hI⟩
  | succ fuel ih =>
    intro s i hb hI
    by_cases hc : i < s.prices.length ∧ s.taker.Filled < s.taker.Quantity
    · by_cases hbr : before asc s.taker.Price s.prices[i]
      · rw [walk_break _ _ _ _ _ _ i hc.1 hbr]; exact ⟨hb, hI⟩
      · rw [walk_step _ _ _ _ _ _ i hc.1 hc.2 hbr]
        have hlev := fillLevel_inv ρ own other
          (fun m => m.Price = s.prices[i])
          (fun s' => s'.taker.Price = s.taker.Price ∧ I s')
          (by
            intro s' m hb' hq' hm' hC hI'
            refine ⟨by rw [fillOne_taker]; exact hI'.1, ?_⟩
            refine hstep s' m hb' hq' hm' ?_ hI'.2
            rw [hI'.1, hC]; exact hbr)
          (levelOf ρ s.orders s.prices[i]) s hb (nodupIDs_levelOf ρ _ _ hb.1.1)
          (fun m hm => (mem_levelOf ρ _ _ m).1 hm) ⟨rfl, hI⟩
        split
        · exact ih _ _ hlev.1 (hdrop _ _ hlev.2.2)
        · exact ih _ _ hlev.1 hlev.2.2
    · rw [walk_exit _ _ _ _ _ _ _ hc]; exact ⟨hb, hI⟩

/-! ## What a walk does to its state -/

theorem sumQty_append (a b : List Fill) : sumQty (a ++ b) = sumQty a + sumQty b := by
  simp [sumQty]

theorem sumQty_single (f : Fill) : sumQty [f] = f.Qty := by
  simp [sumQty]

theorem track_refl (asc : Bool) (s : MatchState) : Track asc s s :=
  ⟨SameOrder.refl _, rfl, fun x hx => ⟨x, hx, SameOrder.refl _, le_refl _⟩,
    ⟨[], by simp, by simp⟩⟩

theorem track_fillOne (ρ : RangeOrder) (asc : Bool) (own : OrderSide) (other : List Order)
    (s0 s : MatchState) (m : Order) (hb : Base s) (hq : s.taker.Filled < s.taker.Quantity)
    (hm : m ∈ s.orders) (hp : ¬ before asc s.taker.Price m.Price) (ht : Track asc s0 s) :
    Track asc s0 (fillOne ρ own other s m) := by
  obtain ⟨h1, h2, h3, new, h4, h5⟩ := ht
  have hpos := fillQty_pos s.taker m hq (hb.1.2 m hm)
  obtain ⟨y, hy, hym, hyf⟩ := h3 m hm
  refine ⟨?_, ?_, ?_, new ++ [mkFill (fillQty s.taker m) m], ?_, ?_⟩
  · rw [fillOne_taker]; exact h1
  · rw [fillOne_taker, fillOne_fills, sumQty_append, sumQty_single]
    show s.taker.Filled + fillQty s.taker m - (sumQty s.fills + fillQty s.taker m) = _
    linarith
  · intro x hx
    rcases mem_fillOne ρ own other s m x hx with h | h
    · exact h3 x h.1
    · refine ⟨y, hy, ?_, ?_⟩
      · rw [h.1]; exact hym.trans (sameOrder_filledMaker _ _)
      · rw [h.1]
        show y.Filled ≤ m.Filled + fillQty s.taker m
        linarith
  · rw [fillOne_fills, h4, List.append_assoc]
  · intro f hf
    rcases List.mem_append.1 hf with h | h
    · exact h5 f h
    · rw [List.mem_singleton] at h
      subst h
      refine ⟨hpos, y, hy, ⟨hym.1.symm, hym.2.1.symm, hym.2.2.2.1.symm⟩, ?_⟩
      rw [h1.2.2.2.1, hym.2.2.2.1]; exact hp

/-- A walk keeps `Base` and relates its result to its start by `Track`. -/
theorem walk_track (ρ : RangeOrder) (asc : Bool) (own : OrderSide) (other : List Order)
    (fuel : Nat) (s0 : MatchState) (i : Nat) (hb : Base s0) :
    Base (walk ρ asc own other fuel s0 i) ∧ Track asc s0 (walk ρ asc own other fuel s0 i) :=
  walk_inv ρ asc own other (Track asc s0)
    (fun s m hb' hq hm hp ht => track_fillOne ρ asc own other s0 s m hb' hq hm hp ht)
    (fun _ _ ht => ht) fuel s0 i hb (track_refl asc s0)

/-- A taker with nothing to fill (`quantity ≤ filled`) leaves the state as it is. -/
theorem walk_nothing (ρ : RangeOrder) (asc : Bool) (own : OrderSide) (other : List Order)
    (fuel : Nat) (s : MatchState) (i : Nat) (h : s.taker.Quantity ≤ s.taker.Filled) :
    walk ρ asc own other fuel s i = s :=
  walk_exit ρ asc own other fuel s i (fun hc => absurd hc.2 (not_lt.2 h))

/-! ## `AddOrder` through the walk -/

theorem matchBid_eq (ρ : RangeOrder) (ob : Orderbook) (order : Order)
    (h : ∀ m ∈ ob.asks, m.Side ≠ Buy) :
    matchBid ρ ob order =
      (putAsks ob (bidWalk ρ ob order), (bidWalk ρ ob order).taker,
        (bidWalk ρ ob order).fills) :=
  matchBidLoop_eq ρ _ ob order [] 0 h

theorem matchAsk_eq (ρ : RangeOrder) (ob : Orderbook) (order : Order)
    (h : ∀ m ∈ ob.bids, m.Side = Buy) :
    matchAsk ρ ob order =
      (putBids ob (askWalk ρ ob order), (askWalk ρ ob order).taker,
        (askWalk ρ ob order).fills) :=
  matchAskLoop_eq ρ _ ob order [] 0 h

theorem AddOrder_buy (ρ : RangeOrder) (newID : UUID) (ob : Orderbook) (d : CreateOrderData)
    (h : ∀ m ∈ ob.asks, m.Side ≠ Buy) (hs : d.Side = Buy) :
    AddOrder ρ newID ob d =
      if (bidWalk ρ ob (newOrder newID d)).taker.Quantity >
          (bidWalk ρ ob (newOrder newID d)).taker.Filled then
        (add (putAsks ob (bidWalk ρ ob (newOrder newID d)))
          (bidWalk ρ ob (newOrder newID d)).taker, (bidWalk ρ ob (newOrder newID d)).fills)
      else (putAsks ob (bidWalk ρ ob (newOrder newID d)),
        (bidWalk ρ ob (newOrder newID d)).fills) := by
  unfold AddOrder
  have h1 : (newOrder newID d).Side = Buy := hs
  simp only [h1, if_true]
  rw [matchBid_eq ρ ob _ h]

theorem AddOrder_sell (ρ : RangeOrder) (newID : UUID) (ob : Orderbook) (d : CreateOrderData)
    (h : ∀ m ∈ ob.bids, m.Side = Buy) (hs : d.Side ≠ Buy) :
    AddOrder ρ newID ob d =
      if (askWalk ρ ob (newOrder newID d)).taker.Quantity >
          (askWalk ρ ob (newOrder newID d)).taker.Filled then
        (add (putBids ob (askWalk ρ ob (newOrder newID d)))
          (askWalk ρ ob (newOrder newID d)).taker, (askWalk ρ ob (newOrder newID d)).fills)
      else (putBids ob (askWalk ρ ob (newOrder newID d)),
        (askWalk ρ ob (newOrder newID d)).fills) := by
  unfold AddOrder
  have h1 : (newOrder newID d).Side ≠ Buy := hs
  simp only [h1, if_false]
  rw [matchAsk_eq ρ ob _ h]

/-! ## `add` -/

theorem mapInsert_fresh (m : List Order) (o : Order) (h : ∀ x ∈ m, x.ID ≠ o.ID) :
    mapInsert m o = m ++ [o] := by
  unfold mapInsert
  have : m.any (fun x => x.ID == o.ID) = false := by
    rw [List.any_eq_false]
    intro x hx
    simpa using h x hx
  rw [this]; rfl

theorem add_buy (ob : Orderbook) (o : Order) (h : o.Side = Buy) :
    (add ob o).bids = mapInsert ob.bids o ∧ (add ob o).asks = ob.asks ∧
      (add ob o).askPrices = ob.askPrices ∧
      (add ob o).bidPrices =
        if o.Price ∈ ob.bidPrices then ob.bidPrices
        else List.insertionSort (fun a b => a ≥ b) (ob.bidPrices ++ [o.Price]) := by
  unfold add
  rw [if_pos h]
  by_cases hp : o.Price ∈ ob.bidPrices
  · have : hasPrice { ob with bids := mapInsert ob.bids o } Buy o.Price = true := by
      simp [hasPrice, buy_ne_sell, hp]
    simp [this, hp]
  · have : hasPrice { ob with bids := mapInsert ob.bids o } Buy o.Price = false := by
      simp only [hasPrice, buy_ne_sell, if_false, List.any_eq_false]
      intro x hx hxe
      exact hp (by rw [← (by simpa using hxe : x = o.Price)]; exact hx)
    simp [this, hp]

theorem add_not_buy (ob : Orderbook) (o : Order) (h : o.Side ≠ Buy) :
    (add ob o).asks = mapInsert ob.asks o ∧ (add ob o).bids = ob.bids ∧
      (add ob o).bidPrices = ob.bidPrices ∧
      (add ob o).askPrices =
        if o.Price ∈ ob.askPrices then ob.askPrices
        else List.insertionSort (fun a b => a ≤ b) (ob.askPrices ++ [o.Price]) := by
  unfold add
  rw [if_neg h]
  by_cases hp : o.Price ∈ ob.askPrices
  · have : hasPrice { ob with asks := mapInsert ob.asks o } Sell o.Price = true := by
      simp [hasPrice, hp]
    simp [this, hp]
  · have : hasPrice { ob with asks := mapInsert ob.asks o } Sell o.Price = false := by
      simp only [hasPrice, if_true, List.any_eq_false]
      intro x hx hxe
      exact hp (by rw [← (by simpa using hxe : x = o.Price)]; exact hx)
    simp [this, hp]

theorem liveMap_append (m : List Order) (o : Order) (h : LiveMap m) (hf : ∀ x ∈ m, x.ID ≠ o.ID)
    (ho : Unfilled o) : LiveMap (m ++ [o]) := by
  constructor
  · unfold NodupIDs
    rw [List.map_append, List.nodup_append]
    refine ⟨h.1, by simp, ?_⟩
    intro a ha hb
    simp only [List.map_cons, List.map_nil, List.mem_singleton] at hb
    obtain ⟨x, hx, rfl⟩ := List.mem_map.1 ha
    exact hf x hx hb
  · intro x hx
    rcases List.mem_append.1 hx with h1 | h1
    · exact h.2 x h1
    · rw [List.mem_singleton] at h1; rw [h1]; exact ho

/-! ## A taker with nothing to fill -/

theorem AddOrder_nothing (ρ : RangeOrder) (newID : UUID) (ob : Orderbook)
    (d : CreateOrderData) (h : d.Quantity ≤ 0) : AddOrder ρ newID ob d = (ob, []) := by
  have hq : ¬ (newOrder newID d).Filled < (newOrder newID d).Quantity := not_lt.2 h
  have hq2 : ¬ (newOrder newID d).Quantity > (newOrder newID d).Filled := hq
  unfold AddOrder
  by_cases hs : (newOrder newID d).Side = Buy
  · simp only [hs, if_true]
    have : matchBid ρ ob (newOrder newID d) = (ob, newOrder newID d, []) := by
      unfold matchBid matchBidLoop
      rw [dif_neg (fun hc => hq hc.2)]
    rw [this]
    simp only [hq2, if_false]
  · simp only [hs, if_false]
    have : matchAsk ρ ob (newOrder newID d) = (ob, newOrder newID d, []) := by
      unfold matchAsk matchAskLoop
      rw [dif_neg (fun hc => hq hc.2)]
    rw [this]
    simp only [hq2, if_false]

/-! ## Every reachable book keeps `WeakInv` -/

theorem base_start (orders : List Order) (prices : List Decimal) (newID : UUID)
    (d : CreateOrderData) (h : LiveMap orders) (hq : 0 < d.Quantity) :
    Base ⟨orders, prices, newOrder newID d, []⟩ :=
  ⟨h, le_refl _, le_of_lt hq⟩

theorem fresh_bids (newID : UUID) (ob : Orderbook) (h : Fresh newID ob) :
    ∀ x ∈ ob.bids, x.ID ≠ newID :=
  fun x hx => h x (List.mem_append_left _ hx)

theorem fresh_asks (newID : UUID) (ob : Orderbook) (h : Fresh newID ob) :
    ∀ x ∈ ob.asks, x.ID ≠ newID :=
  fun x hx => h x (List.mem_append_right _ hx)

theorem weakInv_AddOrder (ρ : RangeOrder) (newID : UUID) (ob : Orderbook)
    (d : CreateOrderData) (hw : WeakInv ob) (hf : Fresh newID ob) :
    WeakInv (AddOrder ρ newID ob d).1 := by
  by_cases hq : d.Quantity ≤ 0
  · rw [AddOrder_nothing ρ newID ob d hq]; exact hw
  · have hq' : 0 < d.Quantity := not_le.1 hq
    obtain ⟨hlb, hla, hsb, hsa⟩ := hw
    by_cases hs : d.Side = Buy
    · rw [AddOrder_buy ρ newID ob d hsa hs]
      obtain ⟨hB, hT⟩ := walk_track ρ true Sell ob.bids (ob.askPrices.length + 1)
        ⟨ob.asks, ob.askPrices, newOrder newID d, []⟩ 0 (base_start _ _ _ _ hla hq')
      have hside : ∀ x ∈ (bidWalk ρ ob (newOrder newID d)).orders, x.Side ≠ Buy := by
        intro x hx
        obtain ⟨y, hy, hyx, _⟩ := hT.2.2.1 x hx
        rw [← hyx.2.2.1]; exact hsa y hy
      have hwk : WeakInv (putAsks ob (bidWalk ρ ob (newOrder newID d))) :=
        ⟨hlb, hB.1, hsb, hside⟩
      split
      · rename_i hgt
        have htid : (bidWalk ρ ob (newOrder newID d)).taker.ID = newID := hT.1.1.symm
        have htside : (bidWalk ρ ob (newOrder newID d)).taker.Side = Buy :=
          hT.1.2.2.1.symm.trans hs
        obtain ⟨e1, e2, _, _⟩ := add_buy (putAsks ob (bidWalk ρ ob (newOrder newID d)))
          (bidWalk ρ ob (newOrder newID d)).taker htside
        have hfr : ∀ x ∈ ob.bids, x.ID ≠ (bidWalk ρ ob (newOrder newID d)).taker.ID := by
          rw [htid]; exact fresh_bids newID ob hf
        refine ⟨?_, ?_, ?_, ?_⟩
        · show LiveMap (add _ _).bids
          rw [e1]
          show LiveMap (mapInsert ob.bids _)
          rw [mapInsert_fresh _ _ hfr]
          exact liveMap_append _ _ hlb hfr ⟨hB.2.1, hgt⟩
        · show LiveMap (add _ _).asks
          rw [e2]; exact hB.1
        · show ∀ o ∈ (add _ _).bids, o.Side = Buy
          rw [e1]
          show ∀ o ∈ mapInsert ob.bids _, o.Side = Buy
          rw [mapInsert_fresh _ _ hfr]
          intro o ho
          rcases List.mem_append.1 ho with h1 | h1
          · exact hsb o h1
          · rw [List.mem_singleton] at h1; rw [h1]; exact htside
        · show ∀ o ∈ (add _ _).asks, o.Side ≠ Buy
          rw [e2]; exact hside
      · exact hwk
    · rw [AddOrder_sell ρ newID ob d hsb hs]
      obtain ⟨hB, hT⟩ := walk_track ρ false Buy ob.asks (ob.bidPrices.length + 1)
        ⟨ob.bids, ob.bidPrices, newOrder newID d, []⟩ 0 (base_start _ _ _ _ hlb hq')
      have hside : ∀ x ∈ (askWalk ρ ob (newOrder newID d)).orders, x.Side = Buy := by
        intro x hx
        obtain ⟨y, hy, hyx, _⟩ := hT.2.2.1 x hx
        rw [← hyx.2.2.1]; exact hsb y hy
      have hwk : WeakInv (putBids ob (askWalk ρ ob (newOrder newID d))) :=
        ⟨hB.1, hla, hside, hsa⟩
      split
      · rename_i hgt
        have htid : (askWalk ρ ob (newOrder newID d)).taker.ID = newID := hT.1.1.symm
        have htside : (askWalk ρ ob (newOrder newID d)).taker.Side ≠ Buy :=
          fun h => hs (hT.1.2.2.1.trans h)
        obtain ⟨e1, e2, _, _⟩ := add_not_buy (putBids ob (askWalk ρ ob (newOrder newID d)))
          (askWalk ρ ob (newOrder newID d)).taker htside
        have hfr : ∀ x ∈ ob.asks, x.ID ≠ (askWalk ρ ob (newOrder newID d)).taker.ID := by
          rw [htid]; exact fresh_asks newID ob hf
        refine ⟨?_, ?_, ?_, ?_⟩
        · show LiveMap (add _ _).bids
          rw [e2]; exact hB.1
        · show LiveMap (add _ _).asks
          rw [e1]
          show LiveMap (mapInsert ob.asks _)
          rw [mapInsert_fresh _ _ hfr]
          exact liveMap_append _ _ hla hfr ⟨hB.2.1, hgt⟩
        · show ∀ o ∈ (add _ _).bids, o.Side = Buy
          rw [e2]; exact hside
        · show ∀ o ∈ (add _ _).asks, o.Side ≠ Buy
          rw [e1]
          show ∀ o ∈ mapInsert ob.asks _, o.Side ≠ Buy
          rw [mapInsert_fresh _ _ hfr]
          intro o ho
          rcases List.mem_append.1 ho with h1 | h1
          · exact hsa o h1
          · rw [List.mem_singleton] at h1; rw [h1]; exact htside
      · exact hwk

theorem weakInv_new (market : String) : WeakInv (NewOrderbook market) := by
  refine ⟨⟨?_, ?_⟩, ⟨?_, ?_⟩, ?_, ?_⟩ <;> simp [NewOrderbook, NodupIDs]

theorem weakInv_of_reachableBy (A : CreateOrderData → Prop) (ob : Orderbook)
    (h : ReachableBy A ob) : WeakInv ob := by
  induction h with
  | new market => exact weakInv_new market
  | addOrder ρ newID ob d _ hf _ ih => exact weakInv_AddOrder ρ newID ob d ih hf

/-! ## The result of `AddOrder` in terms of the walk -/

theorem order_eq_of_same (a b : Order) (h : SameOrder a b) (hf : a.Filled = b.Filled) :
    a = b := by
  cases a; cases b
  obtain ⟨h1, h2, h3, h4, h5⟩ := h
  simp only at h1 h2 h3 h4 h5 hf
  simp [h1, h2, h3, h4, h5, hf]

theorem find_skip (l r : List Order) (id : UUID) (h : ∀ x ∈ l, x.ID ≠ id) :
    (l ++ r).find? (fun o => o.ID == id) = r.find? (fun o => o.ID == id) := by
  induction l with
  | nil => rfl
  | cons a l ih =>
    have ha : (a.ID == id) = false := by simpa using h a (List.mem_cons_self _ _)
    rw [List.cons_append, List.find?_cons, ha]
    exact ih (fun x hx => h x (List.mem_cons_of_mem _ hx))

theorem find_none (l : List Order) (id : UUID) (h : ∀ x ∈ l, x.ID ≠ id) :
    l.find? (fun o => o.ID == id) = none := by
  rw [List.find?_eq_none]
  intro x hx
  simpa using h x hx

/-- The facts about a walk started by `AddOrder` with a positive quantity. -/
theorem walk_start_facts (ρ : RangeOrder) (asc : Bool) (own : OrderSide)
    (other orders : List Order) (prices : List Decimal) (fuel : Nat) (newID : UUID)
    (d : CreateOrderData) (hl : LiveMap orders) (hq : 0 < d.Quantity)
    (hf : ∀ x ∈ orders, x.ID ≠ newID) :
    (walk ρ asc own other fuel ⟨orders, prices, newOrder newID d, []⟩ 0).taker =
        restingOrder newID d
          (sumQty (walk ρ asc own other fuel ⟨orders, prices, newOrder newID d, []⟩ 0).fills) ∧
      0 ≤ sumQty (walk ρ asc own other fuel ⟨orders, prices, newOrder newID d, []⟩ 0).fills ∧
      sumQty (walk ρ asc own other fuel ⟨orders, prices, newOrder newID d, []⟩ 0).fills
        ≤ d.Quantity ∧
      ∀ x ∈ (walk ρ asc own other fuel ⟨orders, prices, newOrder newID d, []⟩ 0).orders,
        x.ID ≠ newID := by
  obtain ⟨hB, hT⟩ := walk_track ρ asc own other fuel
    ⟨orders, prices, newOrder newID d, []⟩ 0 (base_start _ _ _ _ hl hq)
  have hfill : (walk ρ asc own other fuel ⟨orders, prices, newOrder newID d, []⟩ 0).taker.Filled
      = sumQty (walk ρ asc own other fuel ⟨orders, prices, newOrder newID d, []⟩ 0).fills := by
    have h := hT.2.1
    have h0 : sumQty ([] : List Fill) = 0 := rfl
    have h1 : (newOrder newID d).Filled = 0 := rfl
    simp only [h0, h1] at h
    linarith
  have hqty : (walk ρ asc own other fuel ⟨orders, prices, newOrder newID d, []⟩ 0).taker.Quantity
      = d.Quantity := hT.1.2.2.2.2.symm
  refine ⟨?_, ?_, ?_, ?_⟩
  · symm
    apply order_eq_of_same
    · exact hT.1
    · exact hfill.symm
  · rw [← hfill]; exact hB.2.1
  · rw [← hfill, ← hqty]; exact hB.2.2
  · intro x hx
    obtain ⟨y, hy, hyx, _⟩ := hT.2.2.1 x hx
    rw [← hyx.1]; exact hf y hy

/-- The book and fills `AddOrder` returns for a Buy with positive quantity, in
terms of the walk over the asks. -/
theorem AddOrder_buy_shape (ρ : RangeOrder) (newID : UUID) (ob : Orderbook)
    (d : CreateOrderData) (hw : WeakInv ob) (hf : Fresh newID ob) (hq : 0 < d.Quantity)
    (hs : d.Side = Buy) :
    (AddOrder ρ newID ob d).2 = (bidWalk ρ ob (newOrder newID d)).fills ∧
    (AddOrder ρ newID ob d).1.asks = (bidWalk ρ ob (newOrder newID d)).orders ∧
    (AddOrder ρ newID ob d).1.askPrices = (bidWalk ρ ob (newOrder newID d)).prices ∧
    (AddOrder ρ newID ob d).1.bids =
      (if sumQty (AddOrder ρ newID ob d).2 < d.Quantity then
        ob.bids ++ [restingOrder newID d (sumQty (AddOrder ρ newID ob d).2)]
      else ob.bids) ∧
    (AddOrder ρ newID ob d).1.bidPrices =
      (if sumQty (AddOrder ρ newID ob d).2 < d.Quantity then
        (if d.Price ∈ ob.bidPrices then ob.bidPrices
          else List.insertionSort (fun a b => a ≥ b) (ob.bidPrices ++ [d.Price]))
      else ob.bidPrices) ∧
    0 ≤ sumQty (AddOrder ρ newID ob d).2 ∧ sumQty (AddOrder ρ newID ob d).2 ≤ d.Quantity ∧
    ∀ x ∈ (AddOrder ρ newID ob d).1.asks, x.ID ≠ newID := by
  obtain ⟨ht, h0, hle, hids⟩ := walk_start_facts ρ true Sell ob.bids ob.asks ob.askPrices
    (ob.askPrices.length + 1) newID d hw.2.1 hq (fresh_asks newID ob hf)
  have ht' : (bidWalk ρ ob (newOrder newID d)).taker =
      restingOrder newID d (sumQty (bidWalk ρ ob (newOrder newID d)).fills) := ht
  have hqty : (bidWalk ρ ob (newOrder newID d)).taker.Quantity = d.Quantity := by rw [ht']; rfl
  have hfil : (bidWalk ρ ob (newOrder newID d)).taker.Filled =
      sumQty (bidWalk ρ ob (newOrder newID d)).fills := by rw [ht']; rfl
  rw [AddOrder_buy ρ newID ob d hw.2.2.2 hs, hqty, hfil]
  by_cases hgt : sumQty (bidWalk ρ ob (newOrder newID d)).fills < d.Quantity
  · have hgt' : d.Quantity > sumQty (bidWalk ρ ob (newOrder newID d)).fills := hgt
    rw [if_pos hgt']
    have hside : (bidWalk ρ ob (newOrder newID d)).taker.Side = Buy := by rw [ht']; exact hs
    obtain ⟨e1, e2, e3, e4⟩ := add_buy (putAsks ob (bidWalk ρ ob (newOrder newID d)))
      (bidWalk ρ ob (newOrder newID d)).taker hside
    have hfr : ∀ x ∈ ob.bids, x.ID ≠ (bidWalk ρ ob (newOrder newID d)).taker.ID := by
      rw [ht']; exact fresh_bids newID ob hf
    refine ⟨rfl, e2, e3, ?_, ?_, h0, hle, ?_⟩
    · show (add _ _).bids = if sumQty (bidWalk ρ ob (newOrder newID d)).fills < d.Quantity
        then _ else _
      rw [if_pos hgt, e1]
      show mapInsert ob.bids _ = _
      rw [mapInsert_fresh _ _ hfr, ht']
    · show (add _ _).bidPrices = if sumQty (bidWalk ρ ob (newOrder newID d)).fills < d.Quantity
        then _ else _
      rw [if_pos hgt, e4, ht']; rfl
    · rw [e2]; exact hids
  · have hgt' : ¬ d.Quantity > sumQty (bidWalk ρ ob (newOrder newID d)).fills := hgt
    rw [if_neg hgt']
    refine ⟨rfl, rfl, rfl, ?_, ?_, h0, hle, hids⟩
    · show _ = if sumQty (bidWalk ρ ob (newOrder newID d)).fills < d.Quantity then _ else _
      rw [if_neg hgt]; rfl
    · show _ = if sumQty (bidWalk ρ ob (newOrder newID d)).fills < d.Quantity then _ else _
      rw [if_neg hgt]; rfl

/-- The book and fills `AddOrder` returns for an order with positive quantity
whose side is not `Buy`, in terms of the walk over the bids. -/
theorem AddOrder_sell_shape (ρ : RangeOrder) (newID : UUID) (ob : Orderbook)
    (d : CreateOrderData) (hw : WeakInv ob) (hf : Fresh newID ob) (hq : 0 < d.Quantity)
    (hs : d.Side ≠ Buy) :
    (AddOrder ρ newID ob d).2 = (askWalk ρ ob (newOrder newID d)).fills ∧
    (AddOrder ρ newID ob d).1.bids = (askWalk ρ ob (newOrder newID d)).orders ∧
    (AddOrder ρ newID ob d).1.bidPrices = (askWalk ρ ob (newOrder newID d)).prices ∧
    (AddOrder ρ newID ob d).1.asks =
      (if sumQty (AddOrder ρ newID ob d).2 < d.Quantity then
        ob.asks ++ [restingOrder newID d (sumQty (AddOrder ρ newID ob d).2)]
      else ob.asks) ∧
    (AddOrder ρ newID ob d).1.askPrices =
      (if sumQty (AddOrder ρ newID ob d).2 < d.Quantity then
        (if d.Price ∈ ob.askPrices then ob.askPrices
          else List.insertionSort (fun a b => a ≤ b) (ob.askPrices ++ [d.Price]))
      else ob.askPrices) ∧
    0 ≤ sumQty (AddOrder ρ newID ob d).2 ∧ sumQty (AddOrder ρ newID ob d).2 ≤ d.Quantity ∧
    ∀ x ∈ (AddOrder ρ newID ob d).1.bids, x.ID ≠ newID := by
  obtain ⟨ht, h0, hle, hids⟩ := walk_start_facts ρ false Buy ob.asks ob.bids ob.bidPrices
    (ob.bidPrices.length + 1) newID d hw.1 hq (fresh_bids newID ob hf)
  have ht' : (askWalk ρ ob (newOrder newID d)).taker =
      restingOrder newID d (sumQty (askWalk ρ ob (newOrder newID d)).fills) := ht
  have hqty : (askWalk ρ ob (newOrder newID d)).taker.Quantity = d.Quantity := by rw [ht']; rfl
  have hfil : (askWalk ρ ob (newOrder newID d)).taker.Filled =
      sumQty (askWalk ρ ob (newOrder newID d)).fills := by rw [ht']; rfl
  rw [AddOrder_sell ρ newID ob d hw.2.2.1 hs, hqty, hfil]
  by_cases hgt : sumQty (askWalk ρ ob (newOrder newID d)).fills < d.Quantity
  · have hgt' : d.Quantity > sumQty (askWalk ρ ob (newOrder newID d)).fills := hgt
    rw [if_pos hgt']
    have hside : (askWalk ρ ob (newOrder newID d)).taker.Side ≠ Buy := by rw [ht']; exact hs
    obtain ⟨e1, e2, e3, e4⟩ := add_not_buy (putBids ob (askWalk ρ ob (newOrder newID d)))
      (askWalk ρ ob (newOrder newID d)).taker hside
    have hfr : ∀ x ∈ ob.asks, x.ID ≠ (askWalk ρ ob (newOrder newID d)).taker.ID := by
      rw [ht']; exact fresh_asks newID ob hf
    refine ⟨rfl, e2, e3, ?_, ?_, h0, hle, ?_⟩
    · show (add _ _).asks = if sumQty (askWalk ρ ob (newOrder newID d)).fills < d.Quantity
        then _ else _
      rw [if_pos hgt, e1]
      show mapInsert ob.asks _ = _
      rw [mapInsert_fresh _ _ hfr, ht']
    · show (add _ _).askPrices = if sumQty (askWalk ρ ob (newOrder newID d)).fills < d.Quantity
        then _ else _
      rw [if_pos hgt, e4, ht']; rfl
    · rw [e2]; exact hids
  · have hgt' : ¬ d.Quantity > sumQty (askWalk ρ ob (newOrder newID d)).fills := hgt
    rw [if_neg hgt']
    refine ⟨rfl, rfl, rfl, ?_, ?_, h0, hle, hids⟩
    · show _ = if sumQty (askWalk ρ ob (newOrder newID d)).fills < d.Quantity then _ else _
      rw [if_neg hgt]; rfl
    · show _ = if sumQty (askWalk ρ ob (newOrder newID d)).fills < d.Quantity then _ else _
      rw [if_neg hgt]; rfl


theorem fillLevel_sameTaker (ρ : RangeOrder) (own : OrderSide) (other : List Order)
    (snap : List Order) :
    ∀ s : MatchState, SameOrder s.taker (fillLevel ρ own other snap s).taker := by
  induction snap with
  | nil => intro s; exact SameOrder.refl _
  | cons m rest ih =>
    intro s
    unfold fillLevel
    split
    · exact SameOrder.refl _
    · exact SameOrder.trans (by rw [fillOne_taker]; exact ⟨rfl, rfl, rfl, rfl, rfl⟩) (ih _)

theorem walk_sameTaker (ρ : RangeOrder) (asc : Bool) (own : OrderSide) (other : List Order)
    (fuel : Nat) :
    ∀ (s : MatchState) (i : Nat), SameOrder s.taker (walk ρ asc own other fuel s i).taker := by
  induction fuel with
  | zero => intro s i; exact SameOrder.refl _
  | succ fuel ih =>
    intro s i
    by_cases hc : i < s.prices.length ∧ s.taker.Filled < s.taker.Quantity
    · by_cases hbr : before asc s.taker.Price s.prices[i]
      · rw [walk_break _ _ _ _ _ _ i hc.1 hbr]; exact SameOrder.refl _
      · rw [walk_step _ _ _ _ _ _ i hc.1 hc.2 hbr]
        have h1 := fillLevel_sameTaker ρ own other (levelOf ρ s.orders s.prices[i]) s
        split
        · exact SameOrder.trans h1 (ih { fillLevel ρ own other (levelOf ρ s.orders s.prices[i]) s
            with prices := (fillLevel ρ own other (levelOf ρ s.orders
              s.prices[i]) s).prices.erase s.prices[i] } i)
        · exact SameOrder.trans h1 (ih _ _)
    · rw [walk_exit _ _ _ _ _ _ _ hc]; exact SameOrder.refl _

/-- The fills of a Buy and the ask side it leaves are those of the walk over
the asks. -/
theorem AddOrder_buy_walk (ρ : RangeOrder) (newID : UUID) (ob : Orderbook)
    (d : CreateOrderData) (h : ∀ m ∈ ob.asks, m.Side ≠ Buy) (hs : d.Side = Buy) :
    (AddOrder ρ newID ob d).2 = (bidWalk ρ ob (newOrder newID d)).fills ∧
    (AddOrder ρ newID ob d).1.asks = (bidWalk ρ ob (newOrder newID d)).orders ∧
    (AddOrder ρ newID ob d).1.askPrices = (bidWalk ρ ob (newOrder newID d)).prices := by
  rw [AddOrder_buy ρ newID ob d h hs]
  have hside : (bidWalk ρ ob (newOrder newID d)).taker.Side = Buy :=
    (walk_sameTaker ρ true Sell ob.bids _ _ 0).2.2.1.symm.trans hs
  obtain ⟨_, e2, e3, _⟩ := add_buy (putAsks ob (bidWalk ρ ob (newOrder newID d)))
    (bidWalk ρ ob (newOrder newID d)).taker hside
  split
  · exact ⟨rfl, e2, e3⟩
  · exact ⟨rfl, rfl, rfl⟩

/-- The fills of an order that is not a Buy and the bid side it leaves are
those of the walk over the bids. -/
theorem AddOrder_sell_walk (ρ : RangeOrder) (newID : UUID) (ob : Orderbook)
    (d : CreateOrderData) (h : ∀ m ∈ ob.bids, m.Side = Buy) (hs : d.Side ≠ Buy) :
    (AddOrder ρ newID ob d).2 = (askWalk ρ ob (newOrder newID d)).fills ∧
    (AddOrder ρ newID ob d).1.bids = (askWalk ρ ob (newOrder newID d)).orders ∧
    (AddOrder ρ newID ob d).1.bidPrices = (askWalk ρ ob (newOrder newID d)).prices := by
  rw [AddOrder_sell ρ newID ob d h hs]
  have hside : (askWalk ρ ob (newOrder newID d)).taker.Side ≠ Buy := fun hb =>
    hs ((walk_sameTaker ρ false Buy ob.asks _ _ 0).2.2.1.trans hb)
  obtain ⟨_, e2, e3, _⟩ := add_not_buy (putBids ob (askWalk ρ ob (newOrder newID d)))
    (askWalk ρ ob (newOrder newID d)).taker hside
  split
  · exact ⟨rfl, e2, e3⟩
  · exact ⟨rfl, rfl, rfl⟩

/-! ## The order of prices on a side -/

theorem before_irrefl (asc : Bool) (a : Decimal) : ¬ before asc a a := by
  cases asc <;> simp [before]

theorem before_trans (asc : Bool) (a b c : Decimal) (h1 : before asc a b)
    (h2 : before asc b c) : before asc a c := by
  cases asc <;> simp only [before, if_true, if_false, Bool.false_eq_true] at * <;> linarith

theorem before_asymm (asc : Bool) (a b : Decimal) (h1 : before asc a b) : ¬ before asc b a := by
  cases asc <;> simp only [before, if_true, if_false, Bool.false_eq_true] at * <;>
    exact not_lt.2 (le_of_lt h1)

theorem before_total (asc : Bool) (a b : Decimal) : a = b ∨ before asc a b ∨ before asc b a := by
  cases asc <;> simp only [before, if_true, if_false, Bool.false_eq_true]
  · rcases lt_trichotomy a b with h | h | h
    · exact Or.inr (Or.inr h)
    · exact Or.inl h
    · exact Or.inr (Or.inl h)
  · rcases lt_trichotomy a b with h | h | h
    · exact Or.inr (Or.inl h)
    · exact Or.inl h
    · exact Or.inr (Or.inr h)

/-- `a ≤ b < c` in walk order gives `a < c`. -/
theorem before_of_not_before (asc : Bool) (a b c : Decimal) (h1 : ¬ before asc b a)
    (h2 : before asc b c) : before asc a c := by
  rcases before_total asc a b with h | h | h
  · rw [h]; exact h2
  · exact before_trans asc a b c h h2
  · exact absurd h h1

/-- `a ≤ b ≤ c` in walk order gives `a ≤ c`. -/
theorem not_before_trans (asc : Bool) (a b c : Decimal) (h1 : ¬ before asc b a)
    (h2 : ¬ before asc c b) : ¬ before asc c a := by
  intro h
  rcases before_total asc a b with h3 | h3 | h3
  · rw [h3] at h; exact h2 h
  · exact h2 (before_trans asc c a b h h3)
  · exact h1 h3

theorem pairwise_before_nodup (asc : Bool) (l : List Decimal) (h : l.Pairwise (before asc)) :
    l.Nodup := by
  unfold List.Nodup
  refine h.imp ?_
  intro a b hab heq
  rw [heq] at hab
  exact before_irrefl asc b hab

/-- The first price of a strictly sorted list comes before or at every price
of the list. -/
theorem head_best (asc : Bool) (l : List Decimal) (h : l.Pairwise (before asc))
    (hi : 0 < l.length) (q : Decimal) (hq : q ∈ l) : ¬ before asc q l[0] := by
  cases l with
  | nil => exact absurd hi (by simp)
  | cons a l =>
    simp only [List.getElem_cons_zero]
    rcases List.mem_cons.1 hq with h1 | h1
    · rw [h1]; exact before_irrefl asc a
    · exact before_asymm asc a q ((List.pairwise_cons.1 h).1 q h1)

/-! ## One fill on a clean side -/

theorem fillOne_prices_cases (ρ : RangeOrder) (own : OrderSide) (other : List Order)
    (s : MatchState) (m : Order) :
    (fillOne ρ own other s m).prices = s.prices.erase m.Price ∨
      (fillOne ρ own other s m).prices = s.prices := by
  rw [fillOne_prices]
  exact ite_eq_or_eq _ _ _

theorem fillOne_prices_sublist (ρ : RangeOrder) (own : OrderSide) (other : List Order)
    (s : MatchState) (m : Order) : (fillOne ρ own other s m).prices.Sublist s.prices := by
  rcases fillOne_prices_cases ρ own other s m with h | h
  · rw [h]; exact List.erase_sublist _ _
  · rw [h]

theorem clean_fillOne (ρ : RangeOrder) (asc : Bool) (own : OrderSide) (other : List Order)
    (s : MatchState) (m : Order) (hb : Base s) (hc : Clean asc own s)
    (hq : s.taker.Filled < s.taker.Quantity) (hm : m ∈ s.orders) :
    Clean asc own (fillOne ρ own other s m) := by
  obtain ⟨hside, hsort, hcons⟩ := hc
  have hms : m.Side = own := hside m hm
  have hnd : s.prices.Nodup := pairwise_before_nodup asc _ hsort
  refine ⟨fillOne_side ρ own other (fun sd => sd = own) s m hside hms, ?_, ?_⟩
  · exact hsort.sublist (fillOne_prices_sublist ρ own other s m)
  · intro q
    rw [fillOne_prices]
    simp only [hms, if_true]
    by_cases hfull : (filledMaker s.taker m).Filled = m.Quantity
    · by_cases hlev : (levelOf ρ (fillOne ρ own other s m).orders m.Price).length = 0
      · rw [if_pos ⟨hfull, hlev⟩]
        rw [levelOf_length_eq_zero] at hlev
        rw [hnd.mem_erase_iff]
        constructor
        · rintro ⟨hne, hq'⟩
          obtain ⟨o, ho, hop⟩ := (hcons q).1 hq'
          refine ⟨o, mem_fillOne_of_ne ρ own other s m o ho ?_, hop⟩
          intro hid
          have := nodupIDs_eq _ hb.1.1 o m ho hm hid
          rw [this] at hop
          exact hne hop.symm
        · rintro ⟨o, ho, hop⟩
          refine ⟨?_, ?_⟩
          · intro hqe
            exact hlev o ho (hop.trans hqe)
          · rcases mem_fillOne ρ own other s m o ho with h | h
            · exact (hcons q).2 ⟨o, h.1, hop⟩
            · exact absurd hfull h.2
      · rw [if_neg (fun h => hlev h.2)]
        constructor
        · intro hq'
          obtain ⟨o, ho, hop⟩ := (hcons q).1 hq'
          by_cases hid : o.ID = m.ID
          · have := nodupIDs_eq _ hb.1.1 o m ho hm hid
            rw [this] at hop
            rw [levelOf_length_eq_zero] at hlev
            push_neg at hlev
            obtain ⟨x, hx, hxp⟩ := hlev
            exact ⟨x, hx, hxp.trans hop⟩
          · exact ⟨o, mem_fillOne_of_ne ρ own other s m o ho hid, hop⟩
        · rintro ⟨o, ho, hop⟩
          rcases mem_fillOne ρ own other s m o ho with h | h
          · exact (hcons q).2 ⟨o, h.1, hop⟩
          · exact absurd hfull h.2
    · rw [if_neg (fun h => hfull h.1)]
      constructor
      · intro hq'
        obtain ⟨o, ho, hop⟩ := (hcons q).1 hq'
        by_cases hid : o.ID = m.ID
        · have := nodupIDs_eq _ hb.1.1 o m ho hm hid
          rw [this] at hop
          exact ⟨filledMaker s.taker m, mem_fillOne_self ρ own other s m hm hfull, hop⟩
        · exact ⟨o, mem_fillOne_of_ne ρ own other s m o ho hid, hop⟩
      · rintro ⟨o, ho, hop⟩
        rcases mem_fillOne ρ own other s m o ho with h | h
        · exact (hcons q).2 ⟨o, h.1, hop⟩
        · rw [h.1] at hop
          exact (hcons q).2 ⟨m, hm, hop⟩

theorem fillOne_price_mem (ρ : RangeOrder) (own : OrderSide) (other : List Order)
    (s : MatchState) (m : Order) (hm : m ∈ s.orders) (x : Order)
    (hx : x ∈ (fillOne ρ own other s m).orders) : ∃ y ∈ s.orders, y.Price = x.Price := by
  rcases mem_fillOne ρ own other s m x hx with h | h
  · exact ⟨x, h.1, rfl⟩
  · exact ⟨m, hm, by rw [h.1]; rfl⟩

/-! ## The walk on a clean side -/

/-- Loop invariant rule for the inner loop at the best price `p` of a clean
side.  Besides keeping `Base`, `Clean` and `I`, the loop ends with the taker
filled or the level at `p` empty. -/
theorem fillLevel_clean (ρ : RangeOrder) (asc : Bool) (own : OrderSide) (other : List Order)
    (p : Decimal) (I : MatchState → Prop)
    (hstep : ∀ s m, Base s → Clean asc own s → s.taker.Filled < s.taker.Quantity →
      m ∈ s.orders → ¬ before asc s.taker.Price m.Price →
      (∀ o ∈ s.orders, ¬ before asc o.Price m.Price) → I s → I (fillOne ρ own other s m))
    (snap : List Order) :
    ∀ s : MatchState, Base s → Clean asc own s → NodupIDs snap →
      (∀ m ∈ snap, m ∈ s.orders ∧ m.Price = p) →
      (∀ o ∈ s.orders, ¬ before asc o.Price p) → ¬ before asc s.taker.Price p →
      (s.taker.Filled = s.taker.Quantity ∨ ∀ o ∈ s.orders, o.Price = p → o ∈ snap) → I s →
      Base (fillLevel ρ own other snap s) ∧ Clean asc own (fillLevel ρ own other snap s) ∧
        I (fillLevel ρ own other snap s) ∧
        (fillLevel ρ own other snap s).prices.Sublist s.prices ∧
        ((fillLevel ρ own other snap s).taker.Filled =
            (fillLevel ρ own other snap s).taker.Quantity ∨
          ∀ o ∈ (fillLevel ρ own other snap s).orders, o.Price ≠ p) := by
  induction snap with
  | nil =>
    intro s hb hc _ _ _ _ hcov hI
    refine ⟨hb, hc, hI, List.Sublist.refl _, ?_⟩
    rcases hcov with h | h
    · exact Or.inl h
    · exact Or.inr (fun o ho hp => absurd (h o ho hp) (List.not_mem_nil o))
  | cons m rest ih =>
    intro s hb hc hnd hs hbest hacc hcov hI
    unfold fillLevel
    by_cases hfull : s.taker.Filled = s.taker.Quantity
    · rw [if_pos hfull]
      exact ⟨hb, hc, hI, List.Sublist.refl _, Or.inl hfull⟩
    · rw [if_neg hfull]
      have hq : s.taker.Filled < s.taker.Quantity := lt_of_le_of_ne hb.2.2 hfull
      have hm := hs m (List.mem_cons_self _ _)
      have hnd' : (m.ID ∉ rest.map (fun o => o.ID)) ∧ NodupIDs rest := by
        unfold NodupIDs at hnd ⊢
        simpa using hnd
      have hcov' : ∀ o ∈ s.orders, o.Price = p → o ∈ m :: rest := by
        rcases hcov with h | h
        · exact absurd h hfull
        · exact h
      have hb1 := base_fillOne ρ own other s m hb hq hm.1
      have hc1 := clean_fillOne ρ asc own other s m hb hc hq hm.1
      have hI1 : I (fillOne ρ own other s m) :=
        hstep s m hb hc hq hm.1 (by rw [hm.2]; exact hacc) (by rw [hm.2]; exact hbest) hI
      have hrest : ∀ x ∈ rest, x ∈ (fillOne ρ own other s m).orders ∧ x.Price = p := by
        intro x hx
        have hxs := hs x (List.mem_cons_of_mem _ hx)
        refine ⟨mem_fillOne_of_ne ρ own other s m x hxs.1 ?_, hxs.2⟩
        intro hid
        exact hnd'.1 (by rw [← hid]; exact List.mem_map_of_mem _ hx)
      have hbest1 : ∀ o ∈ (fillOne ρ own other s m).orders, ¬ before asc o.Price p := by
        intro o ho
        obtain ⟨y, hy, hyp⟩ := fillOne_price_mem ρ own other s m hm.1 o ho
        rw [← hyp]; exact hbest y hy
      have hcov1 : (fillOne ρ own other s m).taker.Filled = (fillOne ρ own other s m).taker.Quantity
          ∨ ∀ o ∈ (fillOne ρ own other s m).orders, o.Price = p → o ∈ rest := by
        by_cases hmf : (filledMaker s.taker m).Filled = m.Quantity
        · right
          intro o ho hop
          rcases mem_fillOne ρ own other s m o ho with h | h
          · rcases List.mem_cons.1 (hcov' o h.1 hop) with h1 | h1
            · exact absurd (by rw [h1]) h.2
            · exact h1
          · exact absurd hmf h.2
        · left
          rw [fillOne_taker]
          show s.taker.Filled + fillQty s.taker m = s.taker.Quantity
          rcases fillQty_cases s.taker m with h | h
          · rw [h]; ring
          · exfalso
            apply hmf
            show m.Filled + fillQty s.taker m = m.Quantity
            rw [h]; ring
      obtain ⟨r1, r2, r3, r4, r5⟩ := ih (fillOne ρ own other s m) hb1 hc1 hnd'.2 hrest hbest1
        (by rw [fillOne_taker]; exact hacc) hcov1 hI1
      exact ⟨r1, r2, r3, r4.trans (fillOne_prices_sublist ρ own other s m), r5⟩

theorem erase_self_state (s : MatchState) (p : Decimal) (h : p ∉ s.prices) :
    ({ s with prices := s.prices.erase p } : MatchState) = s := by
  rw [List.erase_of_not_mem h]

/-- Loop invariant rule for the walk of a clean side from its first price: a
property kept by every fill of a maker at the best price of the side is kept by
the walk, which stops in a `Done` state. -/
theorem walk_clean (ρ : RangeOrder) (asc : Bool) (own : OrderSide) (other : List Order)
    (I : MatchState → Prop)
    (hstep : ∀ s m, Base s → Clean asc own s → s.taker.Filled < s.taker.Quantity →
      m ∈ s.orders → ¬ before asc s.taker.Price m.Price →
      (∀ o ∈ s.orders, ¬ before asc o.Price m.Price) → I s → I (fillOne ρ own other s m))
    (fuel : Nat) :
    ∀ s : MatchState, s.prices.length < fuel → Base s → Clean asc own s → I s →
      Base (walk ρ asc own other fuel s 0) ∧ Clean asc own (walk ρ asc own other fuel s 0) ∧
        I (walk ρ asc own other fuel s 0) ∧ Done asc (walk ρ asc own other fuel s 0) := by
  induction fuel with
  | zero => intro s h; exact absurd h (Nat.not_lt_zero _)
  | succ fuel ih =>
    intro s hlen hb hc hI
    by_cases hcnd : 0 < s.prices.length ∧ s.taker.Filled < s.taker.Quantity
    · have hmem0 : s.prices[0] ∈ s.prices := List.getElem_mem _
      have hbest : ∀ o ∈ s.orders, ¬ before asc o.Price s.prices[0] := fun o ho =>
        head_best asc s.prices hc.2.1 hcnd.1 o.Price ((hc.2.2 o.Price).2 ⟨o, ho, rfl⟩)
      by_cases hbr : before asc s.taker.Price s.prices[0]
      · rw [walk_break _ _ _ _ _ _ 0 hcnd.1 hbr]
        refine ⟨hb, hc, hI, Or.inr ?_⟩
        intro o ho
        rcases before_total asc s.prices[0] o.Price with h1 | h1 | h1
        · rw [← h1]; exact hbr
        · exact before_trans asc _ _ _ hbr h1
        · exact absurd h1 (hbest o ho)
      · rw [walk_step _ _ _ _ _ _ 0 hcnd.1 hcnd.2 hbr]
        obtain ⟨r1, r2, r3, r4, r5⟩ := fillLevel_clean ρ asc own other s.prices[0] I hstep
          (levelOf ρ s.orders s.prices[0]) s hb hc (nodupIDs_levelOf ρ _ _ hb.1.1)
          (fun m hm => (mem_levelOf ρ _ _ m).1 hm) hbest hbr
          (Or.inr (fun o ho hp => (mem_levelOf ρ _ _ o).2 ⟨ho, hp⟩)) hI
        by_cases hlev : (levelOf ρ (fillLevel ρ own other (levelOf ρ s.orders s.prices[0])
            s).orders s.prices[0]).length = 0
        · rw [if_pos hlev]
          have hnot : s.prices[0] ∉ (fillLevel ρ own other (levelOf ρ s.orders s.prices[0])
              s).prices := by
            intro hin
            obtain ⟨o, ho, hop⟩ := (r2.2.2 _).1 hin
            exact (levelOf_length_eq_zero ρ _ _).1 hlev o ho hop
          rw [erase_self_state _ _ hnot]
          refine ih _ ?_ r1 r2 r3
          have hle := r4.length_le
          have hne : (fillLevel ρ own other (levelOf ρ s.orders s.prices[0]) s).prices.length ≠
              s.prices.length := by
            intro heq
            have := r4.eq_of_length heq
            rw [this] at hnot
            exact hnot hmem0
          omega
        · rw [if_neg hlev]
          have hfull : (fillLevel ρ own other (levelOf ρ s.orders s.prices[0]) s).taker.Filled =
              (fillLevel ρ own other (levelOf ρ s.orders s.prices[0]) s).taker.Quantity := by
            rcases r5 with h | h
            · exact h
            · exact absurd ((levelOf_length_eq_zero ρ _ _).2 h) hlev
          rw [walk_exit _ _ _ _ _ _ _ (fun h => absurd hfull (ne_of_lt h.2))]
          exact ⟨r1, r2, r3, Or.inl hfull⟩
    · rw [walk_exit _ _ _ _ _ _ _ hcnd]
      refine ⟨hb, hc, hI, ?_⟩
      by_cases hq : s.taker.Filled < s.taker.Quantity
      · right
        intro o ho
        have : o.Price ∈ s.prices := (hc.2.2 o.Price).2 ⟨o, ho, rfl⟩
        have hl : s.prices.length = 0 := by
          by_contra hne
          exact hcnd ⟨Nat.pos_of_ne_zero hne, hq⟩
        rw [List.length_eq_zero] at hl
        rw [hl] at this
        exact absurd this (List.not_mem_nil _)
      · left
        exact le_antisymm hb.2.2 (not_lt.1 hq)

/-! ## Books reached by Buy and Sell orders -/

theorem strongInv_weak (ob : Orderbook) (h : StrongInv ob) : WeakInv ob :=
  ⟨h.1.1, h.2.1.1, h.1.2.1, fun o ho hb => buy_ne_sell (hb.symm.trans (h.2.1.2.1 o ho))⟩

theorem sorted_asc (l : List Decimal) (h : l.Nodup) :
    (List.insertionSort (fun a b => a ≤ b) l).Pairwise (before true) := by
  have h1 : (List.insertionSort (fun a b : Decimal => a ≤ b) l).Sorted (· ≤ ·) :=
    List.sorted_insertionSort (· ≤ ·) l
  have h2 : (List.insertionSort (fun a b : Decimal => a ≤ b) l).Nodup :=
    (List.perm_insertionSort _ l).nodup_iff.2 h
  have h3 := h1.lt_of_le h2
  exact h3.imp (fun {a b} hab => by simpa [before] using hab)

theorem sorted_desc (l : List Decimal) (h : l.Nodup) :
    (List.insertionSort (fun a b => a ≥ b) l).Pairwise (before false) := by
  have h1 : (List.insertionSort (fun a b : Decimal => a ≥ b) l).Sorted (· ≥ ·) :=
    List.sorted_insertionSort (· ≥ ·) l
  have h2 : (List.insertionSort (fun a b : Decimal => a ≥ b) l).Nodup :=
    (List.perm_insertionSort _ l).nodup_iff.2 h
  have h3 := h1.gt_of_ge h2
  exact h3.imp (fun {a b} hab => by simpa [before] using hab)

/-- Resting a new order keeps a side well-formed, for any price list that is
strictly sorted and holds the old prices and the price of the order. -/
theorem sideOK_rest (asc : Bool) (own : OrderSide) (orders : List Order)
    (prices prices1 : List Decimal) (r : Order) (h : SideOK asc own orders prices)
    (hf : ∀ x ∈ orders, x.ID ≠ r.ID) (hs : r.Side = own) (hu : Unfilled r)
    (hsort : prices1.Pairwise (before asc))
    (hmem : ∀ q, q ∈ prices1 ↔ q ∈ prices ∨ q = r.Price) :
    SideOK asc own (orders ++ [r]) prices1 := by
  obtain ⟨hl, hside, _, hcons⟩ := h
  refine ⟨liveMap_append _ _ hl hf hu, ?_, hsort, ?_⟩
  · intro o ho
    rcases List.mem_append.1 ho with h1 | h1
    · exact hside o h1
    · rw [List.mem_singleton] at h1; rw [h1]; exact hs
  · intro q
    rw [hmem, hcons]
    constructor
    · rintro (⟨o, ho, hop⟩ | hq)
      · exact ⟨o, List.mem_append_left _ ho, hop⟩
      · exact ⟨r, by simp, hq.symm⟩
    · rintro ⟨o, ho, hop⟩
      rcases List.mem_append.1 ho with h1 | h1
      · exact Or.inl ⟨o, h1, hop⟩
      · rw [List.mem_singleton] at h1; rw [h1] at hop; exact Or.inr hop.symm

theorem rest_prices_asc (prices : List Decimal) (p : Decimal)
    (h : prices.Pairwise (before true)) :
    (if p ∈ prices then prices
      else List.insertionSort (fun a b => a ≤ b) (prices ++ [p])).Pairwise (before true) ∧
    ∀ q, q ∈ (if p ∈ prices then prices
      else List.insertionSort (fun a b => a ≤ b) (prices ++ [p])) ↔ q ∈ prices ∨ q = p := by
  by_cases hp : p ∈ prices
  · rw [if_pos hp]
    refine ⟨h, fun q => ⟨fun hq => Or.inl hq, ?_⟩⟩
    rintro (hq | hq)
    · exact hq
    · rw [hq]; exact hp
  · rw [if_neg hp]
    refine ⟨sorted_asc _ ?_, fun q => ?_⟩
    · rw [List.nodup_append]
      refine ⟨pairwise_before_nodup true _ h, by simp, ?_⟩
      intro a ha hb
      rw [List.mem_singleton] at hb
      exact hp (hb ▸ ha)
    · rw [(List.perm_insertionSort _ _).mem_iff]
      simp

theorem rest_prices_desc (prices : List Decimal) (p : Decimal)
    (h : prices.Pairwise (before false)) :
    (if p ∈ prices then prices
      else List.insertionSort (fun a b => a ≥ b) (prices ++ [p])).Pairwise (before false) ∧
    ∀ q, q ∈ (if p ∈ prices then prices
      else List.insertionSort (fun a b => a ≥ b) (prices ++ [p])) ↔ q ∈ prices ∨ q = p := by
  by_cases hp : p ∈ prices
  · rw [if_pos hp]
    refine ⟨h, fun q => ⟨fun hq => Or.inl hq, ?_⟩⟩
    rintro (hq | hq)
    · exact hq
    · rw [hq]; exact hp
  · rw [if_neg hp]
    refine ⟨sorted_desc _ ?_, fun q => ?_⟩
    · rw [List.nodup_append]
      refine ⟨pairwise_before_nodup false _ h, by simp, ?_⟩
      intro a ha hb
      rw [List.mem_singleton] at hb
      exact hp (hb ▸ ha)
    · rw [(List.perm_insertionSort _ _).mem_iff]
      simp

/-- The walk `AddOrder` starts on a well-formed side with a positive quantity:
it keeps the side well-formed, stops in a `Done` state, and its result is
related to the start by `Track` and satisfies any property `I` that every fill
at the best price of the side keeps. -/
theorem walk_strong (ρ : RangeOrder) (asc : Bool) (own : OrderSide)
    (other orders : List Order) (prices : List Decimal) (newID : UUID) (d : CreateOrderData)
    (h : SideOK asc own orders prices) (hq : 0 < d.Quantity) (I : MatchState → Prop)
    (hstep : ∀ s m, Base s → Clean asc own s → s.taker.Filled < s.taker.Quantity →
      m ∈ s.orders → ¬ before asc s.taker.Price m.Price →
      (∀ o ∈ s.orders, ¬ before asc o.Price m.Price) →
      Track asc ⟨orders, prices, newOrder newID d, []⟩ s → I s → I (fillOne ρ own other s m))
    (hI : I ⟨orders, prices, newOrder newID d, []⟩) :
    Base (walk ρ asc own other (prices.length + 1) ⟨orders, prices, newOrder newID d, []⟩ 0) ∧
    Clean asc own
      (walk ρ asc own other (prices.length + 1) ⟨orders, prices, newOrder newID d, []⟩ 0) ∧
    Track asc ⟨orders, prices, newOrder newID d, []⟩
      (walk ρ asc own other (prices.length + 1) ⟨orders, prices, newOrder newID d, []⟩ 0) ∧
    I (walk ρ asc own other (prices.length + 1) ⟨orders, prices, newOrder newID d, []⟩ 0) ∧
    Done asc
      (walk ρ asc own other (prices.length + 1) ⟨orders, prices, newOrder newID d, []⟩ 0) := by
  have key := walk_clean ρ asc own other
    (fun s => Track asc ⟨orders, prices, newOrder newID d, []⟩ s ∧ I s)
    (fun s m hb hc hlt hm hacc hbest hTI =>
      ⟨track_fillOne ρ asc own other _ s m hb hlt hm hacc hTI.1,
        hstep s m hb hc hlt hm hacc hbest hTI.1 hTI.2⟩)
    (prices.length + 1) ⟨orders, prices, newOrder newID d, []⟩ (Nat.lt_succ_self _)
    (base_start _ _ _ _ h.1 hq) ⟨h.2.1, h.2.2.1, h.2.2.2⟩ ⟨track_refl _ _, hI⟩
  exact ⟨key.1, key.2.1, key.2.2.1.1, key.2.2.1.2, key.2.2.2⟩

/-! ## `AddOrder` keeps a well-formed book well-formed -/

theorem track_price (asc : Bool) (s0 s : MatchState) (h : Track asc s0 s) (x : Order)
    (hx : x ∈ s.orders) : ∃ y ∈ s0.orders, y.Price = x.Price := by
  obtain ⟨y, hy, hyx, _⟩ := h.2.2.1 x hx
  exact ⟨y, hy, hyx.2.2.2.1⟩

theorem strongInv_AddOrder (ρ : RangeOrder) (newID : UUID) (ob : Orderbook)
    (d : CreateOrderData) (hS : StrongInv ob) (hf : Fresh newID ob)
    (hs : d.Side = Buy ∨ d.Side = Sell) : StrongInv (AddOrder ρ newID ob d).1 := by
  by_cases hq : d.Quantity ≤ 0
  · rw [AddOrder_nothing ρ newID ob d hq]; exact hS
  · have hq' : 0 < d.Quantity := not_le.1 hq
    have hw := strongInv_weak ob hS
    obtain ⟨hbid, hask, hcross⟩ := hS
    rcases hs with hs | hs
    · obtain ⟨e1, e2, e3, e4, e5, e6, e7, _⟩ := AddOrder_buy_shape ρ newID ob d hw hf hq' hs
      obtain ⟨hB, hC, hT, _, hD⟩ := walk_strong ρ true Sell ob.bids ob.asks ob.askPrices newID d
        hask hq' (fun _ => True) (fun _ _ _ _ _ _ _ _ _ _ => trivial) trivial
      have hask' : SideOK true Sell (AddOrder ρ newID ob d).1.asks
          (AddOrder ρ newID ob d).1.askPrices := by
        rw [e2, e3]; exact ⟨hB.1, hC⟩
      have hold : ∀ b ∈ ob.bids, ∀ a ∈ (AddOrder ρ newID ob d).1.asks, b.Price < a.Price := by
        intro b hb a ha
        rw [e2] at ha
        obtain ⟨y, hy, hyp⟩ := track_price true _ _ hT a ha
        rw [← hyp]; exact hcross b hb y hy
      by_cases hlt : sumQty (AddOrder ρ newID ob d).2 < d.Quantity
      · rw [if_pos hlt] at e4 e5
        have hp := rest_prices_desc ob.bidPrices d.Price hbid.2.2.1
        refine ⟨?_, hask', ?_⟩
        · rw [e4, e5]
          exact sideOK_rest false Buy ob.bids ob.bidPrices _ _ hbid (fresh_bids newID ob hf) hs
            ⟨e6, hlt⟩ hp.1 hp.2
        · intro b hb a ha
          rw [e4] at hb
          rcases List.mem_append.1 hb with h1 | h1
          · exact hold b h1 a ha
          · rw [List.mem_singleton] at h1
            rw [h1]
            show d.Price < a.Price
            rw [e2] at ha
            have hfill : (bidWalk ρ ob (newOrder newID d)).taker.Filled =
                sumQty (bidWalk ρ ob (newOrder newID d)).fills := by
              have h := hT.2.1
              have h0 : sumQty ([] : List Fill) = 0 := rfl
              have h1 : (newOrder newID d).Filled = 0 := rfl
              simp only [h0, h1] at h
              show (bidWalk ρ ob (newOrder newID d)).taker.Filled = _
              unfold bidWalk
              linarith
            rcases hD with hfull | hnone
            · exfalso
              have hqty : (bidWalk ρ ob (newOrder newID d)).taker.Quantity = d.Quantity :=
                hT.1.2.2.2.2.symm
              rw [e1] at hlt
              have : (bidWalk ρ ob (newOrder newID d)).taker.Filled =
                  (bidWalk ρ ob (newOrder newID d)).taker.Quantity := hfull
              rw [hfill, hqty] at this
              exact absurd this (ne_of_lt hlt)
            · have := hnone a ha
              have hpr : (bidWalk ρ ob (newOrder newID d)).taker.Price = d.Price :=
                hT.1.2.2.2.1.symm
              have h2 : before true (bidWalk ρ ob (newOrder newID d)).taker.Price a.Price := this
              rw [hpr] at h2
              simpa [before] using h2
      · rw [if_neg hlt] at e4 e5
        refine ⟨?_, hask', ?_⟩
        · rw [e4, e5]; exact hbid
        · intro b hb a ha
          rw [e4] at hb
          exact hold b hb a ha
    · have hnb : d.Side ≠ Buy := by rw [hs]; exact buy_ne_sell.symm
      obtain ⟨e1, e2, e3, e4, e5, e6, e7, _⟩ := AddOrder_sell_shape ρ newID ob d hw hf hq' hnb
      obtain ⟨hB, hC, hT, _, hD⟩ := walk_strong ρ false Buy ob.asks ob.bids ob.bidPrices newID d
        hbid hq' (fun _ => True) (fun _ _ _ _ _ _ _ _ _ _ => trivial) trivial
      have hbid' : SideOK false Buy (AddOrder ρ newID ob d).1.bids
          (AddOrder ρ newID ob d).1.bidPrices := by
        rw [e2, e3]; exact ⟨hB.1, hC⟩
      have hold : ∀ b ∈ (AddOrder ρ newID ob d).1.bids, ∀ a ∈ ob.asks, b.Price < a.Price := by
        intro b hb a ha
        rw [e2] at hb
        obtain ⟨y, hy, hyp⟩ := track_price false _ _ hT b hb
        rw [← hyp]; exact hcross y hy a ha
      by_cases hlt : sumQty (AddOrder ρ newID ob d).2 < d.Quantity
      · rw [if_pos hlt] at e4 e5
        have hp := rest_prices_asc ob.askPrices d.Price hask.2.2.1
        refine ⟨hbid', ?_, ?_⟩
        · rw [e4, e5]
          exact sideOK_rest true Sell ob.asks ob.askPrices _ _ hask (fresh_asks newID ob hf) hs
            ⟨e6, hlt⟩ hp.1 hp.2
        · intro b hb a ha
          rw [e4] at ha
          rcases List.mem_append.1 ha with h1 | h1
          · exact hold b hb a h1
          · rw [List.mem_singleton] at h1
            rw [h1]
            show b.Price < d.Price
            rw [e2] at hb
            have hfill : (askWalk ρ ob (newOrder newID d)).taker.Filled =
                sumQty (askWalk ρ ob (newOrder newID d)).fills := by
              have h := hT.2.1
              have h0 : sumQty ([] : List Fill) = 0 := rfl
              have h1 : (newOrder newID d).Filled = 0 := rfl
              simp only [h0, h1] at h
              show (askWalk ρ ob (newOrder newID d)).taker.Filled = _
              unfold askWalk
              linarith
            rcases hD with hfull | hnone
            · exfalso
              have hqty : (askWalk ρ ob (newOrder newID d)).taker.Quantity = d.Quantity :=
                hT.1.2.2.2.2.symm
              rw [e1] at hlt
              have : (askWalk ρ ob (newOrder newID d)).taker.Filled =
                  (askWalk ρ ob (newOrder newID d)).taker.Quantity := hfull
              rw [hfill, hqty] at this
              exact absurd this (ne_of_lt hlt)
            · have := hnone b hb
              have hpr : (askWalk ρ ob (newOrder newID d)).taker.Price = d.Price :=
                hT.1.2.2.2.1.symm
              have h2 : before false (askWalk ρ ob (newOrder newID d)).taker.Price b.Price := this
              rw [hpr] at h2
              simpa [before] using h2
      · rw [if_neg hlt] at e4 e5
        refine ⟨hbid', ?_, ?_⟩
        · rw [e4, e5]; exact hask
        · intro b hb a ha
          rw [e4] at ha
          exact hold b hb a ha

theorem strongInv_new (market : String) : StrongInv (NewOrderbook market) := by
  refine ⟨⟨⟨?_, ?_⟩, ?_, ?_, ?_⟩, ⟨⟨?_, ?_⟩, ?_, ?_, ?_⟩, ?_⟩ <;>
    simp [NewOrderbook, NodupIDs]

theorem strongInv_of_reachable (ob : Orderbook) (h : ReachableBuySell ob) : StrongInv ob := by
  induction h with
  | new market => exact strongInv_new market
  | addOrder ρ newID ob d _ hf hA ih => exact strongInv_AddOrder ρ newID ob d ih hf hA

/-! ## What one fill does to liquidity, accounting and priority -/

theorem sum_mapUpdate (w : Order → Decimal) (l : List Order) (m m1 : Order)
    (hnd : NodupIDs l) (hm : m ∈ l) (hid : m1.ID = m.ID) :
    ((mapUpdate l m1).map w).sum = (l.map w).sum - w m + w m1 := by
  induction l with
  | nil => exact absurd hm (List.not_mem_nil m)
  | cons a l ih =>
    have hnd' : (a.ID ∉ l.map (fun o => o.ID)) ∧ NodupIDs l := by
      unfold NodupIDs at hnd ⊢
      simpa using hnd
    rcases List.mem_cons.1 hm with h | h
    · subst h
      have hrest : mapUpdate l m1 = l := by
        unfold mapUpdate
        conv_rhs => rw [← List.map_id l]
        apply List.map_congr_left
        intro x hx
        have : x.ID ≠ m1.ID := by
          intro hx'
          exact hnd'.1 (by rw [← hid, ← hx']; exact List.mem_map_of_mem _ hx)
        simp [this]
      have hcons : mapUpdate (m :: l) m1 = m1 :: mapUpdate l m1 := by
        simp [mapUpdate, hid]
      rw [hcons, hrest]
      simp only [List.map_cons, List.sum_cons]
      ring
    · have hne : a.ID ≠ m1.ID := by
        intro ha
        exact hnd'.1 (by rw [ha, hid]; exact List.mem_map_of_mem _ h)
      have hcons : mapUpdate (a :: l) m1 = a :: mapUpdate l m1 := by
        simp [mapUpdate, hne]
      rw [hcons]
      simp only [List.map_cons, List.sum_cons]
      rw [ih hnd'.2 h]
      ring

theorem sum_mapDelete (w : Order → Decimal) (l : List Order) (m : Order)
    (hnd : NodupIDs l) (hm : m ∈ l) :
    ((mapDelete l m.ID).map w).sum = (l.map w).sum - w m := by
  induction l with
  | nil => exact absurd hm (List.not_mem_nil m)
  | cons a l ih =>
    have hnd' : (a.ID ∉ l.map (fun o => o.ID)) ∧ NodupIDs l := by
      unfold NodupIDs at hnd ⊢
      simpa using hnd
    rcases List.mem_cons.1 hm with h | h
    · subst h
      have hrest : mapDelete l m.ID = l := by
        unfold mapDelete
        rw [List.filter_eq_self]
        intro x hx
        have : x.ID ≠ m.ID := by
          intro hx'
          exact hnd'.1 (by rw [← hx']; exact List.mem_map_of_mem _ hx)
        simpa using this
      have hcons : mapDelete (m :: l) m.ID = mapDelete l m.ID := by
        simp [mapDelete]
      rw [hcons, hrest]
      simp only [List.map_cons, List.sum_cons]
      ring
    · have hne : a.ID ≠ m.ID := by
        intro ha
        exact hnd'.1 (by rw [ha]; exact List.mem_map_of_mem _ h)
      have hcons : mapDelete (a :: l) m.ID = a :: mapDelete l m.ID := by
        simp [mapDelete, hne]
      rw [hcons]
      simp only [List.map_cons, List.sum_cons]
      rw [ih hnd'.2 h]
      ring

/-- A fill of a maker whose price the taker accepts lowers the liquidity of the
side by the quantity filled. -/
theorem liq_fillOne (ρ : RangeOrder) (asc : Bool) (own : OrderSide) (other : List Order)
    (P : Decimal) (s : MatchState) (m : Order) (hb : Base s) (hm : m ∈ s.orders)
    (hacc : ¬ before asc P m.Price) :
    liq asc P (fillOne ρ own other s m).orders = liq asc P s.orders - fillQty s.taker m := by
  have hw : offer asc P m = m.Quantity - m.Filled := by simp [offer, hacc]
  have hw1 : offer asc P (filledMaker s.taker m) =
      m.Quantity - (m.Filled + fillQty s.taker m) := by
    have : ¬ before asc P (filledMaker s.taker m).Price := hacc
    simp only [offer, this, if_false]
    rfl
  have hup := sum_mapUpdate (offer asc P) s.orders m (filledMaker s.taker m) hb.1.1 hm rfl
  unfold liq
  rw [fillOne_orders]
  by_cases hfull : (filledMaker s.taker m).Filled = m.Quantity
  · rw [if_pos hfull]
    have hdel := sum_mapDelete (offer asc P) (mapUpdate s.orders (filledMaker s.taker m))
      (filledMaker s.taker m) (nodupIDs_mapUpdate _ _ hb.1.1)
      (mem_mapUpdate_self _ _ m hm rfl)
    have hid : (filledMaker s.taker m).ID = m.ID := rfl
    rw [hid] at hdel
    rw [hdel, hup, hw]
    have hf : m.Filled + fillQty s.taker m = m.Quantity := hfull
    linarith
  · rw [if_neg hfull, hup, hw, hw1]
    ring

theorem liq_nonneg (asc : Bool) (P : Decimal) (l : List Order) (h : ∀ o ∈ l, Unfilled o) :
    0 ≤ liq asc P l := by
  unfold liq
  apply List.sum_nonneg
  intro x hx
  obtain ⟨o, ho, rfl⟩ := List.mem_map.1 hx
  unfold offer
  split
  · exact le_refl _
  · have := (h o ho).2
    linarith

theorem liq_zero (asc : Bool) (P : Decimal) (l : List Order)
    (h : ∀ o ∈ l, before asc P o.Price) : liq asc P l = 0 := by
  unfold liq
  apply List.sum_eq_zero
  intro x hx
  obtain ⟨o, ho, rfl⟩ := List.mem_map.1 hx
  simp [offer, h o ho]

theorem sum_filter_map (c : Order → Bool) (w : Order → Decimal) (l : List Order) :
    ((l.filter c).map w).sum = (l.map (fun o => if c o then w o else 0)).sum := by
  induction l with
  | nil => rfl
  | cons a l ih =>
    by_cases h : c a
    · simp [List.filter_cons, h, ih]
    · simp [List.filter_cons, h, ih]

theorem askLiquidity_eq (ob : Orderbook) (P : Decimal) :
    askLiquidity ob P = liq true P ob.asks := by
  unfold askLiquidity liq
  rw [sum_filter_map]
  apply congrArg
  apply List.map_congr_left
  intro o _
  by_cases h : o.Price ≤ P
  · have h' : ¬ P < o.Price := not_lt.2 h
    simp [offer, before, h, h']
  · have h' : P < o.Price := not_le.1 h
    simp [offer, before, h, h']

theorem bidLiquidity_eq (ob : Orderbook) (P : Decimal) :
    bidLiquidity ob P = liq false P ob.bids := by
  unfold bidLiquidity liq
  rw [sum_filter_map]
  apply congrArg
  apply List.map_congr_left
  intro o _
  by_cases h : P ≤ o.Price
  · have h' : ¬ o.Price < P := not_lt.2 h
    simp [offer, before, h, h']
  · have h' : o.Price < P := not_le.1 h
    simp [offer, before, h, h']

/-! ## Price priority and maker accounting, one fill at a time -/

theorem pricePrio_fillOne (ρ : RangeOrder) (asc : Bool) (own : OrderSide) (other : List Order)
    (s : MatchState) (m : Order) (hm : m ∈ s.orders)
    (hbest : ∀ o ∈ s.orders, ¬ before asc o.Price m.Price) (h : PricePrio asc s) :
    PricePrio asc (fillOne ρ own other s m) := by
  obtain ⟨h1, h2⟩ := h
  constructor
  · rw [fillOne_fills, List.pairwise_append]
    refine ⟨h1, List.pairwise_singleton _ _, ?_⟩
    intro f hf g hg
    rw [List.mem_singleton] at hg
    rw [hg]
    exact h2 f hf m hm
  · intro f hf o ho
    obtain ⟨y, hy, hyp⟩ := fillOne_price_mem ρ own other s m hm o ho
    rw [← hyp]
    rw [fillOne_fills] at hf
    rcases List.mem_append.1 hf with h | h
    · exact h2 f h y hy
    · rw [List.mem_singleton] at h
      rw [h]
      exact hbest y hy

theorem got_append (fills : List Fill) (g : Fill) (id : UUID) :
    got (fills ++ [g]) id = got fills id + (if g.MarketOrderID = id then g.Qty else 0) := by
  unfold got
  rw [List.filter_append, sumQty_append]
  by_cases h : g.MarketOrderID = id
  · simp [h, sumQty]
  · simp [h, sumQty]

theorem acc_fillOne (ρ : RangeOrder) (own : OrderSide) (other : List Order)
    (orders0 : List Order) (s : MatchState) (m : Order) (hb : Base s) (hm : m ∈ s.orders)
    (h : Acc orders0 s) : Acc orders0 (fillOne ρ own other s m) := by
  intro y hy
  rw [fillOne_fills, got_append]
  have hmk : (mkFill (fillQty s.taker m) m).MarketOrderID = m.ID := rfl
  have hqk : (mkFill (fillQty s.taker m) m).Qty = fillQty s.taker m := rfl
  rw [hmk, hqk]
  by_cases hid : m.ID = y.ID
  · rw [if_pos hid]
    rcases h y hy with ⟨x, hx, hsame, hfil⟩ | ⟨hgone, _⟩
    · have hxm : x = m := nodupIDs_eq _ hb.1.1 x m hx hm (hsame.1.symm.trans hid.symm)
      rw [hxm] at hsame hfil
      by_cases hfull : (filledMaker s.taker m).Filled = m.Quantity
      · right
        constructor
        · intro x' hx'
          rcases mem_fillOne ρ own other s m x' hx' with h1 | h1
          · rw [← hid]; exact h1.2
          · exact absurd hfull h1.2
        · have h3 : m.Filled + fillQty s.taker m = m.Quantity := hfull
          rw [← hsame.2.2.2.2] at h3
          linarith
      · left
        refine ⟨filledMaker s.taker m, mem_fillOne_self ρ own other s m hm hfull,
          hsame.trans (sameOrder_filledMaker _ _), ?_⟩
        show m.Filled + fillQty s.taker m = _
        linarith
    · exact absurd hid (hgone m hm)
  · rw [if_neg hid, add_zero]
    rcases h y hy with ⟨x, hx, hsame, hfil⟩ | ⟨hgone, hall⟩
    · left
      refine ⟨x, mem_fillOne_of_ne ρ own other s m x hx ?_, hsame, hfil⟩
      intro hx'
      exact hid (hx'.symm.trans hsame.1.symm)
    · right
      refine ⟨?_, hall⟩
      intro x' hx'
      rcases mem_fillOne ρ own other s m x' hx' with h1 | h1
      · exact hgone x' h1.1
      · rw [h1.1]; exact hid

theorem acc_refl (orders : List Order) (prices : List Decimal) (t : Order) :
    Acc orders ⟨orders, prices, t, []⟩ := by
  intro y hy
  left
  refine ⟨y, hy, SameOrder.refl _, ?_⟩
  show y.Filled = y.Filled + 0
  ring

theorem earlierGone_fillOne (ρ : RangeOrder) (own : OrderSide) (other : List Order)
    (s : MatchState) (m : Order) (hq : s.taker.Filled < s.taker.Quantity) (hm : m ∈ s.orders)
    (h : EarlierGone s) : EarlierGone (fillOne ρ own other s m) := by
  have hall := h.2 hq
  have hold : ∀ f ∈ s.fills, ∀ x ∈ (fillOne ρ own other s m).orders,
      x.ID ≠ f.MarketOrderID := by
    intro f hf x hx
    rcases mem_fillOne ρ own other s m x hx with h1 | h1
    · exact hall f hf x h1.1
    · rw [h1.1]; exact hall f hf m hm
  constructor
  · rw [fillOne_fills, List.dropLast_concat]
    exact hold
  · intro hq' f hf x hx
    rw [fillOne_fills] at hf
    rcases List.mem_append.1 hf with h1 | h1
    · exact hold f h1 x hx
    · rw [List.mem_singleton] at h1
      rw [h1]
      show x.ID ≠ m.ID
      rcases mem_fillOne ρ own other s m x hx with h2 | h2
      · exact h2.2
      · exfalso
        rw [fillOne_taker] at hq'
        have hq'' : s.taker.Filled + fillQty s.taker m < s.taker.Quantity := hq'
        apply h2.2
        show m.Filled + fillQty s.taker m = m.Quantity
        rcases fillQty_cases s.taker m with h3 | h3
        · rw [h3] at hq''
          exact absurd hq'' (by linarith)
        · rw [h3]; ring

/-! ## Reachable books used as test inputs -/

theorem reachable_bookOneAsk (A : CreateOrderData → Prop) (h : A (mkData 1 100 2 Sell)) :
    ReachableBy A bookOneAsk :=
  ReachableBy.addOrder _ 1 _ _ (ReachableBy.new _) (by unfold Fresh; decide) h

theorem reachable_bookTwoAsks (A : CreateOrderData → Prop) (h1 : A (mkData 1 100 2 Sell))
    (h2 : A (mkData 2 100 2 Sell)) : ReachableBy A bookTwoAsks :=
  ReachableBy.addOrder _ 2 _ _ (reachable_bookOneAsk A h1) (by unfold Fresh; decide) h2

theorem reachable_bookLadder (A : CreateOrderData → Prop) (h1 : A (mkData 1 100 3 Sell))
    (h2 : A (mkData 2 101 4 Sell)) : ReachableBy A bookLadder :=
  ReachableBy.addOrder _ 2 _ _
    (ReachableBy.addOrder _ 1 _ _ (ReachableBy.new _) (by unfold Fresh; decide) h1)
    (by unfold Fresh; decide) h2

/-! ## Conservation for the incoming order -/

theorem price_mem_sorted_insert (r : Decimal → Decimal → Prop) [DecidableRel r]
    (l : List Decimal) (p : Decimal) :
    p ∈ (if p ∈ l then l else List.insertionSort r (l ++ [p])) := by
  split
  · assumption
  · exact (List.perm_insertionSort r _).mem_iff.2 (by simp)

theorem find_resting (l : List Order) (r : Order) (post : List Order) (id : UUID)
    (h : ∀ x ∈ l, x.ID ≠ id) (hr : r.ID = id) :
    ((l ++ [r]) ++ post).find? (fun o => o.ID == id) = some r := by
  rw [List.append_assoc, find_skip _ _ _ h]
  simp [hr]

theorem onBook_iff (ob : Orderbook) (id : UUID) :
    OnBook ob id ↔ ¬ ∀ o ∈ ob.bids ++ ob.asks, o.ID ≠ id := by
  unfold OnBook
  constructor
  · rintro ⟨o, ho, hid⟩ h
    exact h o ho hid
  · intro h
    by_contra hc
    exact h (fun o ho hid => hc ⟨o, ho, hid⟩)

/-- C1. Conservation for the incoming order: on a reachable book, for an
`AddOrder` call with positive quantity and side Buy or Sell drawing an unused
identifier, the fills plus what the order has left on the book afterwards make
up its quantity; the order is on the book afterwards exactly when the fills sum
to less than the quantity, and then it is the only entry under its identifier,
on the map and price list of its own side, at its limit price, with its
quantity and `Filled` equal to the sum of the fills; when the fills sum to the
quantity nothing is inserted and its own side is as before. -/
theorem addOrder_conservation (ob : Orderbook) (hR : Reachable ob) (ρ : RangeOrder)
    (newID : UUID) (d : CreateOrderData) (hf : Fresh newID ob) (hq : 0 < d.Quantity)
    (hs : d.Side = Buy ∨ d.Side = Sell) :
    sumQty (AddOrder ρ newID ob d).2 + remainingOnBook (AddOrder ρ newID ob d).1 newID
      = d.Quantity ∧
    (OnBook (AddOrder ρ newID ob d).1 newID ↔ sumQty (AddOrder ρ newID ob d).2 < d.Quantity) ∧
    (sumQty (AddOrder ρ newID ob d).2 < d.Quantity →
      findOrder (AddOrder ρ newID ob d).1 newID =
        some (restingOrder newID d (sumQty (AddOrder ρ newID ob d).2)) ∧
      (∀ o ∈ (AddOrder ρ newID ob d).1.bids ++ (AddOrder ρ newID ob d).1.asks, o.ID = newID →
        o = restingOrder newID d (sumQty (AddOrder ρ newID ob d).2)) ∧
      (d.Side = Buy →
        restingOrder newID d (sumQty (AddOrder ρ newID ob d).2) ∈ (AddOrder ρ newID ob d).1.bids ∧
        d.Price ∈ (AddOrder ρ newID ob d).1.bidPrices ∧
        ∀ o ∈ (AddOrder ρ newID ob d).1.asks, o.ID ≠ newID) ∧
      (d.Side = Sell →
        restingOrder newID d (sumQty (AddOrder ρ newID ob d).2) ∈ (AddOrder ρ newID ob d).1.asks ∧
        d.Price ∈ (AddOrder ρ newID ob d).1.askPrices ∧
        ∀ o ∈ (AddOrder ρ newID ob d).1.bids, o.ID ≠ newID)) ∧
    (sumQty (AddOrder ρ newID ob d).2 = d.Quantity →
      (∀ o ∈ (AddOrder ρ newID ob d).1.bids ++ (AddOrder ρ newID ob d).1.asks, o.ID ≠ newID) ∧
      (d.Side = Buy → (AddOrder ρ newID ob d).1.bids = ob.bids ∧
        (AddOrder ρ newID ob d).1.bidPrices = ob.bidPrices) ∧
      (d.Side = Sell → (AddOrder ρ newID ob d).1.asks = ob.asks ∧
        (AddOrder ρ newID ob d).1.askPrices = ob.askPrices)) := by
  have hw : WeakInv ob := weakInv_of_reachableBy _ ob hR
  have hrid : ∀ f, (restingOrder newID d f).ID = newID := fun _ => rfl
  rcases hs with hs | hs
  · have hns : d.Side ≠ Sell := by rw [hs]; exact buy_ne_sell
    obtain ⟨_, _, _, hbids, hbp, _, hle, hids⟩ := AddOrder_buy_shape ρ newID ob d hw hf hq hs
    by_cases hlt : sumQty (AddOrder ρ newID ob d).2 < d.Quantity
    · rw [if_pos hlt] at hbids hbp
      have hfind : findOrder (AddOrder ρ newID ob d).1 newID =
          some (restingOrder newID d (sumQty (AddOrder ρ newID ob d).2)) := by
        unfold findOrder
        rw [hbids]
        exact find_resting _ _ _ _ (fresh_bids newID ob hf) (hrid _)
      have hmem : restingOrder newID d (sumQty (AddOrder ρ newID ob d).2) ∈
          (AddOrder ρ newID ob d).1.bids := by rw [hbids]; simp
      refine ⟨?_, ?_, ?_, ?_⟩
      · unfold remainingOnBook
        rw [hfind]
        show _ + (d.Quantity - sumQty (AddOrder ρ newID ob d).2) = _
        linarith
      · exact ⟨fun _ => hlt, fun _ => ⟨_, List.mem_append_left _ hmem, hrid _⟩⟩
      · intro _
        refine ⟨hfind, ?_, fun _ => ⟨hmem, ?_, hids⟩, fun h => absurd h hns⟩
        · intro o ho hid
          rcases List.mem_append.1 ho with h | h
          · rw [hbids] at h
            rcases List.mem_append.1 h with h1 | h1
            · exact absurd hid (fresh_bids newID ob hf o h1)
            · exact List.mem_singleton.1 h1
          · exact absurd hid (hids o h)
        · rw [hbp]; exact price_mem_sorted_insert _ _ _
      · intro h; exact absurd h (ne_of_lt hlt)
    · rw [if_neg hlt] at hbids hbp
      have hall : ∀ o ∈ (AddOrder ρ newID ob d).1.bids ++ (AddOrder ρ newID ob d).1.asks,
          o.ID ≠ newID := by
        intro o ho
        rcases List.mem_append.1 ho with h | h
        · rw [hbids] at h; exact fresh_bids newID ob hf o h
        · exact hids o h
      refine ⟨?_, ?_, fun h => absurd h hlt, fun _ => ⟨hall, fun _ => ⟨hbids, hbp⟩,
        fun h => absurd h hns⟩⟩
      · unfold remainingOnBook findOrder
        rw [find_none _ _ hall]
        show _ + 0 = _
        linarith [not_lt.1 hlt]
      · rw [onBook_iff]
        exact ⟨fun h => absurd hall h, fun h => absurd h hlt⟩
  · have hnb : d.Side ≠ Buy := by rw [hs]; exact buy_ne_sell.symm
    obtain ⟨_, _, _, hasks, hap, _, hle, hids⟩ := AddOrder_sell_shape ρ newID ob d hw hf hq hnb
    by_cases hlt : sumQty (AddOrder ρ newID ob d).2 < d.Quantity
    · rw [if_pos hlt] at hasks hap
      have hfind : findOrder (AddOrder ρ newID ob d).1 newID =
          some (restingOrder newID d (sumQty (AddOrder ρ newID ob d).2)) := by
        unfold findOrder
        rw [find_skip _ _ _ hids, hasks]
        have := find_resting ob.asks (restingOrder newID d (sumQty (AddOrder ρ newID ob d).2))
          [] newID (fresh_asks newID ob hf) (hrid _)
        simpa using this
      have hmem : restingOrder newID d (sumQty (AddOrder ρ newID ob d).2) ∈
          (AddOrder ρ newID ob d).1.asks := by rw [hasks]; simp
      refine ⟨?_, ?_, ?_, ?_⟩
      · unfold remainingOnBook
        rw [hfind]
        show _ + (d.Quantity - sumQty (AddOrder ρ newID ob d).2) = _
        linarith
      · exact ⟨fun _ => hlt, fun _ => ⟨_, List.mem_append_right _ hmem, hrid _⟩⟩
      · intro _
        refine ⟨hfind, ?_, fun h => absurd h hnb, fun _ => ⟨hmem, ?_, hids⟩⟩
        · intro o ho hid
          rcases List.mem_append.1 ho with h | h
          · exact absurd hid (hids o h)
          · rw [hasks] at h
            rcases List.mem_append.1 h with h1 | h1
            · exact absurd hid (fresh_asks newID ob hf o h1)
            · exact List.mem_singleton.1 h1
        · rw [hap]; exact price_mem_sorted_insert _ _ _
      · intro h; exact absurd h (ne_of_lt hlt)
    · rw [if_neg hlt] at hasks hap
      have hall : ∀ o ∈ (AddOrder ρ newID ob d).1.bids ++ (AddOrder ρ newID ob d).1.asks,
          o.ID ≠ newID := by
        intro o ho
        rcases List.mem_append.1 ho with h | h
        · exact hids o h
        · rw [hasks] at h; exact fresh_asks newID ob hf o h
      refine ⟨?_, ?_, fun h => absurd h hlt, fun _ => ⟨hall, fun h => absurd h hnb,
        fun _ => ⟨hasks, hap⟩⟩⟩
      · unfold remainingOnBook findOrder
        rw [find_none _ _ hall]
        show _ + 0 = _
        linarith [not_lt.1 hlt]
      · rw [onBook_iff]
        exact ⟨fun h => absurd hall h, fun h => absurd h hlt⟩

/-- C1 at the "partial rest" scenario: a Buy `(101, 5)` on a book holding one
Sell `(100, 2)`. -/
theorem addOrder_conservation_witness :
    sumQty (AddOrder RangeOrder.inserted 2 bookOneAsk (mkData 2 101 5 Buy)).2 +
        remainingOnBook (AddOrder RangeOrder.inserted 2 bookOneAsk (mkData 2 101 5 Buy)).1 2
      = 5 ∧
    (AddOrder RangeOrder.inserted 2 bookOneAsk (mkData 2 101 5 Buy)).2 =
      [⟨2, 100, 1, 1⟩] ∧
    (AddOrder RangeOrder.inserted 2 bookOneAsk (mkData 2 101 5 Buy)).1.bids =
      [⟨2, 2, Buy, 101, 5, 2⟩] ∧
    (AddOrder RangeOrder.inserted 2 bookOneAsk (mkData 2 101 5 Buy)).1.asks = [] :=
  ⟨(addOrder_conservation bookOneAsk (reachable_bookOneAsk _ trivial) RangeOrder.inserted 2
      (mkData 2 101 5 Buy) (by unfold Fresh; decide) (by decide) (Or.inl rfl)).1,
    by decide, by decide, by decide⟩

/-! ## Maker-price execution -/

/-- C5. Maker-price execution: on a reachable book every fill returned by
`AddOrder` names, by `MarketOrderID` and `OtherUserID`, an order that was
resting on the opposite side before the call (the asks for a Buy, the bids
otherwise), and its `Price` is that order's limit price; so it is at most the
limit of a Buy taker and at least the limit of a Sell taker. -/
theorem maker_price_execution (ob : Orderbook) (hR : Reachable ob) (ρ : RangeOrder)
    (newID : UUID) (d : CreateOrderData) :
    ∀ f ∈ (AddOrder ρ newID ob d).2,
      (d.Side = Buy → ∃ y ∈ ob.asks, f.MarketOrderID = y.ID ∧ f.OtherUserID = y.UserID ∧
        f.Price = y.Price ∧ f.Price ≤ d.Price) ∧
      (d.Side ≠ Buy → ∃ y ∈ ob.bids, f.MarketOrderID = y.ID ∧ f.OtherUserID = y.UserID ∧
        f.Price = y.Price ∧ d.Price ≤ f.Price) := by
  have hw : WeakInv ob := weakInv_of_reachableBy _ ob hR
  by_cases hq : d.Quantity ≤ 0
  · rw [AddOrder_nothing ρ newID ob d hq]
    intro f hf
    exact absurd hf (List.not_mem_nil f)
  · have hq' : 0 < d.Quantity := not_le.1 hq
    intro f hf
    by_cases hs : d.Side = Buy
    · refine ⟨fun _ => ?_, fun h => absurd hs h⟩
      obtain ⟨_, hT⟩ := walk_track ρ true Sell ob.bids (ob.askPrices.length + 1)
        ⟨ob.asks, ob.askPrices, newOrder newID d, []⟩ 0 (base_start _ _ _ _ hw.2.1 hq')
      obtain ⟨new, hnew, hall⟩ := hT.2.2.2
      have hfills : (AddOrder ρ newID ob d).2 = new := by
        rw [AddOrder_buy ρ newID ob d hw.2.2.2 hs]
        have : (bidWalk ρ ob (newOrder newID d)).fills = new := by
          rw [show (bidWalk ρ ob (newOrder newID d)).fills = [] ++ new from hnew]; rfl
        split <;> exact this
      rw [hfills] at hf
      obtain ⟨_, y, hy, hn, hp⟩ := hall f hf
      refine ⟨y, hy, hn.1, hn.2.1, hn.2.2, ?_⟩
      rw [hn.2.2]
      have hp' : ¬ (d.Price < y.Price) := by simpa [before] using hp
      exact not_lt.1 hp'
    · refine ⟨fun h => absurd h hs, fun _ => ?_⟩
      obtain ⟨_, hT⟩ := walk_track ρ false Buy ob.asks (ob.bidPrices.length + 1)
        ⟨ob.bids, ob.bidPrices, newOrder newID d, []⟩ 0 (base_start _ _ _ _ hw.1 hq')
      obtain ⟨new, hnew, hall⟩ := hT.2.2.2
      have hfills : (AddOrder ρ newID ob d).2 = new := by
        rw [AddOrder_sell ρ newID ob d hw.2.2.1 hs]
        have : (askWalk ρ ob (newOrder newID d)).fills = new := by
          rw [show (askWalk ρ ob (newOrder newID d)).fills = [] ++ new from hnew]; rfl
        split <;> exact this
      rw [hfills] at hf
      obtain ⟨_, y, hy, hn, hp⟩ := hall f hf
      refine ⟨y, hy, hn.1, hn.2.1, hn.2.2, ?_⟩
      rw [hn.2.2]
      have hp' : ¬ (y.Price < d.Price) := by simpa [before] using hp
      exact not_lt.1 hp'

/-- C5 at a Buy `(101, 5)` meeting a resting Sell `(100, 2)`: the fill is at 100,
the limit of the maker, not at 101. -/
theorem maker_price_execution_witness :
    ∃ y ∈ bookOneAsk.asks, (⟨2, 100, 1, 1⟩ : Fill).MarketOrderID = y.ID ∧
      (⟨2, 100, 1, 1⟩ : Fill).OtherUserID = y.UserID ∧
      (⟨2, 100, 1, 1⟩ : Fill).Price = y.Price ∧
      (⟨2, 100, 1, 1⟩ : Fill).Price ≤ (mkData 2 101 5 Buy).Price :=
  (maker_price_execution bookOneAsk (reachable_bookOneAsk _ trivial) RangeOrder.inserted 2
    (mkData 2 101 5 Buy) ⟨2, 100, 1, 1⟩ (by decide)).1 rfl

/-! ## The filled bound -/

/-- C7. Filled bound: every order resting on a reachable book has
`0 ≤ Filled < Quantity`; in particular after any further `AddOrder` call no
order whose `Filled` has reached its `Quantity` is on the book. -/
theorem filled_bound (ob : Orderbook) (hR : Reachable ob) :
    (∀ o ∈ ob.bids ++ ob.asks, 0 ≤ o.Filled ∧ o.Filled < o.Quantity) ∧
    ∀ (ρ : RangeOrder) (newID : UUID) (d : CreateOrderData), Fresh newID ob →
      ∀ o ∈ (AddOrder ρ newID ob d).1.bids ++ (AddOrder ρ newID ob d).1.asks,
        o.Filled ≠ o.Quantity := by
  have key : ∀ b : Orderbook, WeakInv b → ∀ o ∈ b.bids ++ b.asks, Unfilled o := by
    intro b hb o ho
    rcases List.mem_append.1 ho with h | h
    · exact hb.1.2 o h
    · exact hb.2.1.2 o h
  have hw : WeakInv ob := weakInv_of_reachableBy _ ob hR
  refine ⟨key ob hw, ?_⟩
  intro ρ newID d hf o ho
  exact ne_of_lt (key _ (weakInv_AddOrder ρ newID ob d hw hf) o ho).2

/-- C7 at the book holding two resting Sells `(100, 2)`. -/
theorem filled_bound_witness :
    (∀ o ∈ bookTwoAsks.bids ++ bookTwoAsks.asks, 0 ≤ o.Filled ∧ o.Filled < o.Quantity) ∧
    ∀ (ρ : RangeOrder) (newID : UUID) (d : CreateOrderData), Fresh newID bookTwoAsks →
      ∀ o ∈ (AddOrder ρ newID bookTwoAsks d).1.bids ++ (AddOrder ρ newID bookTwoAsks d).1.asks,
        o.Filled ≠ o.Quantity :=
  filled_bound bookTwoAsks (reachable_bookTwoAsks _ trivial trivial)

/-! ## Orders the engine does not reject -/

/-- C8, counterexample. A Sell with price `0` and quantity `3` is not rejected:
on the new book it rests at price `0`, and a following Buy at price `0` trades
with it at price `0`. -/
theorem reject_invalid_counterexample :
    (mkData 1 0 3 Sell).Price ≤ 0 ∧
    processCommand RangeOrder.inserted 1 (NewOrderbook "SOL_USDC")
        ⟨"CREATE_ORDER", mkData 1 0 3 Sell⟩ =
      ({ market := "SOL_USDC", bids := [], asks := [⟨1, 1, Sell, 0, 3, 0⟩],
         bidPrices := [], askPrices := [0] }, []) ∧
    (processCommand RangeOrder.inserted 2
        (processCommand RangeOrder.inserted 1 (NewOrderbook "SOL_USDC")
          ⟨"CREATE_ORDER", mkData 1 0 3 Sell⟩).1
        ⟨"CREATE_ORDER", mkData 2 0 3 Buy⟩).2 = [⟨3, 0, 1, 1⟩] := by
  refine ⟨by decide, by decide, by decide⟩

/-- C8, amended. A `CREATE_ORDER` command whose quantity is `≤ 0` produces no
fills and leaves the book as it is, on every book and whatever its price and
side. -/
theorem reject_nonpositive_quantity (ρ : RangeOrder) (newID : UUID) (ob : Orderbook)
    (apiMsg : APIMessage) (hq : apiMsg.Data.Quantity ≤ 0) :
    processCommand ρ newID ob apiMsg = (ob, []) := by
  unfold processCommand
  split
  · exact AddOrder_nothing ρ newID ob apiMsg.Data hq
  · rfl

/-- C8 amended, at a Buy of quantity `0` sent to a book with one resting Sell. -/
theorem reject_nonpositive_quantity_witness :
    processCommand RangeOrder.inserted 2 bookOneAsk ⟨"CREATE_ORDER", mkData 2 100 0 Buy⟩ =
      (bookOneAsk, []) :=
  reject_nonpositive_quantity RangeOrder.inserted 2 bookOneAsk
    ⟨"CREATE_ORDER", mkData 2 100 0 Buy⟩ (by decide)

/-- C10, counterexample. A `CREATE_ORDER` for market `BTC_USDC` sent to the
engine, whose book is for `SOL_USDC`, trades with the Sell resting on that
book. -/
theorem unknown_market_counterexample :
    bookOneAsk.market = "SOL_USDC" ∧
    processCommand RangeOrder.inserted 2 bookOneAsk
        ⟨"CREATE_ORDER", ⟨2, "BTC_USDC", 100, 2, Buy⟩⟩ =
      ({ market := "SOL_USDC", bids := [], asks := [], bidPrices := [], askPrices := [] },
        [⟨2, 100, 1, 1⟩]) := by
  refine ⟨by decide, by decide⟩

/-- C10, amended. The engine does not read the market of a command: the result
of processing a command on its book is the same whatever market the command
names. -/
theorem market_ignored (ρ : RangeOrder) (newID : UUID) (ob : Orderbook)
    (apiMsg : APIMessage) (market : String) :
    processCommand ρ newID ob
        { apiMsg with Data := { apiMsg.Data with Market := market } } =
      processCommand ρ newID ob apiMsg := by
  unfold processCommand AddOrder
  rfl

/-! ## No crossed book -/

theorem reachable_bookBidAsk : ReachableBuySell bookBidAsk :=
  ReachableBy.addOrder _ 2 _ _ (reachable_bookOneAsk _ (Or.inr rfl)) (by unfold Fresh; decide)
    (Or.inl rfl)

/-- C2. No crossed book: on every book reached from a new book by `AddOrder`
calls whose side is Buy or Sell, every resting bid is priced strictly below
every resting ask. -/
theorem no_crossed_book (ob : Orderbook) (h : ReachableBuySell ob) :
    ∀ b ∈ ob.bids, ∀ a ∈ ob.asks, b.Price < a.Price :=
  (strongInv_of_reachable ob h).2.2

/-- C2 at a book holding a Sell `(100, 2)` and a Buy `(99, 5)`. -/
theorem no_crossed_book_witness :
    (⟨2, 2, Buy, 99, 5, 0⟩ : Order).Price < (⟨1, 1, Sell, 100, 2, 0⟩ : Order).Price :=
  no_crossed_book bookBidAsk reachable_bookBidAsk ⟨2, 2, Buy, 99, 5, 0⟩ (by decide)
    ⟨1, 1, Sell, 100, 2, 0⟩ (by decide)

/-! ## The matched amount -/

/-- The fills of a walk started by `AddOrder` on a well-formed side sum to the
smaller of the quantity and the liquidity at accepted prices. -/
theorem walk_matched (ρ : RangeOrder) (asc : Bool) (own : OrderSide)
    (other orders : List Order) (prices : List Decimal) (newID : UUID) (d : CreateOrderData)
    (h : SideOK asc own orders prices) (hq : 0 < d.Quantity) :
    sumQty (walk ρ asc own other (prices.length + 1)
      ⟨orders, prices, newOrder newID d, []⟩ 0).fills = min d.Quantity (liq asc d.Price orders) := by
  obtain ⟨hB, _, hT, hI, hD⟩ := walk_strong ρ asc own other orders prices newID d h hq
    (fun s => liq asc d.Price s.orders + s.taker.Filled = liq asc d.Price orders)
    (by
      intro s m hb _ _ hm hacc _ hT hI
      have hp : s.taker.Price = d.Price := hT.1.2.2.2.1.symm
      rw [hp] at hacc
      rw [liq_fillOne ρ asc own other d.Price s m hb hm hacc, fillOne_taker]
      show liq asc d.Price s.orders - fillQty s.taker m + (s.taker.Filled + fillQty s.taker m) = _
      linarith)
    (by show liq asc d.Price orders + 0 = _; ring)
  have hfill : (walk ρ asc own other (prices.length + 1)
      ⟨orders, prices, newOrder newID d, []⟩ 0).taker.Filled =
      sumQty (walk ρ asc own other (prices.length + 1)
        ⟨orders, prices, newOrder newID d, []⟩ 0).fills := by
    have h := hT.2.1
    have h0 : sumQty ([] : List Fill) = 0 := rfl
    have h1 : (newOrder newID d).Filled = 0 := rfl
    simp only [h0, h1] at h
    linarith
  have hqty : (walk ρ asc own other (prices.length + 1)
      ⟨orders, prices, newOrder newID d, []⟩ 0).taker.Quantity = d.Quantity :=
    hT.1.2.2.2.2.symm
  have hpr : (walk ρ asc own other (prices.length + 1)
      ⟨orders, prices, newOrder newID d, []⟩ 0).taker.Price = d.Price :=
    hT.1.2.2.2.1.symm
  have hnn := liq_nonneg asc d.Price _ hB.1.2
  have hle := hB.2.2
  rw [← hfill]
  rcases hD with hfull | hnone
  · rw [hqty] at hfull
    rw [hfull, min_eq_left]
    linarith
  · rw [hpr] at hnone
    have hz := liq_zero asc d.Price _ hnone
    rw [hqty] at hle
    rw [min_eq_right]
    · linarith
    · linarith

/-- C4. Matched amount: on a book reached by Buy and Sell orders, the fills of
a Buy with limit `P` and quantity `Q > 0` sum to `min Q L`, where `L` is the
sum of `Quantity - Filled` over the resting asks with price `≤ P` before the
call; those of a Sell sum to `min Q L` with `L` taken over the resting bids
with price `≥ P`. -/
theorem matched_amount (ob : Orderbook) (hR : ReachableBuySell ob) (ρ : RangeOrder)
    (newID : UUID) (d : CreateOrderData) (hq : 0 < d.Quantity) :
    (d.Side = Buy →
      sumQty (AddOrder ρ newID ob d).2 = min d.Quantity (askLiquidity ob d.Price)) ∧
    (d.Side = Sell →
      sumQty (AddOrder ρ newID ob d).2 = min d.Quantity (bidLiquidity ob d.Price)) := by
  have hS := strongInv_of_reachable ob hR
  have hw := strongInv_weak ob hS
  constructor
  · intro hs
    rw [(AddOrder_buy_walk ρ newID ob d hw.2.2.2 hs).1, askLiquidity_eq]
    exact walk_matched ρ true Sell ob.bids ob.asks ob.askPrices newID d hS.2.1 hq
  · intro hs
    have hnb : d.Side ≠ Buy := by rw [hs]; exact buy_ne_sell.symm
    rw [(AddOrder_sell_walk ρ newID ob d hw.2.2.1 hnb).1, bidLiquidity_eq]
    exact walk_matched ρ false Buy ob.asks ob.bids ob.bidPrices newID d hS.1 hq

/-- C4 at the "walk the book" scenario: a Buy `(101, 6)` on resting Sells
`(100, 3)` and `(101, 4)` is matched for `min 6 7 = 6`. -/
theorem matched_amount_witness :
    sumQty (AddOrder RangeOrder.inserted 3 bookLadder (mkData 3 101 6 Buy)).2 =
      min (mkData 3 101 6 Buy).Quantity (askLiquidity bookLadder (mkData 3 101 6 Buy).Price) ∧
    askLiquidity bookLadder 101 = 7 ∧
    (AddOrder RangeOrder.inserted 3 bookLadder (mkData 3 101 6 Buy)).2 =
      [⟨3, 100, 1, 1⟩, ⟨3, 101, 2, 2⟩] :=
  ⟨(matched_amount bookLadder (reachable_bookLadder _ (Or.inr rfl) (Or.inr rfl))
      RangeOrder.inserted 3 (mkData 3 101 6 Buy) (by decide)).1 rfl, by decide, by decide⟩

/-! ## Price priority -/

theorem walk_fills_eq (asc : Bool) (s0 s : MatchState) (h0 : s0.fills = [])
    (hT : Track asc s0 s) :
    ∀ f ∈ s.fills, 0 < f.Qty ∧ ∃ y ∈ s0.orders, Names f y ∧ ¬ before asc s0.taker.Price y.Price := by
  obtain ⟨new, hnew, hall⟩ := hT.2.2.2
  rw [h0, List.nil_append] at hnew
  rw [hnew]; exact hall

/-- Price priority of a walk started by `AddOrder` on a well-formed side: the
fills come in walk order of price, and when an order `A` is named by a fill,
every order `B` priced before `A` is gone from the map and the fills naming `B`
gave it all it had open. -/
theorem walk_priority (ρ : RangeOrder) (asc : Bool) (own : OrderSide)
    (other orders : List Order) (prices : List Decimal) (newID : UUID) (d : CreateOrderData)
    (h : SideOK asc own orders prices) (hq : 0 < d.Quantity) :
    (walk ρ asc own other (prices.length + 1) ⟨orders, prices, newOrder newID d, []⟩ 0).fills.Pairwise
        (fun f g => ¬ before asc g.Price f.Price) ∧
    ∀ A ∈ orders, ∀ B ∈ orders, before asc B.Price A.Price →
      (∃ f ∈ (walk ρ asc own other (prices.length + 1)
        ⟨orders, prices, newOrder newID d, []⟩ 0).fills, f.MarketOrderID = A.ID) →
      (∀ x ∈ (walk ρ asc own other (prices.length + 1)
        ⟨orders, prices, newOrder newID d, []⟩ 0).orders, x.ID ≠ B.ID) ∧
      B.Filled + got (walk ρ asc own other (prices.length + 1)
        ⟨orders, prices, newOrder newID d, []⟩ 0).fills B.ID = B.Quantity := by
  obtain ⟨_, _, hT, ⟨hP, hA⟩, _⟩ := walk_strong ρ asc own other orders prices newID d h hq
    (fun s => PricePrio asc s ∧ Acc orders s)
    (fun s m hb _ _ hm _ hbest _ hI =>
      ⟨pricePrio_fillOne ρ asc own other s m hm hbest hI.1,
        acc_fillOne ρ own other orders s m hb hm hI.2⟩)
    ⟨⟨List.Pairwise.nil, fun f hf => absurd hf (List.not_mem_nil f)⟩, acc_refl _ _ _⟩
  refine ⟨hP.1, ?_⟩
  intro A hA' B hB hBA ⟨f, hf, hfA⟩
  obtain ⟨_, y, hy, hn, _⟩ := walk_fills_eq asc _ _ rfl hT f hf
  have hyA : y = A := nodupIDs_eq _ h.1.1 y A hy hA' (hn.1.symm.trans hfA)
  have hfp : f.Price = A.Price := by rw [hn.2.2, hyA]
  rcases hA B hB with ⟨x, hx, hsame, _⟩ | hgone
  · exfalso
    have := hP.2 f hf x hx
    rw [hfp, ← hsame.2.2.2.1] at this
    exact this hBA
  · exact hgone

theorem AddOrder_nothing_fills (ρ : RangeOrder) (newID : UUID) (ob : Orderbook)
    (d : CreateOrderData) (h : d.Quantity ≤ 0) : (AddOrder ρ newID ob d).2 = [] := by
  rw [AddOrder_nothing ρ newID ob d h]

/-- C6. Price priority: on a book reached by Buy and Sell orders, the fills of
a Buy come in non-decreasing price order, and a resting ask `A` is named by a
fill only if every resting ask `B` with a strictly lower price is completely
filled by the same call: `B` is no longer on the book and the fills naming `B`
sum to what it had open.  For a Sell the fills come in non-increasing price
order and the same holds for every bid `B` with a strictly higher price. -/
theorem price_priority (ob : Orderbook) (hR : ReachableBuySell ob) (ρ : RangeOrder)
    (newID : UUID) (d : CreateOrderData) :
    (d.Side = Buy →
      (AddOrder ρ newID ob d).2.Pairwise (fun f g => f.Price ≤ g.Price) ∧
      ∀ A ∈ ob.asks, ∀ B ∈ ob.asks, B.Price < A.Price →
        (∃ f ∈ (AddOrder ρ newID ob d).2, f.MarketOrderID = A.ID) →
        (∀ x ∈ (AddOrder ρ newID ob d).1.asks, x.ID ≠ B.ID) ∧
        B.Filled + got (AddOrder ρ newID ob d).2 B.ID = B.Quantity) ∧
    (d.Side = Sell →
      (AddOrder ρ newID ob d).2.Pairwise (fun f g => g.Price ≤ f.Price) ∧
      ∀ A ∈ ob.bids, ∀ B ∈ ob.bids, A.Price < B.Price →
        (∃ f ∈ (AddOrder ρ newID ob d).2, f.MarketOrderID = A.ID) →
        (∀ x ∈ (AddOrder ρ newID ob d).1.bids, x.ID ≠ B.ID) ∧
        B.Filled + got (AddOrder ρ newID ob d).2 B.ID = B.Quantity) := by
  have hS := strongInv_of_reachable ob hR
  have hw := strongInv_weak ob hS
  by_cases hq : d.Quantity ≤ 0
  · have hnil := AddOrder_nothing_fills ρ newID ob d hq
    constructor
    · intro _
      rw [hnil]
      exact ⟨List.Pairwise.nil, fun A _ B _ _ hex => by
        obtain ⟨f, hf, _⟩ := hex
        exact absurd hf (List.not_mem_nil f)⟩
    · intro _
      rw [hnil]
      exact ⟨List.Pairwise.nil, fun A _ B _ _ hex => by
        obtain ⟨f, hf, _⟩ := hex
        exact absurd hf (List.not_mem_nil f)⟩
  · have hq' : 0 < d.Quantity := not_le.1 hq
    constructor
    · intro hs
      obtain ⟨e1, e2, _⟩ := AddOrder_buy_walk ρ newID ob d hw.2.2.2 hs
      obtain ⟨h1, h2⟩ := walk_priority ρ true Sell ob.bids ob.asks ob.askPrices newID d
        hS.2.1 hq'
      rw [e1, e2]
      refine ⟨h1.imp (fun {f g} hfg => ?_), fun A hA B hB hBA hex => ?_⟩
      · have : ¬ g.Price < f.Price := by simpa [before] using hfg
        exact not_lt.1 this
      · exact h2 A hA B hB (by simpa [before] using hBA) hex
    · intro hs
      have hnb : d.Side ≠ Buy := by rw [hs]; exact buy_ne_sell.symm
      obtain ⟨e1, e2, _⟩ := AddOrder_sell_walk ρ newID ob d hw.2.2.1 hnb
      obtain ⟨h1, h2⟩ := walk_priority ρ false Buy ob.asks ob.bids ob.bidPrices newID d
        hS.1 hq'
      rw [e1, e2]
      refine ⟨h1.imp (fun {f g} hfg => ?_), fun A hA B hB hBA hex => ?_⟩
      · have : ¬ f.Price < g.Price := by simpa [before] using hfg
        exact not_lt.1 this
      · exact h2 A hA B hB (by simpa [before] using hBA) hex

/-- C6 at the "walk the book" scenario: the Buy `(101, 6)` reaches the Sell at
101 (order 2), so the Sell at 100 (order 1) is gone and got its 3. -/
theorem price_priority_witness :
    (∀ x ∈ (AddOrder RangeOrder.inserted 3 bookLadder (mkData 3 101 6 Buy)).1.asks,
        x.ID ≠ (⟨1, 1, Sell, 100, 3, 0⟩ : Order).ID) ∧
      (⟨1, 1, Sell, 100, 3, 0⟩ : Order).Filled +
          got (AddOrder RangeOrder.inserted 3 bookLadder (mkData 3 101 6 Buy)).2
            (⟨1, 1, Sell, 100, 3, 0⟩ : Order).ID =
        (⟨1, 1, Sell, 100, 3, 0⟩ : Order).Quantity :=
  ((price_priority bookLadder (reachable_bookLadder _ (Or.inr rfl) (Or.inr rfl))
      RangeOrder.inserted 3 (mkData 3 101 6 Buy)).1 rfl).2
    ⟨2, 2, Sell, 101, 4, 0⟩ (by decide) ⟨1, 1, Sell, 100, 3, 0⟩ (by decide) (by decide)
    ⟨⟨3, 101, 2, 2⟩, by decide, rfl⟩

/-! ## Time priority -/

/-- C3, counterexample. Orders 1 and 2 rest at the same price on the same side,
order 1 admitted first.  When the range over the map visits the later entry
first, a Buy `(100, 3)` fills order 2 completely and first, and order 1 only
for 1 of its 2: order 2 received a fill while order 1 had quantity left. -/
theorem time_priority_counterexample :
    bookTwoAsks.asks = [⟨1, 1, Sell, 100, 2, 0⟩, ⟨2, 2, Sell, 100, 2, 0⟩] ∧
    (AddOrder RangeOrder.latestFirst 3 bookTwoAsks (mkData 3 100 3 Buy)).2 =
      [⟨2, 100, 2, 2⟩, ⟨1, 100, 1, 1⟩] ∧
    (AddOrder RangeOrder.latestFirst 3 bookTwoAsks (mkData 3 100 3 Buy)).1.asks =
      [⟨1, 1, Sell, 100, 2, 1⟩] := by
  refine ⟨by decide, by decide, by decide⟩

/-- In a walk started by `AddOrder`, an order named by a fill that is not the
last fill is gone from the map and the fills naming it gave it all it had
open. -/
theorem walk_earlier (ρ : RangeOrder) (asc : Bool) (own : OrderSide)
    (other orders : List Order) (prices : List Decimal) (fuel : Nat) (newID : UUID)
    (d : CreateOrderData) (hl : LiveMap orders) (hq : 0 < d.Quantity)
    (pre post : List Fill) (fa : Fill) (hpost : post ≠ [])
    (hfills : (walk ρ asc own other fuel ⟨orders, prices, newOrder newID d, []⟩ 0).fills =
      pre ++ fa :: post) (A : Order) (hA : A ∈ orders) (hfa : fa.MarketOrderID = A.ID) :
    (∀ x ∈ (walk ρ asc own other fuel ⟨orders, prices, newOrder newID d, []⟩ 0).orders,
      x.ID ≠ A.ID) ∧
    A.Filled + got (walk ρ asc own other fuel ⟨orders, prices, newOrder newID d, []⟩ 0).fills
      A.ID = A.Quantity := by
  obtain ⟨_, hAcc, hE⟩ := walk_inv ρ asc own other (fun s => Acc orders s ∧ EarlierGone s)
    (fun s m hb hlt hm _ hI =>
      ⟨acc_fillOne ρ own other orders s m hb hm hI.1,
        earlierGone_fillOne ρ own other s m hlt hm hI.2⟩)
    (fun s p hI => hI) fuel ⟨orders, prices, newOrder newID d, []⟩ 0
    (base_start _ _ _ _ hl hq)
    ⟨acc_refl _ _ _, fun f hf => absurd hf (List.not_mem_nil f),
      fun _ f hf => absurd hf (List.not_mem_nil f)⟩
  have hmem : fa ∈ (walk ρ asc own other fuel
      ⟨orders, prices, newOrder newID d, []⟩ 0).fills.dropLast := by
    rw [hfills, List.dropLast_append_of_ne_nil _ (List.cons_ne_nil fa post)]
    obtain ⟨b, post', rfl⟩ := List.exists_cons_of_ne_nil hpost
    simp [List.dropLast]
  have hgone := hE.1 fa hmem
  rw [hfa] at hgone
  rcases hAcc A hA with ⟨x, hx, hsame, _⟩ | hdone
  · exact absurd hsame.1.symm (hgone x hx)
  · exact hdone

/-- C3, amended. On a reachable book, for any two orders `A` and `B` resting on
the side a call walks (in particular at the same price): when the fills of the
call name `A` before `B`, `A` is completely filled by the call, being no longer
on the book with the fills naming it summing to what it had open.  So no order
receives a fill while an order filled earlier in the call has quantity left;
which of the two is visited first is the range order of the map. -/
theorem fill_order_priority (ob : Orderbook) (hR : Reachable ob) (ρ : RangeOrder)
    (newID : UUID) (d : CreateOrderData) (pre mid post : List Fill) (fa fb : Fill)
    (hfills : (AddOrder ρ newID ob d).2 = pre ++ fa :: (mid ++ fb :: post)) :
    (d.Side = Buy → ∀ A ∈ ob.asks, ∀ B ∈ ob.asks,
      fa.MarketOrderID = A.ID → fb.MarketOrderID = B.ID →
      (∀ x ∈ (AddOrder ρ newID ob d).1.asks, x.ID ≠ A.ID) ∧
      A.Filled + got (AddOrder ρ newID ob d).2 A.ID = A.Quantity) ∧
    (d.Side ≠ Buy → ∀ A ∈ ob.bids, ∀ B ∈ ob.bids,
      fa.MarketOrderID = A.ID → fb.MarketOrderID = B.ID →
      (∀ x ∈ (AddOrder ρ newID ob d).1.bids, x.ID ≠ A.ID) ∧
      A.Filled + got (AddOrder ρ newID ob d).2 A.ID = A.Quantity) := by
  have hw : WeakInv ob := weakInv_of_reachableBy _ ob hR
  have hq : 0 < d.Quantity := by
    by_contra hq
    rw [AddOrder_nothing_fills ρ newID ob d (not_lt.1 hq)] at hfills
    exact absurd hfills (by simp)
  have hne : mid ++ fb :: post ≠ [] := by simp
  constructor
  · intro hs A hA B _ hfa _
    obtain ⟨e1, e2, _⟩ := AddOrder_buy_walk ρ newID ob d hw.2.2.2 hs
    rw [e1] at hfills
    rw [e1, e2]
    exact walk_earlier ρ true Sell ob.bids ob.asks ob.askPrices _ newID d hw.2.1 hq pre _ fa hne
      hfills A hA hfa
  · intro hs A hA B _ hfa _
    obtain ⟨e1, e2, _⟩ := AddOrder_sell_walk ρ newID ob d hw.2.2.1 hs
    rw [e1] at hfills
    rw [e1, e2]
    exact walk_earlier ρ false Buy ob.asks ob.bids ob.bidPrices _ newID d hw.1 hq pre _ fa hne
      hfills A hA hfa

/-- C3 amended, at the "time priority" scenario: a Buy `(100, 3)` on two Sells
`(100, 2)`, visited in insertion order, names order 1 before order 2, and
order 1 is gone with its 2 filled. -/
theorem fill_order_priority_witness :
    (∀ x ∈ (AddOrder RangeOrder.inserted 3 bookTwoAsks (mkData 3 100 3 Buy)).1.asks,
        x.ID ≠ (⟨1, 1, Sell, 100, 2, 0⟩ : Order).ID) ∧
      (⟨1, 1, Sell, 100, 2, 0⟩ : Order).Filled +
          got (AddOrder RangeOrder.inserted 3 bookTwoAsks (mkData 3 100 3 Buy)).2
            (⟨1, 1, Sell, 100, 2, 0⟩ : Order).ID =
        (⟨1, 1, Sell, 100, 2, 0⟩ : Order).Quantity :=
  (fill_order_priority bookTwoAsks (reachable_bookTwoAsks _ trivial trivial)
      RangeOrder.inserted 3 (mkData 3 100 3 Buy) [] [] [] ⟨2, 100, 1, 1⟩ ⟨1, 100, 2, 2⟩
      (by decide)).1 rfl ⟨1, 1, Sell, 100, 2, 0⟩ (by decide) ⟨2, 2, Sell, 100, 2, 0⟩
    (by decide) rfl rfl

/-! ## A side that is neither `Buy` nor `Sell` -/

theorem fillOne_retag (ρ : RangeOrder) (own : OrderSide) (other : List Order)
    (sd : OrderSide) (s : MatchState) (m : Order) :
    fillOne ρ own other (retag sd s) m = retag sd (fillOne ρ own other s m) := rfl

theorem fillLevel_retag (ρ : RangeOrder) (own : OrderSide) (other : List Order)
    (sd : OrderSide) (snap : List Order) :
    ∀ s : MatchState,
      fillLevel ρ own other snap (retag sd s) = retag sd (fillLevel ρ own other snap s) := by
  induction snap with
  | nil => intro s; rfl
  | cons m rest ih =>
    intro s
    unfold fillLevel
    have h1 : (retag sd s).taker.Filled = s.taker.Filled := rfl
    have h2 : (retag sd s).taker.Quantity = s.taker.Quantity := rfl
    rw [h1, h2]
    split
    · rfl
    · rw [fillOne_retag, ih]

/-- The walk does not read the side string of its taker. -/
theorem walk_retag (ρ : RangeOrder) (asc : Bool) (own : OrderSide) (other : List Order)
    (sd : OrderSide) (fuel : Nat) :
    ∀ (s : MatchState) (i : Nat),
      walk ρ asc own other fuel (retag sd s) i = retag sd (walk ρ asc own other fuel s i) := by
  induction fuel with
  | zero => intro s i; rfl
  | succ fuel ih =>
    intro s i
    by_cases hc : i < s.prices.length ∧ s.taker.Filled < s.taker.Quantity
    · have hc' : i < (retag sd s).prices.length ∧
          (retag sd s).taker.Filled < (retag sd s).taker.Quantity := hc
      by_cases hbr : before asc s.taker.Price s.prices[i]
      · rw [walk_break _ _ _ _ _ _ i hc.1 hbr, walk_break _ _ _ _ _ (retag sd s) i hc.1 hbr]
      · rw [walk_step _ _ _ _ _ _ i hc.1 hc.2 hbr,
          walk_step _ _ _ _ _ (retag sd s) i hc'.1 hc'.2 hbr]
        have hp : (retag sd s).prices = s.prices := rfl
        have ho : (retag sd s).orders = s.orders := rfl
        simp only [hp, ho, fillLevel_retag]
        have hro : ∀ t : MatchState, (retag sd t).orders = t.orders := fun _ => rfl
        rw [hro]
        split
        · exact ih { fillLevel ρ own other (levelOf ρ s.orders s.prices[i]) s with
            prices := (fillLevel ρ own other (levelOf ρ s.orders
              s.prices[i]) s).prices.erase s.prices[i] } i
        · exact ih _ (i + 1)
    · have hc' : ¬ (i < (retag sd s).prices.length ∧
          (retag sd s).taker.Filled < (retag sd s).taker.Quantity) := hc
      rw [walk_exit _ _ _ _ _ _ _ hc, walk_exit _ _ _ _ _ _ _ hc']

theorem askWalk_asSell (ρ : RangeOrder) (ob : Orderbook) (newID : UUID)
    (d : CreateOrderData) :
    askWalk ρ ob (newOrder newID (asSell d)) = retag Sell (askWalk ρ ob (newOrder newID d)) :=
  walk_retag ρ false Buy ob.asks Sell _ ⟨ob.bids, ob.bidPrices, newOrder newID d, []⟩ 0

theorem map_sellTag_fresh (l : List Order) (id : UUID) (h : ∀ x ∈ l, x.ID ≠ id) :
    l.map (sellTag id) = l := by
  conv_rhs => rw [← List.map_id l]
  apply List.map_congr_left
  intro x hx
  simp [sellTag, h x hx]

/-- C9, counterexample. An order with side `"hold"` is not rejected: on the
book holding a Buy `(99, 5)` it trades with that bid, and on the new book it is
put on the ask side. -/
theorem malformed_side_counterexample :
    ("hold" : OrderSide) ≠ Buy ∧ ("hold" : OrderSide) ≠ Sell ∧
    (AddOrder RangeOrder.inserted 3 bookBidAsk (mkData 3 99 1 "hold")).2 = [⟨1, 99, 2, 2⟩] ∧
    AddOrder RangeOrder.inserted 1 (NewOrderbook "SOL_USDC") (mkData 1 100 2 "hold") =
      ({ market := "SOL_USDC", bids := [], asks := [⟨1, 1, "hold", 100, 2, 0⟩],
         bidPrices := [], askPrices := [100] }, []) := by
  refine ⟨by decide, by decide, by decide, by decide⟩

/-- C9, amended. On a reachable book an order whose side is not `Buy`, in
particular one whose side is neither `Buy` nor `Sell`, is handled as a Sell: it
returns the fills the same order with side `Sell` returns and leaves the same
bids and the same price lists, and the same asks up to the side string carried
by the order it rests. -/
theorem malformed_side_as_sell (ob : Orderbook) (hR : Reachable ob) (ρ : RangeOrder)
    (newID : UUID) (d : CreateOrderData) (hf : Fresh newID ob) (hs : d.Side ≠ Buy) :
    (AddOrder ρ newID ob d).2 = (AddOrder ρ newID ob (asSell d)).2 ∧
    (AddOrder ρ newID ob d).1.bids = (AddOrder ρ newID ob (asSell d)).1.bids ∧
    (AddOrder ρ newID ob d).1.bidPrices = (AddOrder ρ newID ob (asSell d)).1.bidPrices ∧
    (AddOrder ρ newID ob d).1.askPrices = (AddOrder ρ newID ob (asSell d)).1.askPrices ∧
    (AddOrder ρ newID ob d).1.asks.map (sellTag newID) =
      (AddOrder ρ newID ob (asSell d)).1.asks := by
  have hw : WeakInv ob := weakInv_of_reachableBy _ ob hR
  have hfa := map_sellTag_fresh ob.asks newID (fresh_asks newID ob hf)
  by_cases hq : d.Quantity ≤ 0
  · have hq2 : (asSell d).Quantity ≤ 0 := hq
    rw [AddOrder_nothing ρ newID ob d hq, AddOrder_nothing ρ newID ob (asSell d) hq2]
    exact ⟨rfl, rfl, rfl, rfl, hfa⟩
  · have hq' : 0 < d.Quantity := not_le.1 hq
    have hs2 : (asSell d).Side ≠ Buy := buy_ne_sell.symm
    obtain ⟨a1, a2, a3, a4, a5, _⟩ := AddOrder_sell_shape ρ newID ob d hw hf hq' hs
    obtain ⟨b1, b2, b3, b4, b5, _⟩ := AddOrder_sell_shape ρ newID ob (asSell d) hw hf hq' hs2
    have hfills : (AddOrder ρ newID ob d).2 = (AddOrder ρ newID ob (asSell d)).2 := by
      rw [a1, b1, askWalk_asSell]; rfl
    have hqty : (asSell d).Quantity = d.Quantity := rfl
    have hpr : (asSell d).Price = d.Price := rfl
    refine ⟨hfills, ?_, ?_, ?_, ?_⟩
    · rw [a2, b2, askWalk_asSell]; rfl
    · rw [a3, b3, askWalk_asSell]; rfl
    · rw [a5, b5, hfills, hqty, hpr]
    · rw [a4, b4, hfills, hqty]
      split
      · rw [List.map_append, hfa]
        simp [sellTag, restingOrder, newOrder, asSell]
      · exact hfa

/-- C9 amended, at an order with side `"hold"` sent to the book holding a Sell
`(100, 2)` and a Buy `(99, 5)`. -/
theorem malformed_side_as_sell_witness :
    (AddOrder RangeOrder.inserted 3 bookBidAsk (mkData 3 99 1 "hold")).2 =
      (AddOrder RangeOrder.inserted 3 bookBidAsk (asSell (mkData 3 99 1 "hold"))).2 ∧
    (AddOrder RangeOrder.inserted 3 bookBidAsk (mkData 3 99 1 "hold")).2 = [⟨1, 99, 2, 2⟩] :=
  ⟨(malformed_side_as_sell bookBidAsk
      (ReachableBy.addOrder _ 2 _ _ (reachable_bookOneAsk _ trivial)
        (by unfold Fresh; decide) trivial)
      RangeOrder.inserted 3 (mkData 3 99 1 "hold") (by unfold Fresh; decide) (by decide)).1,
    by decide⟩

/-! ## The fuel of the walk is enough -/

theorem fillLevel_prices_sublist (ρ : RangeOrder) (own : OrderSide) (other : List Order)
    (snap : List Order) :
    ∀ s : MatchState, (fillLevel ρ own other snap s).prices.Sublist s.prices := by
  induction snap with
  | nil => intro s; exact List.Sublist.refl _
  | cons m rest ih =>
    intro s
    unfold fillLevel
    split
    · exact List.Sublist.refl _
    · exact (ih _).trans (fillOne_prices_sublist ρ own other s m)

theorem erase_length_lt (l l1 : List Decimal) (p : Decimal) (hsub : l1.Sublist l)
    (hp : p ∈ l) : (l1.erase p).length < l.length := by
  by_cases h : p ∈ l1
  · rw [List.length_erase_of_mem h]
    have := hsub.length_le
    have : 0 < l1.length := List.length_pos_of_mem h
    omega
  · rw [List.erase_of_not_mem h]
    have hle := hsub.length_le
    have hne : l1.length ≠ l.length := by
      intro heq
      rw [hsub.eq_of_length heq] at h
      exact h hp
    omega

/-- Every pass of the outer loop drops a price from the list or advances the
index, so the walk from index `i` gives the same result with any fuel above
the number of prices left: the fuel never runs out. -/
theorem walk_fuel (ρ : RangeOrder) (asc : Bool) (own : OrderSide) (other : List Order)
    (fuel₁ : Nat) :
    ∀ (fuel₂ : Nat) (s : MatchState) (i : Nat),
      s.prices.length - i < fuel₁ → s.prices.length - i < fuel₂ →
      walk ρ asc own other fuel₁ s i = walk ρ asc own other fuel₂ s i := by
  induction fuel₁ with
  | zero => intro _ _ _ h; exact absurd h (Nat.not_lt_zero _)
  | succ fuel₁ ih =>
    intro fuel₂ s i h1 h2
    cases fuel₂ with
    | zero => exact absurd h2 (Nat.not_lt_zero _)
    | succ fuel₂ =>
      by_cases hc : i < s.prices.length ∧ s.taker.Filled < s.taker.Quantity
      · by_cases hbr : before asc s.taker.Price s.prices[i]
        · rw [walk_break _ _ _ _ _ _ i hc.1 hbr, walk_break _ _ _ _ _ _ i hc.1 hbr]
        · rw [walk_step _ _ _ _ _ _ i hc.1 hc.2 hbr, walk_step _ _ _ _ _ _ i hc.1 hc.2 hbr]
          have hsub := fillLevel_prices_sublist ρ own other (levelOf ρ s.orders s.prices[i]) s
          have hle := hsub.length_le
          have hi := hc.1
          split
          · have hlt := erase_length_lt s.prices _ s.prices[i] hsub (List.getElem_mem _)
            exact ih fuel₂
              { fillLevel ρ own other (levelOf ρ s.orders s.prices[i]) s with
                prices := (fillLevel ρ own other (levelOf ρ s.orders
                  s.prices[i]) s).prices.erase s.prices[i] } i
              (by show ((fillLevel ρ own other (levelOf ρ s.orders
                    s.prices[i]) s).prices.erase s.prices[i]).length - i < fuel₁
                  omega)
              (by show ((fillLevel ρ own other (levelOf ρ s.orders
                    s.prices[i]) s).prices.erase s.prices[i]).length - i < fuel₂
                  omega)
          · exact ih fuel₂ _ (i + 1) (by omega) (by omega)
      · rw [walk_exit _ _ _ _ _ _ _ hc, walk_exit _ _ _ _ _ _ _ hc]

/-- On a reachable book `matchBid` and `matchAsk` do not depend on their fuel:
any fuel above the number of price levels of the walked side gives their
result. -/
theorem match_fuel (ob : Orderbook) (hR : Reachable ob) (ρ : RangeOrder) (order : Order)
    (fuel : Nat) :
    (ob.askPrices.length < fuel → matchBidLoop ρ fuel ob order [] 0 = matchBid ρ ob order) ∧
    (ob.bidPrices.length < fuel → matchAskLoop ρ fuel ob order [] 0 = matchAsk ρ ob order) := by
  have hw : WeakInv ob := weakInv_of_reachableBy _ ob hR
  constructor
  · intro h
    unfold matchBid
    rw [matchBidLoop_eq ρ fuel ob order [] 0 hw.2.2.2,
      matchBidLoop_eq ρ _ ob order [] 0 hw.2.2.2,
      walk_fuel ρ true Sell ob.bids fuel (ob.askPrices.length + 1)
        ⟨ob.asks, ob.askPrices, order, []⟩ 0 (by simpa using h) (by simp)]
  · intro h
    unfold matchAsk
    rw [matchAskLoop_eq ρ fuel ob order [] 0 hw.2.2.1,
      matchAskLoop_eq ρ _ ob order [] 0 hw.2.2.1,
      walk_fuel ρ false Buy ob.asks fuel (ob.bidPrices.length + 1)
        ⟨ob.bids, ob.bidPrices, order, []⟩ 0 (by simpa using h) (by simp)]

/-! ## Cancel -/

/-- C11, counterexample. The engine has no case for `CANCEL_ORDER`: a cancel
command for the resting Buy `(100, 10)` leaves it on the book, and the Sell
`(100, 10)` that follows trades with it instead of resting. -/
theorem cancel_counterexample :
    bookOneBid.bids = [⟨1, 1, Buy, 100, 10, 0⟩] ∧
    processCommand RangeOrder.inserted 2 bookOneBid
        ⟨"CANCEL_ORDER", ⟨1, "SOL_USDC", 0, 0, ""⟩⟩ = (bookOneBid, []) ∧
    processCommand RangeOrder.inserted 3
        (processCommand RangeOrder.inserted 2 bookOneBid
          ⟨"CANCEL_ORDER", ⟨1, "SOL_USDC", 0, 0, ""⟩⟩).1
        ⟨"CREATE_ORDER", mkData 2 100 10 Sell⟩ =
      ({ market := "SOL_USDC", bids := [], asks := [], bidPrices := [], askPrices := [] },
        [⟨10, 100, 1, 1⟩]) := by
  refine ⟨by decide, by decide, by decide⟩

/-- C11, amended. A command whose type is not `CREATE_ORDER`, in particular a
`CANCEL_ORDER` command, is dropped: it produces nothing and leaves the book
identical, the first time and every time after. -/
theorem cancel_dropped (ρ : RangeOrder) (newID : UUID) (ob : Orderbook)
    (apiMsg : APIMessage) (h : apiMsg.Kind ≠ "CREATE_ORDER") :
    processCommand ρ newID ob apiMsg = (ob, []) ∧
    processCommand ρ newID (processCommand ρ newID ob apiMsg).1 apiMsg = (ob, []) := by
  have h1 : processCommand ρ newID ob apiMsg = (ob, []) := by
    unfold processCommand
    rw [if_neg h]
  exact ⟨h1, by rw [h1]; exact h1⟩

/-- C11 amended, at a `CANCEL_ORDER` command for the resting Buy `(100, 10)`. -/
theorem cancel_dropped_witness :
    processCommand RangeOrder.inserted 2 bookOneBid
        ⟨"CANCEL_ORDER", ⟨1, "SOL_USDC", 0, 0, ""⟩⟩ = (bookOneBid, []) ∧
    processCommand RangeOrder.inserted 2
        (processCommand RangeOrder.inserted 2 bookOneBid
          ⟨"CANCEL_ORDER", ⟨1, "SOL_USDC", 0, 0, ""⟩⟩).1
        ⟨"CANCEL_ORDER", ⟨1, "SOL_USDC", 0, 0, ""⟩⟩ = (bookOneBid, []) :=
  cancel_dropped RangeOrder.inserted 2 bookOneBid ⟨"CANCEL_ORDER", ⟨1, "SOL_USDC", 0, 0, ""⟩⟩
    (by decide)

/-! ## Price levels -/

/-- C14, the code at the failing input.  Two orders with side string `"hold"`
rest at 100 on the ask side.  A Buy `(100, 2)` fills one of them; `remove`
looks for the level of that order among the bids, finds none, and drops 100
from `askPrices` although the other order still rests at 100, whichever of the
two the range visits first.  A further Buy `(100, 2)` then finds no ask level
and rests at 100, crossing the book. -/
theorem price_levels_failing_input :
    bookTwoHold.asks = [⟨1, 1, "hold", 100, 2, 0⟩, ⟨2, 2, "hold", 100, 2, 0⟩] ∧
    bookTwoHold.askPrices = [100] ∧
    (AddOrder RangeOrder.inserted 3 bookTwoHold (mkData 3 100 2 Buy)).1.asks =
      [⟨2, 2, "hold", 100, 2, 0⟩] ∧
    (AddOrder RangeOrder.inserted 3 bookTwoHold (mkData 3 100 2 Buy)).1.askPrices = [] ∧
    (AddOrder RangeOrder.latestFirst 3 bookTwoHold (mkData 3 100 2 Buy)).1.asks =
      [⟨1, 1, "hold", 100, 2, 0⟩] ∧
    (AddOrder RangeOrder.latestFirst 3 bookTwoHold (mkData 3 100 2 Buy)).1.askPrices = [] ∧
    AddOrder RangeOrder.inserted 4
        (AddOrder RangeOrder.inserted 3 bookTwoHold (mkData 3 100 2 Buy)).1
        (mkData 4 100 2 Buy) =
      ({ market := "SOL_USDC", bids := [⟨4, 4, Buy, 100, 2, 0⟩],
         asks := [⟨2, 2, "hold", 100, 2, 0⟩], bidPrices := [100], askPrices := [] }, []) := by
  refine ⟨by decide, by decide, by decide, by decide, by decide, by decide, by decide⟩

theorem reachable_bookTwoHold : Reachable bookTwoHold :=
  ReachableBy.addOrder _ 2 _ _
    (ReachableBy.addOrder _ 1 _ _ (ReachableBy.new _) (by unfold Fresh; decide) trivial)
    (by unfold Fresh; decide) trivial

/-- On books reached by Buy and Sell orders the price lists are consistent:
`bidPrices` is strictly descending, `askPrices` strictly ascending, and each
lists exactly the prices at which an order rests on its side. -/
theorem price_levels_buy_sell (ob : Orderbook) (h : ReachableBuySell ob) :
    ob.bidPrices.Pairwise (fun a b => a > b) ∧
    (∀ p, p ∈ ob.bidPrices ↔ ∃ o ∈ ob.bids, o.Price = p) ∧
    ob.askPrices.Pairwise (fun a b => a < b) ∧
    (∀ p, p ∈ ob.askPrices ↔ ∃ o ∈ ob.asks, o.Price = p) := by
  obtain ⟨hb, ha, _⟩ := strongInv_of_reachable ob h
  refine ⟨hb.2.2.1.imp (fun {a b} hab => ?_), hb.2.2.2, ha.2.2.1.imp (fun {a b} hab => ?_),
    ha.2.2.2⟩
  · simpa [before] using hab
  · simpa [before] using hab

/-! ## Termination of matching, on every book -/

theorem removePrice_sublist (ob : Orderbook) (side : OrderSide) (price : Decimal) :
    (removePrice ob side price).askPrices.Sublist ob.askPrices ∧
    (removePrice ob side price).bidPrices.Sublist ob.bidPrices := by
  unfold removePrice
  by_cases h : side = Buy
  · rw [if_pos h]
    exact ⟨List.Sublist.refl _, List.erase_sublist _ _⟩
  · rw [if_neg h]
    exact ⟨List.erase_sublist _ _, List.Sublist.refl _⟩

theorem remove_sublist (ρ : RangeOrder) (ob : Orderbook) (o : Order) :
    (remove ρ ob o).askPrices.Sublist ob.askPrices ∧
    (remove ρ ob o).bidPrices.Sublist ob.bidPrices := by
  have key : ∀ ob1 : Orderbook, ob1.askPrices = ob.askPrices → ob1.bidPrices = ob.bidPrices →
      ((if (getOrdersByPrice ρ ob1 o.Side o.Price).length = 0 then
          removePrice ob1 o.Side o.Price else ob1).askPrices.Sublist ob.askPrices ∧
       (if (getOrdersByPrice ρ ob1 o.Side o.Price).length = 0 then
          removePrice ob1 o.Side o.Price else ob1).bidPrices.Sublist ob.bidPrices) := by
    intro ob1 ha hb
    by_cases hl : (getOrdersByPrice ρ ob1 o.Side o.Price).length = 0
    · rw [if_pos hl, ← ha, ← hb]
      exact removePrice_sublist ob1 o.Side o.Price
    · rw [if_neg hl, ha, hb]
      exact ⟨List.Sublist.refl _, List.Sublist.refl _⟩
  unfold remove
  by_cases hs : o.Side = Buy
  · simp only [hs, if_true]
    have := key { ob with bids := mapDelete ob.bids o.ID } rfl rfl
    rw [hs] at this
    exact this
  · simp only [hs, if_false]
    exact key { ob with asks := mapDelete ob.asks o.ID } rfl rfl

/-- The inner loop of `matchBid` only drops prices from the price lists. -/
theorem matchBidOrders_sublist (ρ : RangeOrder) (snap : List Order) :
    ∀ (ob : Orderbook) (order : Order) (fills : List Fill),
      (matchBidOrders ρ snap ob order fills).1.askPrices.Sublist ob.askPrices := by
  induction snap with
  | nil => intro ob order fills; exact List.Sublist.refl _
  | cons m rest ih =>
    intro ob order fills
    unfold matchBidOrders
    by_cases hfull : order.Filled = order.Quantity
    · rw [if_pos hfull]
    · rw [if_neg hfull]
      refine (ih _ _ _).trans ?_
      split
      · exact (remove_sublist ρ _ _).1
      · exact List.Sublist.refl _

/-- The inner loop of `matchAsk` only drops prices from the price lists. -/
theorem matchAskOrders_sublist (ρ : RangeOrder) (snap : List Order) :
    ∀ (ob : Orderbook) (order : Order) (fills : List Fill),
      (matchAskOrders ρ snap ob order fills).1.bidPrices.Sublist ob.bidPrices := by
  induction snap with
  | nil => intro ob order fills; exact List.Sublist.refl _
  | cons m rest ih =>
    intro ob order fills
    unfold matchAskOrders
    by_cases hfull : order.Filled = order.Quantity
    · rw [if_pos hfull]
    · rw [if_neg hfull]
      refine (ih _ _ _).trans ?_
      split
      · exact (remove_sublist ρ _ _).2
      · exact List.Sublist.refl _

/-- A pass of the outer loop of `matchBid` that finds the level empty drops a
price from `askPrices`. -/
theorem matchBid_pass_drops (ρ : RangeOrder) (ob : Orderbook) (order : Order)
    (fills : List Fill) (i : Nat) (hi : i < ob.askPrices.length) :
    (removePrice (matchBidOrders ρ (getOrdersByPrice ρ ob Sell ob.askPrices[i]) ob order
      fills).1 Sell ob.askPrices[i]).askPrices.length < ob.askPrices.length := by
  have hsub := matchBidOrders_sublist ρ (getOrdersByPrice ρ ob Sell ob.askPrices[i]) ob order
    fills
  have : (removePrice (matchBidOrders ρ (getOrdersByPrice ρ ob Sell ob.askPrices[i]) ob order
      fills).1 Sell ob.askPrices[i]).askPrices =
      (matchBidOrders ρ (getOrdersByPrice ρ ob Sell ob.askPrices[i]) ob order
        fills).1.askPrices.erase ob.askPrices[i] := by
    simp [removePrice, buy_ne_sell.symm]
  rw [this]
  exact erase_length_lt _ _ _ hsub (List.getElem_mem _)

/-- A pass of the outer loop of `matchAsk` that finds the level empty drops a
price from `bidPrices`. -/
theorem matchAsk_pass_drops (ρ : RangeOrder) (ob : Orderbook) (order : Order)
    (fills : List Fill) (i : Nat) (hi : i < ob.bidPrices.length) :
    (removePrice (matchAskOrders ρ (getOrdersByPrice ρ ob Buy ob.bidPrices[i]) ob order
      fills).1 Buy ob.bidPrices[i]).bidPrices.length < ob.bidPrices.length := by
  have hsub := matchAskOrders_sublist ρ (getOrdersByPrice ρ ob Buy ob.bidPrices[i]) ob order
    fills
  have : (removePrice (matchAskOrders ρ (getOrdersByPrice ρ ob Buy ob.bidPrices[i]) ob order
      fills).1 Buy ob.bidPrices[i]).bidPrices =
      (matchAskOrders ρ (getOrdersByPrice ρ ob Buy ob.bidPrices[i]) ob order
        fills).1.bidPrices.erase ob.bidPrices[i] := by
    simp [removePrice]
  rw [this]
  exact erase_length_lt _ _ _ hsub (List.getElem_mem _)

/-- With fuel above the number of ask prices from index `i` on, the outer loop
of `matchBid` ends, after at most that many passes, in the result of
`matchBidLoop`. -/
theorem matchBidRun_returns (ρ : RangeOrder) (fuel : Nat) :
    ∀ (ob : Orderbook) (order : Order) (fills : List Fill) (i : Nat),
      ob.askPrices.length - i < fuel →
      ∃ k, k ≤ ob.askPrices.length - i ∧
        matchBidRun ρ fuel ob order fills i = some (matchBidLoop ρ fuel ob order fills i, k) := by
  induction fuel with
  | zero => intro _ _ _ _ h; exact absurd h (Nat.not_lt_zero _)
  | succ fuel ih =>
    intro ob order fills i hfuel
    unfold matchBidRun matchBidLoop
    by_cases hc : i < ob.askPrices.length ∧ order.Filled < order.Quantity
    · rw [dif_pos hc, dif_pos hc]
      have hi := hc.1
      by_cases hb : order.Price < ob.askPrices[i]
      · simp only [hb, if_true]
        exact ⟨1, by omega, rfl⟩
      · simp only [hb, if_false]
        have hsub := (matchBidOrders_sublist ρ (getOrdersByPrice ρ ob Sell ob.askPrices[i]) ob
          order fills).length_le
        have hdrop := matchBid_pass_drops ρ ob order fills i hi
        split
        · obtain ⟨k, hk, hrun⟩ := ih
            (removePrice (matchBidOrders ρ (getOrdersByPrice ρ ob Sell ob.askPrices[i]) ob order
              fills).1 Sell ob.askPrices[i])
            (matchBidOrders ρ (getOrdersByPrice ρ ob Sell ob.askPrices[i]) ob order fills).2.1
            (matchBidOrders ρ (getOrdersByPrice ρ ob Sell ob.askPrices[i]) ob order fills).2.2
            i (by omega)
          rw [hrun]
          exact ⟨k + 1, by omega, rfl⟩
        · obtain ⟨k, hk, hrun⟩ := ih
            (matchBidOrders ρ (getOrdersByPrice ρ ob Sell ob.askPrices[i]) ob order fills).1
            (matchBidOrders ρ (getOrdersByPrice ρ ob Sell ob.askPrices[i]) ob order fills).2.1
            (matchBidOrders ρ (getOrdersByPrice ρ ob Sell ob.askPrices[i]) ob order fills).2.2
            (i + 1) (by omega)
          rw [hrun]
          exact ⟨k + 1, by omega, rfl⟩
    · rw [dif_neg hc, dif_neg hc]
      exact ⟨0, Nat.zero_le _, rfl⟩

/-- With fuel above the number of bid prices from index `i` on, the outer loop
of `matchAsk` ends, after at most that many passes, in the result of
`matchAskLoop`. -/
theorem matchAskRun_returns (ρ : RangeOrder) (fuel : Nat) :
    ∀ (ob : Orderbook) (order : Order) (fills : List Fill) (i : Nat),
      ob.bidPrices.length - i < fuel →
      ∃ k, k ≤ ob.bidPrices.length - i ∧
        matchAskRun ρ fuel ob order fills i = some (matchAskLoop ρ fuel ob order fills i, k) := by
  induction fuel with
  | zero => intro _ _ _ _ h; exact absurd h (Nat.not_lt_zero _)
  | succ fuel ih =>
    intro ob order fills i hfuel
    unfold matchAskRun matchAskLoop
    by_cases hc : i < ob.bidPrices.length ∧ order.Filled < order.Quantity
    · rw [dif_pos hc, dif_pos hc]
      have hi := hc.1
      by_cases hb : order.Price > ob.bidPrices[i]
      · simp only [hb, if_true]
        exact ⟨1, by omega, rfl⟩
      · simp only [hb, if_false]
        have hsub := (matchAskOrders_sublist ρ (getOrdersByPrice ρ ob Buy ob.bidPrices[i]) ob
          order fills).length_le
        have hdrop := matchAsk_pass_drops ρ ob order fills i hi
        split
        · obtain ⟨k, hk, hrun⟩ := ih
            (removePrice (matchAskOrders ρ (getOrdersByPrice ρ ob Buy ob.bidPrices[i]) ob order
              fills).1 Buy ob.bidPrices[i])
            (matchAskOrders ρ (getOrdersByPrice ρ ob Buy ob.bidPrices[i]) ob order fills).2.1
            (matchAskOrders ρ (getOrdersByPrice ρ ob Buy ob.bidPrices[i]) ob order fills).2.2
            i (by omega)
          rw [hrun]
          exact ⟨k + 1, by omega, rfl⟩
        · obtain ⟨k, hk, hrun⟩ := ih
            (matchAskOrders ρ (getOrdersByPrice ρ ob Buy ob.bidPrices[i]) ob order fills).1
            (matchAskOrders ρ (getOrdersByPrice ρ ob Buy ob.bidPrices[i]) ob order fills).2.1
            (matchAskOrders ρ (getOrdersByPrice ρ ob Buy ob.bidPrices[i]) ob order fills).2.2
            (i + 1) (by omega)
          rw [hrun]
          exact ⟨k + 1, by omega, rfl⟩
    · rw [dif_neg hc, dif_neg hc]
      exact ⟨0, Nat.zero_le _, rfl⟩

/-- C15. Termination of matching: for every book, every range order and every
incoming order, the outer loops of `matchBid` and `matchAsk` end without
running out of fuel, after a number of passes that is at most the number of
price levels of the walked side before the call, in the results `matchBid` and
`matchAsk` give; hence `AddOrder` returns for every input. -/
theorem matching_terminates (ρ : RangeOrder) (ob : Orderbook) (order : Order) (newID : UUID)
    (orderData : CreateOrderData) :
    (∃ k, k ≤ ob.askPrices.length ∧
      matchBidRun ρ (ob.askPrices.length + 1) ob order [] 0 = some (matchBid ρ ob order, k)) ∧
    (∃ k, k ≤ ob.bidPrices.length ∧
      matchAskRun ρ (ob.bidPrices.length + 1) ob order [] 0 = some (matchAsk ρ ob order, k)) ∧
    AddOrderRun ρ newID ob orderData = some (AddOrder ρ newID ob orderData) := by
  refine ⟨?_, ?_, ?_⟩
  · exact matchBidRun_returns ρ _ ob order [] 0 (by omega)
  · exact matchAskRun_returns ρ _ ob order [] 0 (by omega)
  · unfold AddOrderRun AddOrder
    by_cases hs : (newOrder newID orderData).Side = Buy
    · obtain ⟨k, _, hk⟩ := matchBidRun_returns ρ (ob.askPrices.length + 1) ob
        (newOrder newID orderData) [] 0 (by omega)
      simp only [hs, if_true, hk, Option.map_some']
      rfl
    · obtain ⟨k, _, hk⟩ := matchAskRun_returns ρ (ob.bidPrices.length + 1) ob
        (newOrder newID orderData) [] 0 (by omega)
      simp only [hs, if_false, hk, Option.map_some']
      rfl

/-! ## The size of each fill -/

theorem got_zero (fills : List Fill) (id : UUID) (h : ∀ f ∈ fills, f.MarketOrderID ≠ id) :
    got fills id = 0 := by
  unfold got
  have : fills.filter (fun f => f.MarketOrderID = id) = [] := by
    rw [List.filter_eq_nil_iff]
    intro f hf
    simpa using h f hf
  rw [this]; rfl

theorem split_concat (pre post l : List Fill) (f g : Fill) (h : pre ++ f :: post = l ++ [g]) :
    (post = [] ∧ pre = l ∧ f = g) ∨ ∃ post', post = post' ++ [g] ∧ l = pre ++ f :: post' := by
  rcases List.eq_nil_or_concat post with hp | ⟨post', b, hp⟩
  · left
    subst hp
    have := List.append_inj' h rfl
    exact ⟨rfl, this.1, by simpa using this.2⟩
  · right
    subst hp
    have h' : (pre ++ f :: post') ++ [b] = l ++ [g] := by
      rw [← h]; simp
    have := List.append_inj' h' rfl
    have hb : b = g := by simpa using this.2
    refine ⟨post', by rw [hb]; simp, this.1.symm⟩

/-- One fill keeps the fills sized and their makers distinct. -/
theorem sized_fillOne (ρ : RangeOrder) (asc : Bool) (own : OrderSide) (other : List Order)
    (s0 s : MatchState) (m : Order) (hb : Base s) (hq : s.taker.Filled < s.taker.Quantity)
    (hm : m ∈ s.orders) (h0 : s0.fills = []) (hf0 : s0.taker.Filled = 0)
    (hT : Track asc s0 s) (hA : Acc s0.orders s) (hE : EarlierGone s)
    (hN : (s.fills.map (fun f => f.MarketOrderID)).Nodup)
    (hS : Sized s0.taker.Quantity s0.orders s.fills) :
    ((fillOne ρ own other s m).fills.map (fun f => f.MarketOrderID)).Nodup ∧
    Sized s0.taker.Quantity s0.orders (fillOne ρ own other s m).fills := by
  have hall := hE.2 hq
  have hnm : ∀ f ∈ s.fills, f.MarketOrderID ≠ m.ID := fun f hf h => hall f hf m hm h.symm
  obtain ⟨y, hy, hym, _⟩ := hT.2.2.1 m hm
  have hmfil : m.Filled = y.Filled := by
    rcases hA y hy with ⟨x, hx, hsame, hfil⟩ | ⟨hgone, _⟩
    · have hxm : x = m := nodupIDs_eq _ hb.1.1 x m hx hm (hsame.1.symm.trans hym.1)
      rw [hxm] at hfil
      rw [hfil, got_zero s.fills y.ID (by rw [hym.1]; exact hnm)]
      ring
    · exact absurd hym.1.symm (hgone m hm)
  have htf : s.taker.Filled = sumQty s.fills := by
    have h := hT.2.1
    have h1 : sumQty s0.fills = 0 := by rw [h0]; rfl
    rw [h1, hf0] at h
    linarith
  have hqty : fillQty s.taker m =
      min (s0.taker.Quantity - sumQty s.fills) (y.Quantity - y.Filled) := by
    unfold fillQty
    rw [← hT.1.2.2.2.2, htf, ← hym.2.2.2.2, hmfil]
  constructor
  · rw [fillOne_fills, List.map_append, List.nodup_append]
    refine ⟨hN, by simp, ?_⟩
    intro a ha hb'
    simp only [List.map_cons, List.map_nil, List.mem_singleton] at hb'
    obtain ⟨f, hf, rfl⟩ := List.mem_map.1 ha
    exact hnm f hf hb'
  · intro pre f post heq
    rw [fillOne_fills] at heq
    rcases split_concat pre post s.fills f _ heq.symm with ⟨_, hpre, hfg⟩ | ⟨post', _, hl⟩
    · refine ⟨y, hy, ?_, ?_⟩
      · rw [hfg]; exact hym.1.symm
      · rw [hfg, hpre]; exact hqty
    · exact hS pre f post' hl

/-- The fills of a walk started by `AddOrder` name pairwise distinct makers, and
each is positive and of the size `Sized` states. -/
theorem walk_sized (ρ : RangeOrder) (asc : Bool) (own : OrderSide)
    (other orders : List Order) (prices : List Decimal) (fuel : Nat) (newID : UUID)
    (d : CreateOrderData) (hl : LiveMap orders) (hq : 0 < d.Quantity) :
    ((walk ρ asc own other fuel ⟨orders, prices, newOrder newID d, []⟩ 0).fills.map
      (fun f => f.MarketOrderID)).Nodup ∧
    Sized d.Quantity orders
      (walk ρ asc own other fuel ⟨orders, prices, newOrder newID d, []⟩ 0).fills ∧
    ∀ f ∈ (walk ρ asc own other fuel ⟨orders, prices, newOrder newID d, []⟩ 0).fills,
      0 < f.Qty := by
  obtain ⟨_, hT, _, _, hN, hS⟩ := walk_inv ρ asc own other
    (fun s : MatchState => Track asc ⟨orders, prices, newOrder newID d, []⟩ s ∧ Acc orders s ∧
      EarlierGone s ∧ (s.fills.map (fun f : Fill => f.MarketOrderID)).Nodup ∧
      Sized d.Quantity orders s.fills)
    (fun s m hb hlt hm hacc hI =>
      ⟨track_fillOne ρ asc own other _ s m hb hlt hm hacc hI.1,
        acc_fillOne ρ own other orders s m hb hm hI.2.1,
        earlierGone_fillOne ρ own other s m hlt hm hI.2.2.1,
        sized_fillOne ρ asc own other ⟨orders, prices, newOrder newID d, []⟩ s m hb hlt hm
          rfl rfl hI.1 hI.2.1 hI.2.2.1 hI.2.2.2.1 hI.2.2.2.2⟩)
    (fun s p hI => hI) fuel ⟨orders, prices, newOrder newID d, []⟩ 0
    (base_start _ _ _ _ hl hq)
    ⟨track_refl _ _, acc_refl _ _ _,
      ⟨fun f hf => absurd hf (List.not_mem_nil f), fun _ f hf => absurd hf (List.not_mem_nil f)⟩,
      List.nodup_nil, fun pre f post h => absurd h (by simp)⟩
  exact ⟨hN, hS, fun f hf => (walk_fills_eq asc _ _ rfl hT f hf).1⟩

/-- C12. Fill size: in the fills returned by one `AddOrder` call with quantity
`Q` on a reachable book, no resting order is named as maker by two fills, and
each fill has a strictly positive `Qty`, equal to the smaller of `Q` less the
`Qty` of the earlier fills of the call and the maker's `Quantity - Filled`
before the call; the maker is an ask for a Buy and a bid otherwise. -/
theorem fill_size (ob : Orderbook) (hR : Reachable ob) (ρ : RangeOrder) (newID : UUID)
    (d : CreateOrderData) :
    ((AddOrder ρ newID ob d).2.map (fun f => f.MarketOrderID)).Nodup ∧
    ∀ pre f post, (AddOrder ρ newID ob d).2 = pre ++ f :: post →
      0 < f.Qty ∧
      (d.Side = Buy → ∃ y ∈ ob.asks, f.MarketOrderID = y.ID ∧
        f.Qty = min (d.Quantity - sumQty pre) (y.Quantity - y.Filled)) ∧
      (d.Side ≠ Buy → ∃ y ∈ ob.bids, f.MarketOrderID = y.ID ∧
        f.Qty = min (d.Quantity - sumQty pre) (y.Quantity - y.Filled)) := by
  have hw : WeakInv ob := weakInv_of_reachableBy _ ob hR
  by_cases hq : d.Quantity ≤ 0
  · rw [AddOrder_nothing_fills ρ newID ob d hq]
    exact ⟨List.nodup_nil, fun pre f post h => absurd h (by simp)⟩
  · have hq' : 0 < d.Quantity := not_le.1 hq
    by_cases hs : d.Side = Buy
    · obtain ⟨e1, _, _⟩ := AddOrder_buy_walk ρ newID ob d hw.2.2.2 hs
      obtain ⟨hN, hS, hpos⟩ := walk_sized ρ true Sell ob.bids ob.asks ob.askPrices
        (ob.askPrices.length + 1) newID d hw.2.1 hq'
      rw [e1]
      refine ⟨hN, fun pre f post heq => ⟨hpos f ?_, fun _ => hS pre f post heq,
        fun h => absurd hs h⟩⟩
      show f ∈ (bidWalk ρ ob (newOrder newID d)).fills
      rw [heq]; simp
    · obtain ⟨e1, _, _⟩ := AddOrder_sell_walk ρ newID ob d hw.2.2.1 hs
      obtain ⟨hN, hS, hpos⟩ := walk_sized ρ false Buy ob.asks ob.bids ob.bidPrices
        (ob.bidPrices.length + 1) newID d hw.1 hq'
      rw [e1]
      refine ⟨hN, fun pre f post heq => ⟨hpos f ?_, fun h => absurd h hs,
        fun _ => hS pre f post heq⟩⟩
      show f ∈ (askWalk ρ ob (newOrder newID d)).fills
      rw [heq]; simp

/-- C12 at the "walk the book" scenario: the second fill of the Buy `(101, 6)`
on Sells `(100, 3)` and `(101, 4)` is `min (6 - 3) (4 - 0) = 3`. -/
theorem fill_size_witness :
    0 < (⟨3, 101, 2, 2⟩ : Fill).Qty ∧
    ∃ y ∈ bookLadder.asks, (⟨3, 101, 2, 2⟩ : Fill).MarketOrderID = y.ID ∧
      (⟨3, 101, 2, 2⟩ : Fill).Qty =
        min ((mkData 3 101 6 Buy).Quantity - sumQty [⟨3, 100, 1, 1⟩])
          (y.Quantity - y.Filled) :=
  ⟨((fill_size bookLadder (reachable_bookLadder _ trivial trivial) RangeOrder.inserted 3
      (mkData 3 101 6 Buy)).2 [⟨3, 100, 1, 1⟩] ⟨3, 101, 2, 2⟩ [] (by decide)).1,
    ((fill_size bookLadder (reachable_bookLadder _ trivial trivial) RangeOrder.inserted 3
      (mkData 3 101 6 Buy)).2 [⟨3, 100, 1, 1⟩] ⟨3, 101, 2, 2⟩ [] (by decide)).2.1 rfl⟩

/-! ## Identifiers on a reachable book -/

theorem idsApart_AddOrder (ρ : RangeOrder) (newID : UUID) (ob : Orderbook)
    (d : CreateOrderData) (hw : WeakInv ob) (ha : IDsApart ob) (hf : Fresh newID ob) :
    IDsApart (AddOrder ρ newID ob d).1 := by
  by_cases hq : d.Quantity ≤ 0
  · rw [AddOrder_nothing ρ newID ob d hq]; exact ha
  · have hq' : 0 < d.Quantity := not_le.1 hq
    by_cases hs : d.Side = Buy
    · obtain ⟨_, e2, _, e4, _, _, _, hids⟩ := AddOrder_buy_shape ρ newID ob d hw hf hq' hs
      obtain ⟨_, hT⟩ := walk_track ρ true Sell ob.bids (ob.askPrices.length + 1)
        ⟨ob.asks, ob.askPrices, newOrder newID d, []⟩ 0 (base_start _ _ _ _ hw.2.1 hq')
      intro b hb a haa
      have haid : ∃ y ∈ ob.asks, y.ID = a.ID := by
        rw [e2] at haa
        obtain ⟨y, hy, hya, _⟩ := hT.2.2.1 a haa
        exact ⟨y, hy, hya.1⟩
      obtain ⟨y, hy, hya⟩ := haid
      rw [e4] at hb
      split at hb
      · rcases List.mem_append.1 hb with h1 | h1
        · rw [← hya]; exact ha b h1 y hy
        · rw [List.mem_singleton] at h1
          rw [h1]
          exact fun h => hids a haa h.symm
      · rw [← hya]; exact ha b hb y hy
    · obtain ⟨_, e2, _, e4, _, _, _, hids⟩ := AddOrder_sell_shape ρ newID ob d hw hf hq' hs
      obtain ⟨_, hT⟩ := walk_track ρ false Buy ob.asks (ob.bidPrices.length + 1)
        ⟨ob.bids, ob.bidPrices, newOrder newID d, []⟩ 0 (base_start _ _ _ _ hw.1 hq')
      intro b hb a haa
      have hbid : ∃ y ∈ ob.bids, y.ID = b.ID := by
        rw [e2] at hb
        obtain ⟨y, hy, hyb, _⟩ := hT.2.2.1 b hb
        exact ⟨y, hy, hyb.1⟩
      obtain ⟨y, hy, hyb⟩ := hbid
      rw [e4] at haa
      split at haa
      · rcases List.mem_append.1 haa with h1 | h1
        · rw [← hyb]; exact ha y hy a h1
        · rw [List.mem_singleton] at h1
          rw [h1]
          exact hids b hb
      · rw [← hyb]; exact ha y hy a haa

theorem idsApart_of_reachableBy (A : CreateOrderData → Prop) (ob : Orderbook)
    (h : ReachableBy A ob) : IDsApart ob := by
  induction h with
  | new market => intro b hb; exact absurd hb (List.not_mem_nil b)
  | addOrder ρ newID ob d hprev hf _ ih =>
    exact idsApart_AddOrder ρ newID ob d (weakInv_of_reachableBy A ob hprev) ih hf

/-! ## Maker accounting and frame -/

theorem accounted_congr (l₁ l₂ : List Order) (fills : List Fill) (y : Order)
    (h : ∀ x, x ∈ l₁ ↔ x ∈ l₂) (ha : Accounted l₁ fills y) : Accounted l₂ fills y := by
  obtain ⟨h1, h2⟩ := ha
  constructor
  · rcases h1 with ⟨x, hx, hr⟩ | ⟨hg, hq⟩
    · exact Or.inl ⟨x, (h x).1 hx, hr⟩
    · exact Or.inr ⟨fun x hx => hg x ((h x).2 hx), hq⟩
  · constructor
    · intro hg
      exact h2.1 (fun x hx => hg x ((h x).1 hx))
    · intro hq x hx
      exact h2.2 hq x ((h x).2 hx)

/-- The accounting of every order of a book, from the accounting `Acc` of the
walked side `opp` and the fact that the own side only gains the new order. -/
theorem accounting_core (asc : Bool) (P : Decimal) (opp own opp' own' : List Order)
    (fills : List Fill) (newID : UUID) (hlo : LiveMap opp) (hlw : ∀ y ∈ own, Unfilled y)
    (hB : ∀ x ∈ opp', Unfilled x)
    (hAcc : ∀ y ∈ opp,
      (∃ x ∈ opp', SameOrder y x ∧ x.Filled = y.Filled + got fills y.ID) ∨
      ((∀ x ∈ opp', x.ID ≠ y.ID) ∧ y.Filled + got fills y.ID = y.Quantity))
    (hnames : ∀ f ∈ fills, ∃ z ∈ opp, f.MarketOrderID = z.ID ∧ ¬ before asc P z.Price)
    (hown1 : ∀ y ∈ own, y ∈ own') (hown2 : ∀ x ∈ own', x ∈ own ∨ x.ID = newID)
    (hfo : ∀ y ∈ opp, y.ID ≠ newID) (hapart : ∀ a ∈ own, ∀ b ∈ opp, a.ID ≠ b.ID) :
    (∀ y ∈ opp, Accounted (opp' ++ own') fills y ∧ (Unnamed fills y → y ∈ opp') ∧
      (before asc P y.Price → Unnamed fills y)) ∧
    (∀ y ∈ own, Accounted (opp' ++ own') fills y ∧ y ∈ own' ∧ Unnamed fills y) := by
  constructor
  · intro y hy
    have hnotown : ∀ x ∈ own', x.ID ≠ y.ID := by
      intro x hx hid
      rcases hown2 x hx with h | h
      · exact hapart x h y hy hid
      · exact hfo y hy (hid.symm.trans h)
    have hgone_iff : (∀ x ∈ opp' ++ own', x.ID ≠ y.ID) ↔ ∀ x ∈ opp', x.ID ≠ y.ID := by
      constructor
      · intro h x hx; exact h x (List.mem_append_left _ hx)
      · intro h x hx
        rcases List.mem_append.1 hx with h1 | h1
        · exact h x h1
        · exact hnotown x h1
    refine ⟨⟨?_, ?_⟩, ?_, ?_⟩
    · rcases hAcc y hy with ⟨x, hx, hr⟩ | ⟨hg, hq⟩
      · exact Or.inl ⟨x, List.mem_append_left _ hx, hr⟩
      · exact Or.inr ⟨hgone_iff.2 hg, hq⟩
    · rw [hgone_iff]
      constructor
      · intro hg
        rcases hAcc y hy with ⟨x, hx, hr⟩ | ⟨_, hq⟩
        · exact absurd hr.1.1.symm (hg x hx)
        · exact hq
      · intro hq
        rcases hAcc y hy with ⟨x, hx, hsame, hfil⟩ | ⟨hg, _⟩
        · exfalso
          have := (hB x hx).2
          rw [hfil, hq, hsame.2.2.2.2] at this
          exact lt_irrefl _ this
        · exact hg
    · intro hun
      have h0 := got_zero fills y.ID hun
      rcases hAcc y hy with ⟨x, hx, hsame, hfil⟩ | ⟨_, hq⟩
      · rw [h0, add_zero] at hfil
        rw [order_eq_of_same y x hsame hfil.symm]; exact hx
      · exfalso
        rw [h0, add_zero] at hq
        exact ne_of_lt (hlo.2 y hy).2 hq
    · intro hbef f hf hid
      obtain ⟨z, hz, hfz, hacc⟩ := hnames f hf
      have : z = y := nodupIDs_eq _ hlo.1 z y hz hy (hfz.symm.trans hid)
      rw [this] at hacc
      exact hacc hbef
  · intro y hy
    have hun : Unnamed fills y := by
      intro f hf hid
      obtain ⟨z, hz, hfz, _⟩ := hnames f hf
      exact hapart y hy z hz (hid.symm.trans hfz)
    have h0 := got_zero fills y.ID hun
    have hmem : y ∈ opp' ++ own' := List.mem_append_right _ (hown1 y hy)
    refine ⟨⟨Or.inl ⟨y, hmem, SameOrder.refl _, by rw [h0, add_zero]⟩, ?_⟩, hown1 y hy, hun⟩
    constructor
    · intro hg
      exact absurd rfl (hg y hmem)
    · intro hq
      exfalso
      rw [h0, add_zero] at hq
      exact ne_of_lt (hlw y hy).2 hq

/-- The walk `AddOrder` starts on a live map: the accounting of the map and the
makers the fills name. -/
theorem walk_accounting (ρ : RangeOrder) (asc : Bool) (own : OrderSide)
    (other orders : List Order) (prices : List Decimal) (fuel : Nat) (newID : UUID)
    (d : CreateOrderData) (hl : LiveMap orders) (hq : 0 < d.Quantity) :
    Acc orders (walk ρ asc own other fuel ⟨orders, prices, newOrder newID d, []⟩ 0) ∧
    ∀ f ∈ (walk ρ asc own other fuel ⟨orders, prices, newOrder newID d, []⟩ 0).fills,
      ∃ z ∈ orders, f.MarketOrderID = z.ID ∧ ¬ before asc d.Price z.Price := by
  obtain ⟨_, hT, hA⟩ := walk_inv ρ asc own other
    (fun s : MatchState => Track asc ⟨orders, prices, newOrder newID d, []⟩ s ∧ Acc orders s)
    (fun s m hb hlt hm hacc hI =>
      ⟨track_fillOne ρ asc own other _ s m hb hlt hm hacc hI.1,
        acc_fillOne ρ own other orders s m hb hm hI.2⟩)
    (fun s p hI => hI) fuel ⟨orders, prices, newOrder newID d, []⟩ 0
    (base_start _ _ _ _ hl hq) ⟨track_refl _ _, acc_refl _ _ _⟩
  refine ⟨hA, fun f hf => ?_⟩
  obtain ⟨_, z, hz, hn, hacc⟩ := walk_fills_eq asc _ _ rfl hT f hf
  exact ⟨z, hz, hn.1, hacc⟩

/-- What `accounting_core` needs, for an `AddOrder` call that walks `opp` and
rests on `own`; `opp'` and `own'` are the two maps afterwards. -/
theorem AddOrder_buy_acc (ρ : RangeOrder) (newID : UUID) (ob : Orderbook)
    (d : CreateOrderData) (hw : WeakInv ob) (hf : Fresh newID ob) (hs : d.Side = Buy) :
    (∀ y ∈ ob.asks,
      (∃ x ∈ (AddOrder ρ newID ob d).1.asks,
        SameOrder y x ∧ x.Filled = y.Filled + got (AddOrder ρ newID ob d).2 y.ID) ∨
      ((∀ x ∈ (AddOrder ρ newID ob d).1.asks, x.ID ≠ y.ID) ∧
        y.Filled + got (AddOrder ρ newID ob d).2 y.ID = y.Quantity)) ∧
    (∀ f ∈ (AddOrder ρ newID ob d).2,
      ∃ z ∈ ob.asks, f.MarketOrderID = z.ID ∧ ¬ before true d.Price z.Price) ∧
    (∀ y ∈ ob.bids, y ∈ (AddOrder ρ newID ob d).1.bids) ∧
    (∀ x ∈ (AddOrder ρ newID ob d).1.bids, x ∈ ob.bids ∨ x.ID = newID) := by
  by_cases hq : d.Quantity ≤ 0
  · rw [AddOrder_nothing ρ newID ob d hq]
    refine ⟨fun y hy => Or.inl ⟨y, hy, SameOrder.refl _, ?_⟩,
      fun f hf' => absurd hf' (List.not_mem_nil f), fun y hy => hy, fun x hx => Or.inl hx⟩
    show y.Filled = y.Filled + got [] y.ID
    rw [got_zero [] y.ID (fun f hf' => absurd hf' (List.not_mem_nil f)), add_zero]
  · have hq' : 0 < d.Quantity := not_le.1 hq
    obtain ⟨e1, e2, _, e4, _⟩ := AddOrder_buy_shape ρ newID ob d hw hf hq' hs
    obtain ⟨hA, hn⟩ := walk_accounting ρ true Sell ob.bids ob.asks ob.askPrices
      (ob.askPrices.length + 1) newID d hw.2.1 hq'
    refine ⟨?_, ?_, ?_, ?_⟩
    · rw [e1, e2]; exact hA
    · rw [e1]; exact hn
    · intro y hy
      rw [e4]
      split
      · exact List.mem_append_left _ hy
      · exact hy
    · intro x hx
      rw [e4] at hx
      split at hx
      · rcases List.mem_append.1 hx with h | h
        · exact Or.inl h
        · rw [List.mem_singleton] at h; rw [h]; exact Or.inr rfl
      · exact Or.inl hx

theorem AddOrder_sell_acc (ρ : RangeOrder) (newID : UUID) (ob : Orderbook)
    (d : CreateOrderData) (hw : WeakInv ob) (hf : Fresh newID ob) (hs : d.Side ≠ Buy) :
    (∀ y ∈ ob.bids,
      (∃ x ∈ (AddOrder ρ newID ob d).1.bids,
        SameOrder y x ∧ x.Filled = y.Filled + got (AddOrder ρ newID ob d).2 y.ID) ∨
      ((∀ x ∈ (AddOrder ρ newID ob d).1.bids, x.ID ≠ y.ID) ∧
        y.Filled + got (AddOrder ρ newID ob d).2 y.ID = y.Quantity)) ∧
    (∀ f ∈ (AddOrder ρ newID ob d).2,
      ∃ z ∈ ob.bids, f.MarketOrderID = z.ID ∧ ¬ before false d.Price z.Price) ∧
    (∀ y ∈ ob.asks, y ∈ (AddOrder ρ newID ob d).1.asks) ∧
    (∀ x ∈ (AddOrder ρ newID ob d).1.asks, x ∈ ob.asks ∨ x.ID = newID) := by
  by_cases hq : d.Quantity ≤ 0
  · rw [AddOrder_nothing ρ newID ob d hq]
    refine ⟨fun y hy => Or.inl ⟨y, hy, SameOrder.refl _, ?_⟩,
      fun f hf' => absurd hf' (List.not_mem_nil f), fun y hy => hy, fun x hx => Or.inl hx⟩
    show y.Filled = y.Filled + got [] y.ID
    rw [got_zero [] y.ID (fun f hf' => absurd hf' (List.not_mem_nil f)), add_zero]
  · have hq' : 0 < d.Quantity := not_le.1 hq
    obtain ⟨e1, e2, _, e4, _⟩ := AddOrder_sell_shape ρ newID ob d hw hf hq' hs
    obtain ⟨hA, hn⟩ := walk_accounting ρ false Buy ob.asks ob.bids ob.bidPrices
      (ob.bidPrices.length + 1) newID d hw.1 hq'
    refine ⟨?_, ?_, ?_, ?_⟩
    · rw [e1, e2]; exact hA
    · rw [e1]; exact hn
    · intro y hy
      rw [e4]
      split
      · exact List.mem_append_left _ hy
      · exact hy
    · intro x hx
      rw [e4] at hx
      split at hx
      · rcases List.mem_append.1 hx with h | h
        · exact Or.inl h
        · rw [List.mem_singleton] at h; rw [h]; exact Or.inr rfl
      · exact Or.inl hx

/-- C13. Maker accounting and frame: for an `AddOrder` call with side Buy or
Sell, drawing an unused identifier, on a book reached by such calls, every order
`y` resting before the call is accounted for: afterwards it is on the book with
`Filled` raised by exactly the sum of the fills naming it, or it is gone and that
sum brought `Filled` to its `Quantity`, and it is gone exactly in that case.  An
order named by no fill is still on its side, unchanged; no fill names an order
of the taker's own side or an opposite order priced beyond the taker's limit. -/
theorem maker_accounting (ob : Orderbook) (hR : ReachableBuySell ob) (ρ : RangeOrder)
    (newID : UUID) (d : CreateOrderData) (hf : Fresh newID ob)
    (hs : d.Side = Buy ∨ d.Side = Sell) :
    ∀ y ∈ ob.bids ++ ob.asks,
      Accounted ((AddOrder ρ newID ob d).1.bids ++ (AddOrder ρ newID ob d).1.asks)
        (AddOrder ρ newID ob d).2 y ∧
      (Unnamed (AddOrder ρ newID ob d).2 y →
        (y ∈ ob.bids → y ∈ (AddOrder ρ newID ob d).1.bids) ∧
        (y ∈ ob.asks → y ∈ (AddOrder ρ newID ob d).1.asks)) ∧
      (d.Side = Buy →
        (y ∈ ob.bids → Unnamed (AddOrder ρ newID ob d).2 y) ∧
        (y ∈ ob.asks → d.Price < y.Price → Unnamed (AddOrder ρ newID ob d).2 y)) ∧
      (d.Side = Sell →
        (y ∈ ob.asks → Unnamed (AddOrder ρ newID ob d).2 y) ∧
        (y ∈ ob.bids → y.Price < d.Price → Unnamed (AddOrder ρ newID ob d).2 y)) := by
  have hw : WeakInv ob := weakInv_of_reachableBy _ ob hR
  have hap : IDsApart ob := idsApart_of_reachableBy _ ob hR
  have hw' : WeakInv (AddOrder ρ newID ob d).1 := weakInv_AddOrder ρ newID ob d hw hf
  have hboth : ∀ y, y ∈ ob.bids → y ∈ ob.asks → False := fun y h1 h2 => hap y h1 y h2 rfl
  rcases hs with hs | hs
  · have hns : d.Side ≠ Sell := by rw [hs]; exact buy_ne_sell
    obtain ⟨h1, h2, h3, h4⟩ := AddOrder_buy_acc ρ newID ob d hw hf hs
    obtain ⟨hopp, hown⟩ := accounting_core true d.Price ob.asks ob.bids
      (AddOrder ρ newID ob d).1.asks (AddOrder ρ newID ob d).1.bids (AddOrder ρ newID ob d).2
      newID hw.2.1 hw.1.2 hw'.2.1.2 h1 h2 h3 h4 (fresh_asks newID ob hf) hap
    have hcongr : ∀ x, x ∈ (AddOrder ρ newID ob d).1.asks ++ (AddOrder ρ newID ob d).1.bids ↔
        x ∈ (AddOrder ρ newID ob d).1.bids ++ (AddOrder ρ newID ob d).1.asks := by
      intro x; simp only [List.mem_append]; exact Or.comm
    intro y hy
    rcases List.mem_append.1 hy with hyb | hya
    · obtain ⟨r1, r2, r3⟩ := hown y hyb
      exact ⟨accounted_congr _ _ _ _ hcongr r1,
        fun _ => ⟨fun _ => r2, fun h => absurd (hboth y hyb h) id⟩,
        fun _ => ⟨fun _ => r3, fun h => absurd (hboth y hyb h) id⟩,
        fun h => absurd h hns⟩
    · obtain ⟨r1, r2, r3⟩ := hopp y hya
      exact ⟨accounted_congr _ _ _ _ hcongr r1,
        fun hun => ⟨fun h => absurd (hboth y h hya) id, fun _ => r2 hun⟩,
        fun _ => ⟨fun h => absurd (hboth y h hya) id,
          fun _ hlt => r3 (by simpa [before] using hlt)⟩,
        fun h => absurd h hns⟩
  · have hnb : d.Side ≠ Buy := by rw [hs]; exact buy_ne_sell.symm
    obtain ⟨h1, h2, h3, h4⟩ := AddOrder_sell_acc ρ newID ob d hw hf hnb
    obtain ⟨hopp, hown⟩ := accounting_core false d.Price ob.bids ob.asks
      (AddOrder ρ newID ob d).1.bids (AddOrder ρ newID ob d).1.asks (AddOrder ρ newID ob d).2
      newID hw.1 hw.2.1.2 hw'.1.2 h1 h2 h3 h4 (fresh_bids newID ob hf)
      (fun a ha b hb h => hap b hb a ha h.symm)
    intro y hy
    rcases List.mem_append.1 hy with hyb | hya
    · obtain ⟨r1, r2, r3⟩ := hopp y hyb
      exact ⟨r1,
        fun hun => ⟨fun _ => r2 hun, fun h => absurd (hboth y hyb h) id⟩,
        fun h => absurd h hnb,
        fun _ => ⟨fun h => absurd (hboth y hyb h) id,
          fun _ hlt => r3 (by simpa [before] using hlt)⟩⟩
    · obtain ⟨r1, r2, r3⟩ := hown y hya
      exact ⟨r1,
        fun _ => ⟨fun h => absurd (hboth y h hya) id, fun _ => r2⟩,
        fun h => absurd h hnb,
        fun _ => ⟨fun _ => r3, fun h => absurd (hboth y h hya) id⟩⟩

/-- C13 at the "walk the book" scenario: after the Buy `(101, 6)` the Sell
`(101, 4)` (order 2) is on the book with `Filled = 3`, the sum of the fills
naming it. -/
theorem maker_accounting_witness :
    Accounted
        ((AddOrder RangeOrder.inserted 3 bookLadder (mkData 3 101 6 Buy)).1.bids ++
          (AddOrder RangeOrder.inserted 3 bookLadder (mkData 3 101 6 Buy)).1.asks)
        (AddOrder RangeOrder.inserted 3 bookLadder (mkData 3 101 6 Buy)).2
        ⟨2, 2, Sell, 101, 4, 0⟩ ∧
    (AddOrder RangeOrder.inserted 3 bookLadder (mkData 3 101 6 Buy)).1.asks =
      [⟨2, 2, Sell, 101, 4, 3⟩] ∧
    got (AddOrder RangeOrder.inserted 3 bookLadder (mkData 3 101 6 Buy)).2 2 = 3 :=
  ⟨(maker_accounting bookLadder (reachable_bookLadder _ (Or.inr rfl) (Or.inr rfl))
      RangeOrder.inserted 3 (mkData 3 101 6 Buy) (by unfold Fresh; decide) (Or.inl rfl)
      ⟨2, 2, Sell, 101, 4, 0⟩ (by decide)).1, by decide, by decide⟩

end ChronoXchange
